import Mathlib

/-!
# vfilter protocols: a shallow embedding of `protocols.go`

The dynamically typed operands of the VQL operators (`Any = interface{}`) are
embedded as the inductive type `Any`, one constructor per dynamic type that
`protocols.go` distinguishes.  Machine integers are carried as `Int`/`Nat`
with explicit wrap-around, run-time panics are values of `Panic`, and the
mutable part of a `*Scope` is passed explicitly.
-/

set_option autoImplicit false

namespace VFilter

/-! ## Values -/

/-- One byte of a Go `string` or `[]byte`. -/
abbrev Byte := Fin 256

/-- Go strings are immutable sequences of bytes. -/
abbrev GoString := List Byte

/-- IEEE-754 double precision values, by the number they denote.  `finite q`
is the double whose value is `q` (`finite 0` is `+0`), `negZero` is `-0`. -/
inductive Float64 where
  | nan
  | posInf
  | negInf
  | negZero
  | finite (q : ℚ)
  deriving DecidableEq

/-- Run-time panics raised by the operations `protocols.go` uses. -/
inductive Panic where
  /-- dereference of a nil pointer (`*t`) -/
  | nilDereference
  /-- failed single-value type assertion (`a.(bool)`) -/
  | typeAssertion
  /-- `==` on two interface values of the same uncomparable dynamic type -/
  | uncomparable
  /-- `reflect.Value.Len` or `Index` on a value of the wrong kind -/
  | reflectKind
  /-- `reflect.Value.Index` outside `[0, Len)` -/
  | indexOutOfRange
  /-- `reflect.Value.Len` or `Type` on the zero `reflect.Value` -/
  | zeroValue
  deriving DecidableEq, Repr

/-- A value of Go type `Any` (`interface{}`), by dynamic type.  Integers carry
their numeric value; `Any.WF` states that it lies in the range of the type.
Pointers carry their address and their pointee, `none` being the nil pointer
of that type.
`slice` and `array` stand for a slice or array of any element type other than
`[]byte`, by the elements `reflect.Value.Index(i).Interface()` yields;
`other` is a value of any remaining dynamic type on which
`reflect.Value.Len` panics (struct, func, pointer to struct, ...); maps,
channels, named string types and pointers to sequences other than `*string`
are not represented. -/
inductive Any where
  | nil
  | bool (b : Bool)
  | int (v : Int)
  | int8 (v : Int)
  | int16 (v : Int)
  | int32 (v : Int)
  | int64 (v : Int)
  | uint (v : Nat)
  | uint8 (v : Nat)
  | uint16 (v : Nat)
  | uint32 (v : Nat)
  | uint64 (v : Nat)
  | float64 (f : Float64)
  | string (s : GoString)
  | stringPtr (p : Option (Nat × GoString))
  | bytes (b : List Byte)
  | Null
  | NullPtr (isNil : Bool)
  | int64Ptr (p : Option (Nat × Int))
  | float64Ptr (p : Option (Nat × Float64))
  | slice (elems : List Any)
  | array (elems : List Any)
  | other (id : Nat)

/-- Range of the value carried by a scalar: `int` and `uint` are 64 bits wide
(the 64-bit platforms), the sized types have their size. -/
def Any.WF : Any → Prop
  | .int v => -2 ^ 63 ≤ v ∧ v < 2 ^ 63
  | .int8 v => -2 ^ 7 ≤ v ∧ v < 2 ^ 7
  | .int16 v => -2 ^ 15 ≤ v ∧ v < 2 ^ 15
  | .int32 v => -2 ^ 31 ≤ v ∧ v < 2 ^ 31
  | .int64 v => -2 ^ 63 ≤ v ∧ v < 2 ^ 63
  | .uint v => v < 2 ^ 64
  | .uint8 v => v < 2 ^ 8
  | .uint16 v => v < 2 ^ 16
  | .uint32 v => v < 2 ^ 32
  | .uint64 v => v < 2 ^ 64
  | .int64Ptr (some (_, v)) => -2 ^ 63 ≤ v ∧ v < 2 ^ 63
  | _ => True

/-! ## Machine arithmetic -/

/-- Smallest `int64`. -/
def MinInt64 : Int := -2 ^ 63

/-- Largest `int64`. -/
def MaxInt64 : Int := 2 ^ 63 - 1

/-- Membership in the `int64` range. -/
def IsInt64 (x : Int) : Prop := MinInt64 ≤ x ∧ x ≤ MaxInt64

/-- Two's-complement reduction of an integer into the `int64` range: the
result of the conversion `int64(t)` and of `int64` arithmetic on overflow. -/
def wrap64 (x : Int) : Int := (x + 2 ^ 63) % 2 ^ 64 - 2 ^ 63

/-- Go `a / b` on `int64` for `b != 0`: the quotient truncated toward zero,
wrapped (only `MinInt64 / -1` overflows). -/
def int64_quo (a b : Int) : Int := wrap64 (Int.tdiv a b)

/-- Number of low bits that do not fit a 53-bit significand: the least `k`
with `n / 2 ^ k < 2 ^ 53` (for `fuel` at least that `k`). -/
def excessBits : (fuel : Nat) → (n : Nat) → Nat
  | 0, _ => 0
  | fuel + 1, n => if n < 2 ^ 53 then 0 else excessBits fuel (n / 2) + 1

/-- Round a natural number to the nearest one with a 53-bit significand, ties
to even: the magnitude of `float64(t)` for an integer `t`. -/
def roundNearestEven53 (n : Nat) : Nat :=
  if n < 2 ^ 53 then n
  else
    let k := excessBits n n
    let q := n / 2 ^ k
    let r := n % 2 ^ k
    let half := 2 ^ (k - 1)
    let q' := if half < r ∨ (r = half ∧ q % 2 = 1) then q + 1 else q
    q' * 2 ^ k

/-- The conversion `float64(t)` of an integer `t`. -/
def Float64.ofInt (v : Int) : Float64 :=
  if v < 0 then .finite (-(roundNearestEven53 v.natAbs : ℚ))
  else .finite (roundNearestEven53 v.natAbs : ℚ)

/-- The number a double denotes, when it is neither NaN nor infinite. -/
def Float64.value? : Float64 → Option ℚ
  | .finite q => some q
  | .negZero => some 0
  | _ => none

/-- Go `a == b` on `float64`: NaN equals nothing, `-0 == +0`. -/
def Float64.eq (a b : Float64) : Bool :=
  match a, b with
  | .nan, _ => false
  | _, .nan => false
  | .posInf, .posInf => true
  | .negInf, .negInf => true
  | a, b =>
    match a.value?, b.value? with
    | some x, some y => decide (x = y)
    | _, _ => false

/-- Go `a < b` on `float64`. -/
def Float64.lt (a b : Float64) : Bool :=
  match a, b with
  | .nan, _ => false
  | _, .nan => false
  | _, .negInf => false
  | .posInf, _ => false
  | .negInf, _ => true
  | _, .posInf => true
  | a, b =>
    match a.value?, b.value? with
    | some x, some y => decide (x < y)
    | _, _ => false

/-- The conversion `int64(t)` of a double: truncation toward zero when the
result is an `int64`; otherwise the result is implementation-dependent and
the amd64 value `MinInt64` is taken. -/
def Float64.toInt64 (f : Float64) : Int :=
  match f.value? with
  | some q =>
    let t : Int := if 0 ≤ q then Rat.floor q else -Rat.floor (-q)
    if MinInt64 ≤ t ∧ t ≤ MaxInt64 then t else MinInt64
  | none => MinInt64

/-- Floating-point arithmetic of the platform (`+`, `-`, `*`, `/` on
`float64`), which the float implementations apply to converted operands. -/
structure Float64Arith where
  add : Float64 → Float64 → Float64
  sub : Float64 → Float64 → Float64
  mul : Float64 → Float64 → Float64
  div : Float64 → Float64 → Float64

/-! ## Conversions (`to_string`, `to_float`, `is_int`, `to_int64`) -/

/-- Source `to_string`: the content of a string-like value and `true`, or
`("", false)`; dereferencing a nil `*string` panics. -/
def to_string (x : Any) : Except Panic (GoString × Bool) :=
  match x with
  | .string t => .ok (t, true)
  | .stringPtr (some (_, t)) => .ok (t, true)
  | .stringPtr none => .error .nilDereference
  | .bytes t => .ok (t, true)
  | _ => .ok ([], false)

/-- Source `to_float`. -/
def to_float (x : Any) : Float64 × Bool :=
  match x with
  | .bool t => if t then (.finite 1, true) else (.finite 0, true)
  | .float64 t => (t, true)
  | .int t => (Float64.ofInt t, true)
  | .uint t => (Float64.ofInt t, true)
  | .int8 t => (Float64.ofInt t, true)
  | .int16 t => (Float64.ofInt t, true)
  | .uint8 t => (Float64.ofInt t, true)
  | .uint16 t => (Float64.ofInt t, true)
  | .uint32 t => (Float64.ofInt t, true)
  | .int32 t => (Float64.ofInt t, true)
  | .uint64 t => (Float64.ofInt t, true)
  | .int64 t => (Float64.ofInt t, true)
  | _ => (.finite 0, false)

/-- Source `is_int`: does `x` resemble an int? -/
def is_int (x : Any) : Bool :=
  match x with
  | .bool _ | .int _ | .int8 _ | .int16 _ | .int32 _ | .int64 _
  | .uint8 _ | .uint16 _ | .uint32 _ | .uint64 _ => true
  | _ => false

/-- Source `to_int64`. -/
def to_int64 (x : Any) : Int × Bool :=
  match x with
  | .bool t => if t then (1, true) else (0, true)
  | .int t => (wrap64 t, true)
  | .uint8 t => (wrap64 t, true)
  | .int8 t => (wrap64 t, true)
  | .uint16 t => (wrap64 t, true)
  | .int16 t => (wrap64 t, true)
  | .uint32 t => (wrap64 t, true)
  | .int32 t => (wrap64 t, true)
  | .uint64 t => (wrap64 t, true)
  | .int64 t => (t, true)
  | .float64 t => (t.toInt64, true)
  | _ => (0, false)

/-! ## Reflection on sequences (`is_array`, `reflect.Value.Len`, `Index`) -/

/-- Source `is_array`: the dynamic type is a slice or an array (`[]byte`
included); false for the nil interface. -/
def is_array (a : Any) : Bool :=
  match a with
  | .bytes _ | .slice _ | .array _ => true
  | _ => false

/-- The call `reflect.ValueOf(a).Len()` on the values modelled here: defined
for slices, arrays and strings, a panic for every other kind. -/
def reflect_Len (a : Any) : Except Panic Nat :=
  match a with
  | .string s => .ok s.length
  | .bytes b => .ok b.length
  | .slice l => .ok l.length
  | .array l => .ok l.length
  | _ => .error .reflectKind

/-- The call `reflect.ValueOf(a).Index(i).Interface()`: the `i`-th element
boxed as `Any` (a `uint8` for strings and byte slices). -/
def reflect_Index (a : Any) (i : Nat) : Except Panic Any :=
  match a with
  | .string s =>
    match s[i]? with
    | some c => .ok (.uint8 c.val)
    | none => .error .indexOutOfRange
  | .bytes b =>
    match b[i]? with
    | some c => .ok (.uint8 c.val)
    | none => .error .indexOutOfRange
  | .slice l =>
    match l[i]? with
    | some e => .ok e
    | none => .error .indexOutOfRange
  | .array l =>
    match l[i]? with
    | some e => .ok e
    | none => .error .indexOutOfRange
  | _ => .error .reflectKind

/-- The loop
`for i := i0; i < v.Len(); i++ { result = append(result, v.Index(i).Interface()) }`
with `todo` iterations left, starting at index `i`. -/
def appendLoop (v : Any) : (todo : Nat) → (i : Nat) → List Any → Except Panic (List Any)
  | 0, _, result => .ok result
  | todo + 1, i, result =>
    match reflect_Index v i with
    | .error p => .error p
    | .ok e => appendLoop v todo (i + 1) (result ++ [e])

/-- Append every element of the sequence `v` to `result`, as the loops of
`_AddSlices.Add` and `_AddSliceAny.Add` do. -/
def appendAll (v : Any) (result : List Any) : Except Panic (List Any) :=
  match reflect_Len v with
  | .error p => .error p
  | .ok n => appendLoop v n 0 result

/-- Source `is_null`: the nil interface, `Null` or `*Null`. -/
def is_null (a : Any) : Bool :=
  match a with
  | .nil => true
  | .Null | .NullPtr _ => true
  | _ => false

/-! ## The scope -/

/-- A compiled regular expression (`*regexp.Regexp`), by the expression it
was compiled from. -/
structure Regexp where
  expr : GoString
  deriving DecidableEq

/-- The mutable part of a `*Scope` that `protocols.go` reads or writes: the
messages passed to `Trace` and `Log`, and the regexp cache. -/
structure Scope where
  traces : List (String × List Any)
  logs : List (String × List Any)
  regexp_cache : GoString → Option Regexp

/-- A Go computation that receives a `*Scope`: it may update the scope, and
it either returns or panics. -/
def Go (α : Type) : Type := Scope → Except Panic α × Scope

/-- Return without touching the scope. -/
def Go.pure {α : Type} (a : α) : Go α := fun s => (.ok a, s)

/-- Sequencing: a panic of the first computation ends the second, the scope
updates made so far remain. -/
def Go.bind {α β : Type} (m : Go α) (f : α → Go β) : Go β := fun s =>
  match m s with
  | (.ok a, s') => f a s'
  | (.error p, s') => (.error p, s')

instance : Monad Go where
  pure := Go.pure
  bind := Go.bind

/-- A computation that does not use the scope. -/
def Go.ofExcept {α : Type} (e : Except Panic α) : Go α := fun s => (e, s)

/-- Modelled from the spec: `Scope.Trace` (scope.go is not under src/), the
advisory trace; the message is recorded on the scope. -/
def Scope.Trace (format : String) (args : List Any) : Go Unit := fun s =>
  (.ok (), { s with traces := s.traces ++ [(format, args)] })

/-- Modelled from the spec: `Scope.Log` (scope.go is not under src/), the
user-visible diagnostic; the message is recorded on the scope. -/
def Scope.Log (format : String) (args : List Any) : Go Unit := fun s =>
  (.ok (), { s with logs := s.logs ++ [(format, args)] })

/-- The methods of `*Scope` that implementations call back into, each applied
to the scope itself: `scope.eq.Eq(scope, a, b)`, `scope.Associative(a, b)`,
`scope.Match(pattern, target)` and `scope.GetMembers(a)`.  What a scope has
registered is decided outside `protocols.go`, so they are parameters. -/
structure ScopeCalls where
  eq_Eq : Any → Any → Go Bool
  Associative : Any → Any → Go (Any × Bool)
  Match : Any → Any → Go Bool
  GetMembers : Any → Go (List GoString)

/-! ## Protocols and dispatchers -/

/-- The loop shared by every dispatcher:
`for _, impl := range impls { if impl.Applicable(..) { return impl.apply(..) } }`
followed by the dispatcher's own ending `notFound`. -/
def dispatchLoop {I R : Type} (applicable : I → Except Panic Bool) (apply : I → Go R)
    (notFound : Go R) : List I → Go R
  | [] => notFound
  | impl :: rest => fun s =>
    match applicable impl with
    | .error p => (.error p, s)
    | .ok true => apply impl s
    | .ok false => dispatchLoop applicable apply notFound rest s

/-- Interface `BoolProtocol`. -/
structure BoolProtocol where
  Applicable : Any → Except Panic Bool
  Bool : ScopeCalls → Any → Go Bool

/-- Struct `_BoolDispatcher`. -/
structure _BoolDispatcher where
  implementations : List BoolProtocol

/-- Source `_BoolDispatcher.Bool`. -/
def _BoolDispatcher.Bool (self : _BoolDispatcher) (scope : ScopeCalls) (a : Any) : Go Bool :=
  dispatchLoop (fun impl => impl.Applicable a) (fun impl => impl.Bool scope a)
    (do
      Scope.Trace "Protocol Bool not found for %v (%T)" [a, a]
      pure false)
    self.implementations

/-- Interface `EqProtocol`. -/
structure EqProtocol where
  Applicable : Any → Any → Except Panic Bool
  Eq : ScopeCalls → Any → Any → Go Bool

/-- Struct `_EqDispatcher`. -/
structure _EqDispatcher where
  impl : List EqProtocol

/-- Source `_EqDispatcher.Eq`. -/
def _EqDispatcher.Eq (self : _EqDispatcher) (scope : ScopeCalls) (a b : Any) : Go Bool :=
  dispatchLoop (fun impl => impl.Applicable a b) (fun impl => impl.Eq scope a b)
    (do
      Scope.Trace "Protocol Equal not found for %v (%T) and %v (%T)" [a, a, b, b]
      pure false)
    self.impl

/-- Interface `LtProtocol`. -/
structure LtProtocol where
  Applicable : Any → Any → Except Panic Bool
  Lt : ScopeCalls → Any → Any → Go Bool

/-- Struct `_LtDispatcher`. -/
structure _LtDispatcher where
  impl : List LtProtocol

/-- Source `_LtDispatcher.Lt`: no trace is emitted here. -/
def _LtDispatcher.Lt (self : _LtDispatcher) (scope : ScopeCalls) (a b : Any) : Go Bool :=
  dispatchLoop (fun impl => impl.Applicable a b) (fun impl => impl.Lt scope a b)
    (pure false) self.impl

/-- Interface `AddProtocol`. -/
structure AddProtocol where
  Applicable : Any → Any → Except Panic Bool
  Add : ScopeCalls → Any → Any → Go Any

/-- Struct `_AddDispatcher`. -/
structure _AddDispatcher where
  impl : List AddProtocol

/-- Source `_AddDispatcher.Add`. -/
def _AddDispatcher.Add (self : _AddDispatcher) (scope : ScopeCalls) (a b : Any) : Go Any :=
  dispatchLoop (fun impl => impl.Applicable a b) (fun impl => impl.Add scope a b)
    (do
      Scope.Trace "Protocol Add not found for %v (%T) and %v (%T)" [a, a, b, b]
      pure Any.Null)
    self.impl

/-- Interface `SubProtocol`. -/
structure SubProtocol where
  Applicable : Any → Any → Except Panic Bool
  Sub : ScopeCalls → Any → Any → Go Any

/-- Struct `_SubDispatcher`. -/
structure _SubDispatcher where
  impl : List SubProtocol

/-- Source `_SubDispatcher.Sub`. -/
def _SubDispatcher.Sub (self : _SubDispatcher) (scope : ScopeCalls) (a b : Any) : Go Any :=
  dispatchLoop (fun impl => impl.Applicable a b) (fun impl => impl.Sub scope a b)
    (do
      Scope.Trace "Protocol Sub not found for %v (%T) and %v (%T)" [a, a, b, b]
      pure Any.Null)
    self.impl

/-- Interface `MulProtocol`. -/
structure MulProtocol where
  Applicable : Any → Any → Except Panic Bool
  Mul : ScopeCalls → Any → Any → Go Any

/-- Struct `_MulDispatcher`. -/
structure _MulDispatcher where
  impl : List MulProtocol

/-- Source `_MulDispatcher.Mul`. -/
def _MulDispatcher.Mul (self : _MulDispatcher) (scope : ScopeCalls) (a b : Any) : Go Any :=
  dispatchLoop (fun impl => impl.Applicable a b) (fun impl => impl.Mul scope a b)
    (do
      Scope.Trace "Protocol Mul not found for %v (%T) and %v (%T)" [a, a, b, b]
      pure Any.Null)
    self.impl

/-- Interface `DivProtocol`. -/
structure DivProtocol where
  Applicable : Any → Any → Except Panic Bool
  Div : ScopeCalls → Any → Any → Go Any

/-- Struct `_DivDispatcher`. -/
structure _DivDispatcher where
  impl : List DivProtocol

/-- Source `_DivDispatcher.Div`. -/
def _DivDispatcher.Div (self : _DivDispatcher) (scope : ScopeCalls) (a b : Any) : Go Any :=
  dispatchLoop (fun impl => impl.Applicable a b) (fun impl => impl.Div scope a b)
    (do
      Scope.Trace "Protocol Div not found for %v (%T) and %v (%T)" [a, a, b, b]
      pure Any.Null)
    self.impl

/-- Interface `RegexProtocol`. -/
structure RegexProtocol where
  Applicable : Any → Any → Except Panic Bool
  Match : ScopeCalls → Any → Any → Go Bool

/-- Struct `_RegexDispatcher`. -/
structure _RegexDispatcher where
  impl : List RegexProtocol

/-- Source `_RegexDispatcher.Match`. -/
def _RegexDispatcher.Match (self : _RegexDispatcher) (scope : ScopeCalls)
    (pattern target : Any) : Go Bool :=
  dispatchLoop (fun impl => impl.Applicable pattern target)
    (fun impl => impl.Match scope pattern target)
    (do
      Scope.Trace "Protocol Regex not found for %v (%T) and %v (%T)"
        [pattern, pattern, target, target]
      pure false)
    self.impl

/-- Interface `MembershipProtocol`. -/
structure MembershipProtocol where
  Applicable : Any → Any → Except Panic Bool
  Membership : ScopeCalls → Any → Any → Go Bool

/-- Struct `_MembershipDispatcher`. -/
structure _MembershipDispatcher where
  impl : List MembershipProtocol

/-- The default loop of `_MembershipDispatcher.Membership`:
`for i := i0; i < value.Len(); i++ { if scope.eq.Eq(scope, a, item) { return true } }`
with `todo` iterations left; `false` when the loop runs out. -/
def membershipLoop (scope : ScopeCalls) (a value : Any) : (todo : Nat) → (i : Nat) → Go Bool
  | 0, _ => pure false
  | todo + 1, i => do
    let item ← Go.ofExcept (reflect_Index value i)
    if (← scope.eq_Eq a item) then
      pure true
    else
      membershipLoop scope a value todo (i + 1)

/-- Source `_MembershipDispatcher.Membership`: the registered implementations
first, then the test of the left operand against each member of the right. -/
def _MembershipDispatcher.Membership (self : _MembershipDispatcher) (scope : ScopeCalls)
    (a b : Any) : Go Bool :=
  dispatchLoop (fun impl => impl.Applicable a b) (fun impl => impl.Membership scope a b)
    (match b with
      | .nil => pure false
      | b =>
        if is_array b then do
          let n ← Go.ofExcept (reflect_Len b)
          membershipLoop scope a b n 0
        else do
          Scope.Trace "Protocol Membership not found for %v (%T) and %v (%T)" [a, a, b, b]
          pure false)
    self.impl

/-! ## Baseline implementations: integer equality -/

/-- Source `_IntEq.Applicable`. -/
def _IntEq.Applicable (a b : Any) : Bool := is_int a && is_int b

/-- Source `_IntEq.Eq`: comparison of the two `int64` conversions. -/
def _IntEq.Eq (a b : Any) : Bool :=
  let a_val := (to_int64 a).1
  let b_val := (to_int64 b).1
  decide (a_val = b_val)

/-- The value `_IntEq{}` as an `EqProtocol`. -/
def _IntEq : EqProtocol where
  Applicable a b := .ok (_IntEq.Applicable a b)
  Eq _ a b := pure (_IntEq.Eq a b)

/-! ## Baseline implementations: Add -/

/-- Source `_AddStrings.Applicable`: both conversions are made, then
combined. -/
def _AddStrings.Applicable (a b : Any) : Except Panic Bool := do
  let (_, a_ok) ← to_string a
  let (_, b_ok) ← to_string b
  pure (a_ok && b_ok)

/-- Source `_AddStrings.Add`: `a_str + b_str`, a Go `string`. -/
def _AddStrings.Add (a b : Any) : Except Panic Any := do
  let (a_str, _) ← to_string a
  let (b_str, _) ← to_string b
  pure (.string (a_str ++ b_str))

/-- The value `_AddStrings{}` as an `AddProtocol`. -/
def _AddStrings : AddProtocol where
  Applicable a b := _AddStrings.Applicable a b
  Add _ a b := Go.ofExcept (_AddStrings.Add a b)

/-- Source `_AddInts.Applicable`. -/
def _AddInts.Applicable (a b : Any) : Bool := is_int a && is_int b

/-- Source `_AddInts.Add`: `a_val + b_val` on `int64`. -/
def _AddInts.Add (a b : Any) : Any :=
  let a_val := (to_int64 a).1
  let b_val := (to_int64 b).1
  .int64 (wrap64 (a_val + b_val))

/-- The value `_AddInts{}` as an `AddProtocol`. -/
def _AddInts : AddProtocol where
  Applicable a b := .ok (_AddInts.Applicable a b)
  Add _ a b := pure (_AddInts.Add a b)

/-- Source `_AddFloats.Applicable`. -/
def _AddFloats.Applicable (a b : Any) : Bool :=
  let a_ok := (to_float a).2
  let b_ok := (to_float b).2
  a_ok && b_ok

/-- Source `_AddFloats.Add`: `a_val + b_val` on `float64`. -/
def _AddFloats.Add (fp : Float64Arith) (a b : Any) : Any :=
  let a_val := (to_float a).1
  let b_val := (to_float b).1
  .float64 (fp.add a_val b_val)

/-- The value `_AddFloats{}` as an `AddProtocol`. -/
def _AddFloats (fp : Float64Arith) : AddProtocol where
  Applicable a b := .ok (_AddFloats.Applicable a b)
  Add _ a b := pure (_AddFloats.Add fp a b)

/-- Source `_AddSlices.Applicable`. -/
def _AddSlices.Applicable (a b : Any) : Bool := is_array a && is_array b

/-- Source `_AddSlices.Add`: a fresh `[]Any` filled by the loop over `a`, then
by the loop over `b`. -/
def _AddSlices.Add (a b : Any) : Except Panic Any := do
  let result : List Any := []
  let result ← appendAll a result
  let result ← appendAll b result
  pure (.slice result)

/-- The value `_AddSlices{}` as an `AddProtocol`. -/
def _AddSlices : AddProtocol where
  Applicable a b := .ok (_AddSlices.Applicable a b)
  Add _ a b := Go.ofExcept (_AddSlices.Add a b)

/-- Source `_AddNull.Applicable`. -/
def _AddNull.Applicable (a b : Any) : Bool :=
  (is_array a && is_null b) || (is_null a && is_array b)

/-- Source `_AddNull.Add`. -/
def _AddNull.Add (a b : Any) : Any :=
  if is_null a then b else a

/-- The value `_AddNull{}` as an `AddProtocol`. -/
def _AddNull : AddProtocol where
  Applicable a b := .ok (_AddNull.Applicable a b)
  Add _ a b := pure (_AddNull.Add a b)

/-- Source `_AddSliceAny.Applicable`. -/
def _AddSliceAny.Applicable (a b : Any) : Bool := is_array a || is_array b

/-- Source `_AddSliceAny.Add`: when `a` is an array, its elements then `b`;
otherwise `a` then the elements of `b`. -/
def _AddSliceAny.Add (a b : Any) : Except Panic Any := do
  let result : List Any := []
  if is_array a then
    let result ← appendAll a result
    pure (.slice (result ++ [b]))
  else
    let result := result ++ [a]
    let result ← appendAll b result
    pure (.slice result)

/-- The value `_AddSliceAny{}` as an `AddProtocol`. -/
def _AddSliceAny : AddProtocol where
  Applicable a b := .ok (_AddSliceAny.Applicable a b)
  Add _ a b := Go.ofExcept (_AddSliceAny.Add a b)

/-! ## Baseline implementations: Sub, Mul, Div -/

/-- Source `_SubFloats.Applicable`. -/
def _SubFloats.Applicable (a b : Any) : Bool :=
  let a_ok := (to_float a).2
  let b_ok := (to_float b).2
  a_ok && b_ok

/-- Source `_SubFloats.Sub`. -/
def _SubFloats.Sub (fp : Float64Arith) (a b : Any) : Any :=
  let a_val := (to_float a).1
  let b_val := (to_float b).1
  .float64 (fp.sub a_val b_val)

/-- The value `_SubFloats{}` as a `SubProtocol`. -/
def _SubFloats (fp : Float64Arith) : SubProtocol where
  Applicable a b := .ok (_SubFloats.Applicable a b)
  Sub _ a b := pure (_SubFloats.Sub fp a b)

/-- Source `_SubInts.Applicable`. -/
def _SubInts.Applicable (a b : Any) : Bool := is_int a && is_int b

/-- Source `_SubInts.Sub`: `a_val - b_val` on `int64`. -/
def _SubInts.Sub (a b : Any) : Any :=
  let a_val := (to_int64 a).1
  let b_val := (to_int64 b).1
  .int64 (wrap64 (a_val - b_val))

/-- The value `_SubInts{}` as a `SubProtocol`. -/
def _SubInts : SubProtocol where
  Applicable a b := .ok (_SubInts.Applicable a b)
  Sub _ a b := pure (_SubInts.Sub a b)

/-- Source `_MulInt.Applicable`. -/
def _MulInt.Applicable (a b : Any) : Bool := is_int a && is_int b

/-- Source `_MulInt.Mul`: `a_val * b_val` on `int64`. -/
def _MulInt.Mul (a b : Any) : Any :=
  let a_val := (to_int64 a).1
  let b_val := (to_int64 b).1
  .int64 (wrap64 (a_val * b_val))

/-- The value `_MulInt{}` as a `MulProtocol`. -/
def _MulInt : MulProtocol where
  Applicable a b := .ok (_MulInt.Applicable a b)
  Mul _ a b := pure (_MulInt.Mul a b)

/-- Source `_NumericMul.Applicable`. -/
def _NumericMul.Applicable (a b : Any) : Bool :=
  let a_ok := (to_float a).2
  let b_ok := (to_float b).2
  a_ok && b_ok

/-- Source `_NumericMul.Mul`. -/
def _NumericMul.Mul (fp : Float64Arith) (a b : Any) : Any :=
  let a_val := (to_float a).1
  let b_val := (to_float b).1
  .float64 (fp.mul a_val b_val)

/-- The value `_NumericMul{}` as a `MulProtocol`. -/
def _NumericMul (fp : Float64Arith) : MulProtocol where
  Applicable a b := .ok (_NumericMul.Applicable a b)
  Mul _ a b := pure (_NumericMul.Mul fp a b)

/-- Source `_NumericDiv.Applicable`. -/
def _NumericDiv.Applicable (a b : Any) : Bool :=
  let a_ok := (to_float a).2
  let b_ok := (to_float b).2
  a_ok && b_ok

/-- Source `_NumericDiv.Div`: the boolean `false` when `b_val == 0`, else the
`float64` quotient. -/
def _NumericDiv.Div (fp : Float64Arith) (a b : Any) : Any :=
  let a_val := (to_float a).1
  let b_val := (to_float b).1
  if b_val.eq (.finite 0) then .bool false
  else .float64 (fp.div a_val b_val)

/-- The value `_NumericDiv{}` as a `DivProtocol`. -/
def _NumericDiv (fp : Float64Arith) : DivProtocol where
  Applicable a b := .ok (_NumericDiv.Applicable a b)
  Div _ a b := pure (_NumericDiv.Div fp a b)

/-- Source `_DivInt.Applicable`. -/
def _DivInt.Applicable (a b : Any) : Bool := is_int a && is_int b

/-- Source `_DivInt.Div`: the boolean `false` when `b_val == 0`, else the
`int64` quotient. -/
def _DivInt.Div (a b : Any) : Any :=
  let a_val := (to_int64 a).1
  let b_val := (to_int64 b).1
  if b_val = 0 then .bool false
  else .int64 (int64_quo a_val b_val)

/-- The value `_DivInt{}` as a `DivProtocol`. -/
def _DivInt : DivProtocol where
  Applicable a b := .ok (_DivInt.Applicable a b)
  Div _ a b := pure (_DivInt.Div a b)

/-- Interface `AssociativeProtocol`. -/
structure AssociativeProtocol where
  Applicable : Any → Any → Except Panic Bool
  Associative : ScopeCalls → Any → Any → Go (Any × Bool)
  GetMembers : ScopeCalls → Any → Go (List GoString)

/-- Struct `_AssociativeDispatcher`. -/
structure _AssociativeDispatcher where
  impl : List AssociativeProtocol

/-- Source `_AssociativeDispatcher.Associative`: the registered
implementations first, then the last resort
`DefaultAssociative{}.Associative(scope, a, b)`, whose reflection over host
types is passed as `DefaultAssociative_Associative`. -/
def _AssociativeDispatcher.Associative (self : _AssociativeDispatcher)
    (DefaultAssociative_Associative : ScopeCalls → Any → Any → Go (Any × Bool))
    (scope : ScopeCalls) (a b : Any) : Go (Any × Bool) :=
  dispatchLoop (fun impl => impl.Applicable a b) (fun impl => impl.Associative scope a b)
    (DefaultAssociative_Associative scope a b) self.impl

/-! ## Baseline implementations: Bool -/

/-- Source `_BoolImpl.Applicable`: does `a.(bool)` succeed? -/
def _BoolImpl.Applicable (a : Any) : Bool :=
  match a with
  | .bool _ => true
  | _ => false

/-- Source `_BoolImpl.Bool`: the type assertion `a.(bool)`. -/
def _BoolImpl.Bool (a : Any) : Except Panic Bool :=
  match a with
  | .bool t => .ok t
  | _ => .error .typeAssertion

/-- The value `_BoolImpl{}` as a `BoolProtocol`. -/
def _BoolImpl : BoolProtocol where
  Applicable a := .ok (_BoolImpl.Applicable a)
  Bool _ a := Go.ofExcept (_BoolImpl.Bool a)

/-- Source `_BoolInt.Applicable`. -/
def _BoolInt.Applicable (a : Any) : Bool :=
  let a_ok := (to_float a).2
  a_ok

/-- Source `_BoolInt.Bool`: `a_val != 0` on the `float64` conversion. -/
def _BoolInt.Bool (a : Any) : Bool :=
  let a_val := (to_float a).1
  if !(a_val.eq (.finite 0)) then true else false

/-- The value `_BoolInt{}` as a `BoolProtocol`. -/
def _BoolInt : BoolProtocol where
  Applicable a := .ok (_BoolInt.Applicable a)
  Bool _ a := pure (_BoolInt.Bool a)

/-- Source `_BoolString.Applicable`: the dynamic type is `string` or
`*string`. -/
def _BoolString.Applicable (a : Any) : Bool :=
  match a with
  | .string _ | .stringPtr _ => true
  | _ => false

/-- Source `_BoolString.Bool`: `len(t) > 0` for a `string`, `len(*t) > 0` for
a `*string` (a panic on the nil pointer), `false` otherwise. -/
def _BoolString.Bool (a : Any) : Except Panic Bool :=
  match a with
  | .string t => .ok (decide (t.length > 0))
  | .stringPtr (some (_, t)) => .ok (decide (t.length > 0))
  | .stringPtr none => .error .nilDereference
  | _ => .ok false

/-- The value `_BoolString{}` as a `BoolProtocol`. -/
def _BoolString : BoolProtocol where
  Applicable a := .ok (_BoolString.Applicable a)
  Bool _ a := Go.ofExcept (_BoolString.Bool a)

/-- Source `_BoolSlice.Applicable`. -/
def _BoolSlice.Applicable (a : Any) : Bool := is_array a

/-- Source `_BoolSlice.Bool`: `value_a.Len() > 0`. -/
def _BoolSlice.Bool (a : Any) : Except Panic Bool := do
  let n ← reflect_Len a
  pure (decide (n > 0))

/-- The value `_BoolSlice{}` as a `BoolProtocol`. -/
def _BoolSlice : BoolProtocol where
  Applicable a := .ok (_BoolSlice.Applicable a)
  Bool _ a := Go.ofExcept (_BoolSlice.Bool a)

/-! ## Baseline implementations: string and array equality -/

/-- Pointer comparison `p == q`: two nil pointers are equal, two non-nil
pointers are equal when they hold the same address. -/
def pointerEq {α : Type} (p q : Option (Nat × α)) : Bool :=
  match p, q with
  | none, none => true
  | some (x, _), some (y, _) => decide (x = y)
  | _, _ => false

/-- Go `a == b` on two interface values: false when the dynamic types differ,
the comparison of the dynamic values when they agree, a panic when that
common type is not comparable (`[]byte`).  For operands whose dynamic types
the model does not tell apart (slices, arrays, host values, pointers to the
zero-size `Null`) the comparison is `hostEq`. -/
def interfaceEq (hostEq : Any → Any → Except Panic Bool) (a b : Any) : Except Panic Bool :=
  match a with
  | .nil => match b with
    | .nil => .ok true
    | _ => .ok false
  | .bool x => match b with
    | .bool y => .ok (decide (x = y))
    | _ => .ok false
  | .int x => match b with
    | .int y => .ok (decide (x = y))
    | _ => .ok false
  | .int8 x => match b with
    | .int8 y => .ok (decide (x = y))
    | _ => .ok false
  | .int16 x => match b with
    | .int16 y => .ok (decide (x = y))
    | _ => .ok false
  | .int32 x => match b with
    | .int32 y => .ok (decide (x = y))
    | _ => .ok false
  | .int64 x => match b with
    | .int64 y => .ok (decide (x = y))
    | _ => .ok false
  | .uint x => match b with
    | .uint y => .ok (decide (x = y))
    | _ => .ok false
  | .uint8 x => match b with
    | .uint8 y => .ok (decide (x = y))
    | _ => .ok false
  | .uint16 x => match b with
    | .uint16 y => .ok (decide (x = y))
    | _ => .ok false
  | .uint32 x => match b with
    | .uint32 y => .ok (decide (x = y))
    | _ => .ok false
  | .uint64 x => match b with
    | .uint64 y => .ok (decide (x = y))
    | _ => .ok false
  | .float64 x => match b with
    | .float64 y => .ok (x.eq y)
    | _ => .ok false
  | .string x => match b with
    | .string y => .ok (decide (x = y))
    | _ => .ok false
  | .stringPtr p => match b with
    | .stringPtr q => .ok (pointerEq p q)
    | _ => .ok false
  | .bytes _ => match b with
    | .bytes _ => .error .uncomparable
    | _ => .ok false
  | .Null => match b with
    | .Null => .ok true
    | _ => .ok false
  | .NullPtr x => match b with
    | .NullPtr y => if x && y then .ok true else if x || y then .ok false else hostEq a b
    | _ => .ok false
  | .int64Ptr p => match b with
    | .int64Ptr q => .ok (pointerEq p q)
    | _ => .ok false
  | .float64Ptr p => match b with
    | .float64Ptr q => .ok (pointerEq p q)
    | _ => .ok false
  | .slice _ => match b with
    | .slice _ => hostEq a b
    | _ => .ok false
  | .array _ => match b with
    | .array _ => hostEq a b
    | _ => .ok false
  | .other _ => match b with
    | .other _ => hostEq a b
    | _ => .ok false

/-- Source `_StringEq.Eq`: `a == b` on the two interface values. -/
def _StringEq.Eq (hostEq : Any → Any → Except Panic Bool) (a b : Any) : Except Panic Bool :=
  interfaceEq hostEq a b

/-- Source `_StringEq.Applicable`: both conversions are made, then
combined. -/
def _StringEq.Applicable (a b : Any) : Except Panic Bool := do
  let (_, a_ok) ← to_string a
  let (_, b_ok) ← to_string b
  pure (a_ok && b_ok)

/-- The value `_StringEq{}` as an `EqProtocol`. -/
def _StringEq (hostEq : Any → Any → Except Panic Bool) : EqProtocol where
  Applicable a b := _StringEq.Applicable a b
  Eq _ a b := Go.ofExcept (_StringEq.Eq hostEq a b)

/-- The loop of `_ArrayEq.Eq`:
`for i := i0; i < value_a.Len(); i++ { if !scope.eq.Eq(scope, a[i], b[i]) { return false } }`
with `todo` iterations left; `true` when the loop runs out. -/
def arrayEqLoop (scope : ScopeCalls) (a b : Any) : (todo : Nat) → (i : Nat) → Go Bool
  | 0, _ => pure true
  | todo + 1, i => do
    let x ← Go.ofExcept (reflect_Index a i)
    let y ← Go.ofExcept (reflect_Index b i)
    if !(← scope.eq_Eq x y) then
      pure false
    else
      arrayEqLoop scope a b todo (i + 1)

/-- Source `_ArrayEq.Eq`: equal lengths, then element by element through the
scope's Eq dispatcher, stopping at the first difference. -/
def _ArrayEq.Eq (scope : ScopeCalls) (a b : Any) : Go Bool := do
  let la ← Go.ofExcept (reflect_Len a)
  let lb ← Go.ofExcept (reflect_Len b)
  if la != lb then
    pure false
  else
    arrayEqLoop scope a b la 0

/-- Source `_ArrayEq.Applicable`. -/
def _ArrayEq.Applicable (a b : Any) : Bool := is_array a && is_array b

/-- The value `_ArrayEq{}` as an `EqProtocol`. -/
def _ArrayEq : EqProtocol where
  Applicable a b := .ok (_ArrayEq.Applicable a b)
  Eq scope a b := _ArrayEq.Eq scope a b

/-! ## Baseline implementations: string order and substring membership -/

/-- Go `x < y` on strings: the first differing byte decides, a proper prefix
is smaller. -/
def stringLess : GoString → GoString → Bool
  | [], [] => false
  | [], _ :: _ => true
  | _ :: _, [] => false
  | x :: xs, y :: ys =>
    if x < y then true
    else if y < x then false
    else stringLess xs ys

/-- Source `_StringLt.Lt`: `a_str < b_str`. -/
def _StringLt.Lt (a b : Any) : Except Panic Bool := do
  let (a_str, _) ← to_string a
  let (b_str, _) ← to_string b
  pure (stringLess a_str b_str)

/-- Source `_StringLt.Applicable`. -/
def _StringLt.Applicable (a b : Any) : Except Panic Bool := do
  let (_, a_ok) ← to_string a
  let (_, b_ok) ← to_string b
  pure (a_ok && b_ok)

/-- The value `_StringLt{}` as an `LtProtocol`. -/
def _StringLt : LtProtocol where
  Applicable a b := _StringLt.Applicable a b
  Lt _ a b := Go.ofExcept (_StringLt.Lt a b)

/-- Go `strings.HasPrefix(s, prefix)`. -/
def strings_HasPrefix : GoString → GoString → Bool
  | _, [] => true
  | [], _ :: _ => false
  | x :: xs, y :: ys => decide (x = y) && strings_HasPrefix xs ys

/-- Go `strings.Contains(s, substr)`: `substr` starts at some position
of `s`. -/
def strings_Contains : GoString → GoString → Bool
  | [], substr => strings_HasPrefix [] substr
  | x :: xs, substr => strings_HasPrefix (x :: xs) substr || strings_Contains xs substr

/-- Source `_SubstringMembership.Applicable`. -/
def _SubstringMembership.Applicable (a b : Any) : Except Panic Bool := do
  let (_, a_ok) ← to_string a
  let (_, b_ok) ← to_string b
  pure (a_ok && b_ok)

/-- Source `_SubstringMembership.Membership`:
`strings.Contains(b_str, a_str)`. -/
def _SubstringMembership.Membership (a b : Any) : Except Panic Bool := do
  let (a_str, _) ← to_string a
  let (b_str, _) ← to_string b
  pure (strings_Contains b_str a_str)

/-- The value `_SubstringMembership{}` as a `MembershipProtocol`. -/
def _SubstringMembership : MembershipProtocol where
  Applicable a b := _SubstringMembership.Applicable a b
  Membership _ a b := Go.ofExcept (_SubstringMembership.Membership a b)

/-! ## The last resort: `DefaultAssociative` -/

/-- What `DefaultAssociative` reads off a `reflect.Value` it got from a
struct field or a method call: `CanInterface()`, `Kind() == reflect.Ptr &&
IsNil()`, and `Interface()`. -/
structure Reflected where
  canInterface : Bool
  isNilPtr : Bool
  value : Any

/-- Reflection over host types, and the helpers of utils.go (not under
src/), which `DefaultAssociative` consults:
`is_exported(name)`; `strings.Title(name)`; whether
`reflect.Indirect(reflect.ValueOf(a))` has kind Struct (asked for `Null` and
host values only); `FieldByName(name)` of that struct when `IsValid()`;
for `reflect.ValueOf(a).MethodByName(name)`, when `_Callable` accepts it, how
`Call` with no arguments ends (a panic, or the results); whether the element
type of a slice or array is a pointer type; whether a host value is a nil
pointer. -/
structure Reflection where
  is_exported : GoString → Bool
  strings_Title : GoString → GoString
  isStruct : Any → Bool
  FieldByName : Any → GoString → Option Reflected
  Method : Any → GoString → Option (Except Panic (List Reflected))
  elemKindPtr : Any → Bool
  otherIsNil : Nat → Bool

/-- The value `reflect.Indirect(reflect.ValueOf(a))`: the pointee of a
pointer, `a` itself otherwise; `none` is the zero `reflect.Value` (of the nil
interface and of nil pointers).  A non-nil host pointer stands for what it
points at. -/
def reflect_Indirect (R : Reflection) (a : Any) : Option Any :=
  match a with
  | .nil => none
  | .stringPtr none => none
  | .stringPtr (some (_, t)) => some (.string t)
  | .int64Ptr none => none
  | .int64Ptr (some (_, t)) => some (.int64 t)
  | .float64Ptr none => none
  | .float64Ptr (some (_, t)) => some (.float64 t)
  | .NullPtr isNil => if isNil then none else some .Null
  | .other id => if R.otherIsNil id then none else some (.other id)
  | a => some a

/-- `a_value.Len()` on the result of `reflect.Indirect`. -/
def reflect_Value_Len (a_value : Option Any) : Except Panic Nat :=
  match a_value with
  | none => .error .zeroValue
  | some v => reflect_Len v

/-- Is the value a nil pointer? -/
def isNilPointer (R : Reflection) (e : Any) : Bool :=
  match e with
  | .stringPtr none => true
  | .int64Ptr none => true
  | .float64Ptr none => true
  | .NullPtr isNil => isNil
  | .other id => R.otherIsNil id
  | _ => false

/-- The test `value.Kind() == reflect.Ptr && value.IsNil()` on the element
`e` got by `Index` from the sequence `v`: the elements of strings and byte
slices are bytes; those of other sequences are pointers when the element
type is one. -/
def elemIsNilPtr (R : Reflection) (v e : Any) : Bool :=
  match v with
  | .slice _ => R.elemKindPtr v && isNilPointer R e
  | .array _ => R.elemKindPtr v && isNilPointer R e
  | _ => false

/-- The index branch of `DefaultAssociative.Associative`, shared by the
`*float64` and `*int64` cases, for `idx := int(*field_name)`. -/
def DefaultAssociative.index (R : Reflection) (a : Any) (idx : Int) :
    Except Panic (Any × Bool) :=
  let a_value := reflect_Indirect R a
  if idx < 0 then .ok (.NullPtr false, false)
  else
    match reflect_Value_Len a_value with
    | .error p => .error p
    | .ok n =>
      if idx > n then .ok (.NullPtr false, false)
      else
        match a_value with
        | none => .error .zeroValue
        | some v =>
          match reflect_Index v idx.toNat with
          | .error p => .error p
          | .ok value =>
            if elemIsNilPtr R v value then .ok (.NullPtr false, true)
            else .ok (value, true)

/-- The loop of the slice branch:
`for i := i0; i < a_value.Len(); i++ { if item, pres := scope.Associative(element, b); pres { result = append(result, item) } }`
with `todo` iterations left. -/
def associativeLoop (scope : ScopeCalls) (a_value b : Any) :
    (todo : Nat) → (i : Nat) → List Any → Go (List Any)
  | 0, _, result => pure result
  | todo + 1, i, result => do
    let element ← Go.ofExcept (reflect_Index a_value i)
    let (item, pres) ← scope.Associative element b
    if pres then
      associativeLoop scope a_value b todo (i + 1) (result ++ [item])
    else
      associativeLoop scope a_value b todo (i + 1) result

/-- The end of the string case: when `a_type.Kind() == reflect.Slice`, the
access mapped over the elements; otherwise the final `return Null{}, false`. -/
def DefaultAssociative.sliceBranch (scope : ScopeCalls) (a_value b : Any) : Go (Any × Bool) :=
  match a_value with
  | .slice _ | .bytes _ => do
    let result : List Any := []
    let n ← Go.ofExcept (reflect_Len a_value)
    let result ← associativeLoop scope a_value b n 0 result
    pure (.slice result, true)
  | _ => pure (.Null, false)

/-- The method branch of the string case, then the slice branch. -/
def DefaultAssociative.methodBranch (R : Reflection) (scope : ScopeCalls)
    (a a_value : Any) (field_name : GoString) (b : Any) : Go (Any × Bool) :=
  match R.Method a field_name with
  | some (.error p) => Go.ofExcept (.error p)
  | some (.ok results) =>
    if results.length = 1 ∨ results.length = 2 then
      match results.head? with
      | some res =>
        if res.canInterface then
          if res.isNilPtr then pure (.NullPtr false, true)
          else pure (res.value, true)
        else DefaultAssociative.sliceBranch scope a_value b
      | none => DefaultAssociative.sliceBranch scope a_value b
    else DefaultAssociative.sliceBranch scope a_value b
  | none => DefaultAssociative.sliceBranch scope a_value b

/-- The string case of `DefaultAssociative.Associative`: the struct field,
then the method, then the slice. -/
def DefaultAssociative.field (R : Reflection) (scope : ScopeCalls) (a : Any)
    (field_name : GoString) (b : Any) : Go (Any × Bool) :=
  let field_name := if !R.is_exported field_name then R.strings_Title field_name else field_name
  match reflect_Indirect R a with
  | none => Go.ofExcept (.error .zeroValue)
  | some a_value =>
    let isStruct := match a_value with
      | .Null => R.isStruct a_value
      | .other _ => R.isStruct a_value
      | _ => false
    if isStruct then
      match R.FieldByName a_value field_name with
      | some field_value =>
        if field_value.canInterface then
          if field_value.isNilPtr then pure (.NullPtr false, true)
          else pure (field_value.value, true)
        else DefaultAssociative.methodBranch R scope a a_value field_name b
      | none => DefaultAssociative.methodBranch R scope a a_value field_name b
    else DefaultAssociative.methodBranch R scope a a_value field_name b

/-- The body of `DefaultAssociative.Associative`, before `recover`. -/
def DefaultAssociative.body (R : Reflection) (scope : ScopeCalls) (a b : Any) :
    Go (Any × Bool) :=
  match b with
  | .float64Ptr none => Go.ofExcept (.error .nilDereference)
  | .float64Ptr (some (_, f)) => Go.ofExcept (DefaultAssociative.index R a f.toInt64)
  | .int64Ptr none => Go.ofExcept (.error .nilDereference)
  | .int64Ptr (some (_, v)) => Go.ofExcept (DefaultAssociative.index R a (wrap64 v))
  | .string field_name => DefaultAssociative.field R scope a field_name b
  | _ => pure (.Null, false)

/-- Source `DefaultAssociative.Associative`: the deferred `recover()` turns a
panic of the body into a return of the named results, still `(nil, false)`;
what the scope recorded before the panic remains. -/
def DefaultAssociative.Associative (R : Reflection) (scope : ScopeCalls) (a b : Any) :
    Go (Any × Bool) := fun s =>
  match DefaultAssociative.body R scope a b s with
  | (.ok r, s') => (.ok r, s')
  | (.error _, s') => (.ok (.nil, false), s')

/-! ## Baseline implementations: numeric equality and order -/

/-- Source `_NumericEq.Applicable`. -/
def _NumericEq.Applicable (a b : Any) : Bool :=
  let a_ok := (to_float a).2
  let b_ok := (to_float b).2
  a_ok && b_ok

/-- Source `_NumericEq.Eq`: `a_val == b_val` on `float64`. -/
def _NumericEq.Eq (a b : Any) : Bool :=
  let a_val := (to_float a).1
  let b_val := (to_float b).1
  a_val.eq b_val

/-- The value `_NumericEq{}` as an `EqProtocol`. -/
def _NumericEq : EqProtocol where
  Applicable a b := .ok (_NumericEq.Applicable a b)
  Eq _ a b := pure (_NumericEq.Eq a b)

/-- Source `_NumericLt.Lt`: `a_val < b_val` on `float64`. -/
def _NumericLt.Lt (a b : Any) : Bool :=
  let a_val := (to_float a).1
  let b_val := (to_float b).1
  a_val.lt b_val

/-- Source `_NumericLt.Applicable`. -/
def _NumericLt.Applicable (a b : Any) : Bool :=
  let a_ok := (to_float a).2
  let b_ok := (to_float b).2
  a_ok && b_ok

/-- The value `_NumericLt{}` as an `LtProtocol`. -/
def _NumericLt : LtProtocol where
  Applicable a b := .ok (_NumericLt.Applicable a b)
  Lt _ a b := pure (_NumericLt.Lt a b)

/-! ## Baseline implementations: Regex -/

/-- The functions of Go's `regexp` package that `_SubstringRegex` calls:
`regexp.Compile(expr)`, which returns a compiled expression or an error
value, and `re.MatchString(s)`. -/
structure RegexpLib where
  Compile : GoString → Except Any Regexp
  MatchString : Regexp → GoString → Bool

/-- The Go string `"(?i)"`. -/
def caseInsensitiveFlag : GoString := [40, 63, 105, 41]

/-- Source `_SubstringRegex.Applicable`. -/
def _SubstringRegex.Applicable (pattern target : Any) : Except Panic Bool := do
  let (_, a_ok) ← to_string pattern
  let (_, b_ok) ← to_string target
  pure (a_ok && b_ok)

/-- Source `_SubstringRegex.Match`: the cached expression for the pattern, or
a fresh compilation of `"(?i)" + pattern_string` that is logged when it fails
and stored in the cache under `pattern_string` when it succeeds; then
`re.MatchString(target_string)`. -/
def _SubstringRegex.Match (L : RegexpLib) (pattern target : Any) : Go Bool := do
  let (pattern_string, _) ← Go.ofExcept (to_string pattern)
  let (target_string, _) ← Go.ofExcept (to_string target)
  fun s =>
    match s.regexp_cache pattern_string with
    | some re => (.ok (L.MatchString re target_string), s)
    | none =>
      match L.Compile (caseInsensitiveFlag ++ pattern_string) with
      | .error err =>
        match Scope.Log "Compile regexp: %v" [err] s with
        | (.ok _, s') => (.ok false, s')
        | (.error p, s') => (.error p, s')
      | .ok re =>
        (.ok (L.MatchString re target_string),
          { s with regexp_cache := fun key =>
              if key = pattern_string then some re else s.regexp_cache key })

/-- The value `_SubstringRegex{}` as a `RegexProtocol`. -/
def _SubstringRegex (L : RegexpLib) : RegexProtocol where
  Applicable pattern target := _SubstringRegex.Applicable pattern target
  Match _ pattern target := _SubstringRegex.Match L pattern target

/-- Source `_ArrayRegex.Applicable`. -/
def _ArrayRegex.Applicable (pattern target : Any) : Except Panic Bool := do
  let (_, pattern_ok) ← to_string pattern
  pure (pattern_ok && is_array target)

/-- The loop of `_ArrayRegex.Match`:
`for i := i0; i < a_slice.Len(); i++ { if scope.Match(pattern, a_slice.Index(i).Interface()) { return true } }`
with `todo` iterations left; `false` when the loop runs out. -/
def arrayRegexLoop (scope : ScopeCalls) (pattern target : Any) :
    (todo : Nat) → (i : Nat) → Go Bool
  | 0, _ => pure false
  | todo + 1, i => do
    let item ← Go.ofExcept (reflect_Index target i)
    if (← scope.Match pattern item) then
      pure true
    else
      arrayRegexLoop scope pattern target todo (i + 1)

/-- Source `_ArrayRegex.Match`. -/
def _ArrayRegex.Match (scope : ScopeCalls) (pattern target : Any) : Go Bool := do
  let n ← Go.ofExcept (reflect_Len target)
  arrayRegexLoop scope pattern target n 0

/-- The value `_ArrayRegex{}` as a `RegexProtocol`. -/
def _ArrayRegex : RegexProtocol where
  Applicable pattern target := _ArrayRegex.Applicable pattern target
  Match scope pattern target := _ArrayRegex.Match scope pattern target

/-! ## Registration (`AddImpl`) -/

/-- The loop shared by every `AddImpl`:
`for _, impl := range elements { self.impl = append(self.impl, impl) }`. -/
def appendImpls {I : Type} (impls elements : List I) : List I :=
  elements.foldl (fun acc impl => acc ++ [impl]) impls

/-- Source `_BoolDispatcher.AddImpl`: the dispatcher after the call. -/
def _BoolDispatcher.AddImpl (self : _BoolDispatcher) (elements : List BoolProtocol) :
    _BoolDispatcher :=
  { implementations := appendImpls self.implementations elements }

/-- Source `_EqDispatcher.AddImpl`: the dispatcher after the call. -/
def _EqDispatcher.AddImpl (self : _EqDispatcher) (elements : List EqProtocol) :
    _EqDispatcher :=
  { impl := appendImpls self.impl elements }

/-- Source `_LtDispatcher.AddImpl`: the dispatcher after the call. -/
def _LtDispatcher.AddImpl (self : _LtDispatcher) (elements : List LtProtocol) :
    _LtDispatcher :=
  { impl := appendImpls self.impl elements }

/-- Source `_AddDispatcher.AddImpl`: the dispatcher after the call. -/
def _AddDispatcher.AddImpl (self : _AddDispatcher) (elements : List AddProtocol) :
    _AddDispatcher :=
  { impl := appendImpls self.impl elements }

/-- Source `_SubDispatcher.AddImpl`: the dispatcher after the call. -/
def _SubDispatcher.AddImpl (self : _SubDispatcher) (elements : List SubProtocol) :
    _SubDispatcher :=
  { impl := appendImpls self.impl elements }

/-- Source `_MulDispatcher.AddImpl`: the dispatcher after the call. -/
def _MulDispatcher.AddImpl (self : _MulDispatcher) (elements : List MulProtocol) :
    _MulDispatcher :=
  { impl := appendImpls self.impl elements }

/-- Source `_DivDispatcher.AddImpl`: the dispatcher after the call. -/
def _DivDispatcher.AddImpl (self : _DivDispatcher) (elements : List DivProtocol) :
    _DivDispatcher :=
  { impl := appendImpls self.impl elements }

/-- Source `_MembershipDispatcher.AddImpl`: the dispatcher after the call. -/
def _MembershipDispatcher.AddImpl (self : _MembershipDispatcher)
    (elements : List MembershipProtocol) : _MembershipDispatcher :=
  { impl := appendImpls self.impl elements }

/-- Source `_AssociativeDispatcher.AddImpl`: the dispatcher after the call. -/
def _AssociativeDispatcher.AddImpl (self : _AssociativeDispatcher)
    (elements : List AssociativeProtocol) : _AssociativeDispatcher :=
  { impl := appendImpls self.impl elements }

/-- Source `_RegexDispatcher.AddImpl`: the dispatcher after the call. -/
def _RegexDispatcher.AddImpl (self : _RegexDispatcher) (elements : List RegexProtocol) :
    _RegexDispatcher :=
  { impl := appendImpls self.impl elements }

/-! ## Reference notions used to state the properties -/

/-- The integer an int-like value denotes: 0 or 1 for a bool, the numeric
value for every integer type (0 for values that are not int-like). -/
def denotedInteger (x : Any) : Int :=
  match x with
  | .bool t => if t then 1 else 0
  | .int t => t
  | .int8 t => t
  | .int16 t => t
  | .int32 t => t
  | .int64 t => t
  | .uint8 t => t
  | .uint16 t => t
  | .uint32 t => t
  | .uint64 t => t
  | _ => 0

/-- The elements of an array value in order, boxed as `Any` (empty for
values that are not arrays). -/
def sequenceElems (a : Any) : List Any :=
  match a with
  | .bytes b => b.map (fun c => Any.uint8 c.val)
  | .slice l => l
  | .array l => l
  | _ => []

/-- Scope callbacks that answer false, absent and empty, for closed
examples. -/
def ScopeCalls.inert : ScopeCalls where
  eq_Eq _ _ := pure false
  Associative _ _ := pure (Any.Null, false)
  Match _ _ := pure false
  GetMembers _ := pure []

/-- A scope with nothing traced, logged or cached, for closed examples. -/
def Scope.empty : Scope where
  traces := []
  logs := []
  regexp_cache _ := none

/-- Exact arithmetic on finite doubles (NaN otherwise), for closed examples:
it agrees with the platform where the exact result is a double. -/
def Float64Arith.exact : Float64Arith where
  add a b := match a.value?, b.value? with
    | some x, some y => .finite (x + y)
    | _, _ => .nan
  sub a b := match a.value?, b.value? with
    | some x, some y => .finite (x - y)
    | _, _ => .nan
  mul a b := match a.value?, b.value? with
    | some x, some y => .finite (x * y)
    | _, _ => .nan
  div a b := match a.value?, b.value? with
    | some x, some y => .finite (x / y)
    | _, _ => .nan

/-- The scope callbacks of a scope whose Eq dispatcher is `d`, for closed
examples; calls nested inside its implementations go to the inert
callbacks. -/
def ScopeCalls.withEq (d : _EqDispatcher) : ScopeCalls where
  eq_Eq a b := d.Eq ScopeCalls.inert a b
  Associative _ _ := pure (Any.Null, false)
  Match _ _ := pure false
  GetMembers _ := pure []

/-- A host without struct fields, methods or nil pointers, whose exported
names are those starting with an upper-case ASCII letter, for closed
examples. -/
def Reflection.plain : Reflection where
  is_exported name := match name with
    | [] => false
    | c :: _ => decide (65 ≤ c.val ∧ c.val ≤ 90)
  strings_Title name := match name with
    | [] => []
    | c :: cs => if 97 ≤ c.val ∧ c.val ≤ 122 then (c - 32) :: cs else c :: cs
  isStruct _ := false
  FieldByName _ _ := none
  Method _ _ := none
  elemKindPtr _ := false
  otherIsNil _ := false

/-- The scope callbacks of a scope whose `Associative` answers `g e` on the
value `e` for every key, for closed examples. -/
def ScopeCalls.withAssociative (g : Any → Any × Bool) : ScopeCalls where
  eq_Eq _ _ := pure false
  Associative e _ := pure (g e)
  Match _ _ := pure false
  GetMembers _ := pure []

/-- The field `x` of two host values standing for the dicts `{x: 1}` and
`{x: 2}`, absent on every other value, for closed examples. -/
def exampleFieldX (e : Any) : Any × Bool :=
  match e with
  | .other 1 => (.int64 1, true)
  | .other 2 => (.int64 2, true)
  | _ => (.Null, false)

/-- A stand-in for the `regexp` package in closed examples: it rejects an
expression whose parentheses do not balance in number and matches the text
that follows the four bytes of the flag as a literal substring. -/
def RegexpLib.toy : RegexpLib where
  Compile expr :=
    if expr.count 40 = expr.count 41 then .ok { expr := expr } else .error (.other 0)
  MatchString re s := strings_Contains s (re.expr.drop 4)

mutual
/-- Nesting depth of arrays in a value: 0 for a value that is not an array,
one more than the deepest element for an array. -/
def arrayDepth : Any → Nat
  | .slice l => arrayDepthList l + 1
  | .array l => arrayDepthList l + 1
  | .bytes _ => 1
  | _ => 0
/-- The largest `arrayDepth` among the elements of a list. -/
def arrayDepthList : List Any → Nat
  | [] => 0
  | x :: xs => max (arrayDepth x) (arrayDepthList xs)
end

/-- Modelled from the spec: the field `eq` of `Scope` (scope.go is not under
src/), the scope's own Eq dispatcher.  These are the callbacks of a scope whose
`eq` is `d`: the call `scope.eq.Eq(scope, x, y)` made by an implementation
re-enters `d` with the same scope.  `depth` bounds the nesting of re-entrant
calls; a call nested deeper goes to `base`. -/
def ScopeCalls.ofEq (d : _EqDispatcher) (base : ScopeCalls) : (depth : Nat) → ScopeCalls
  | 0 => base
  | depth + 1 =>
    { base with eq_Eq := fun x y => d.Eq (ScopeCalls.ofEq d base depth) x y }

/-- The scope callbacks of a scope whose Regex dispatcher is `d`, for closed
examples and for the baseline matcher; calls nested inside its
implementations go to the inert callbacks. -/
def ScopeCalls.withRegex (d : _RegexDispatcher) : ScopeCalls where
  eq_Eq _ _ := pure false
  Associative _ _ := pure (Any.Null, false)
  Match pattern target := d.Match ScopeCalls.inert pattern target
  GetMembers _ := pure []

/-! ## Properties of the dispatch loop -/

/-- The loop returns what the first applicable implementation returns, when
every implementation before it answers `false`. -/
theorem dispatchLoop_first {I R : Type} (applicable : I → Except Panic Bool) (apply : I → Go R)
    (notFound : Go R) (pre : List I) (impl : I) (post : List I)
    (hpre : ∀ j ∈ pre, applicable j = .ok false) (himpl : applicable impl = .ok true) :
    dispatchLoop applicable apply notFound (pre ++ impl :: post) = apply impl := by
  induction pre with
  | nil =>
    funext s
    simp [dispatchLoop, himpl]
  | cons j rest ih =>
    funext s
    have hj : applicable j = .ok false := hpre j (List.mem_cons_self j rest)
    have hrest : ∀ k ∈ rest, applicable k = .ok false :=
      fun k hk => hpre k (List.mem_cons_of_mem j hk)
    simp [dispatchLoop, hj, ih hrest]

/-- The loop ends in `notFound` when every implementation answers `false`. -/
theorem dispatchLoop_none {I R : Type} (applicable : I → Except Panic Bool) (apply : I → Go R)
    (notFound : Go R) (impls : List I) (h : ∀ j ∈ impls, applicable j = .ok false) :
    dispatchLoop applicable apply notFound impls = notFound := by
  induction impls with
  | nil => rfl
  | cons j rest ih =>
    funext s
    have hj : applicable j = .ok false := h j (List.mem_cons_self j rest)
    have hrest : ∀ k ∈ rest, applicable k = .ok false :=
      fun k hk => h k (List.mem_cons_of_mem j hk)
    simp [dispatchLoop, hj, ih hrest]

/-! ## Dispatch order (C1) and neutral results (C2) -/

/-- C1: every dispatcher (Bool, Eq, Lt, Add, Sub, Mul, Div, Membership,
Associative, Regex) returns exactly what the first implementation of its list
whose `Applicable` is true returns (every implementation before it answering
false), whatever implementations follow it in the list: those are never
consulted. -/
theorem dispatcher_first_applicable (scope : ScopeCalls) (a b : Any) :
    (∀ (pre : List BoolProtocol) (impl : BoolProtocol) (post : List BoolProtocol),
      (∀ j ∈ pre, j.Applicable a = .ok false) → impl.Applicable a = .ok true →
      _BoolDispatcher.Bool ⟨pre ++ impl :: post⟩ scope a = impl.Bool scope a) ∧
    (∀ (pre : List EqProtocol) (impl : EqProtocol) (post : List EqProtocol),
      (∀ j ∈ pre, j.Applicable a b = .ok false) → impl.Applicable a b = .ok true →
      _EqDispatcher.Eq ⟨pre ++ impl :: post⟩ scope a b = impl.Eq scope a b) ∧
    (∀ (pre : List LtProtocol) (impl : LtProtocol) (post : List LtProtocol),
      (∀ j ∈ pre, j.Applicable a b = .ok false) → impl.Applicable a b = .ok true →
      _LtDispatcher.Lt ⟨pre ++ impl :: post⟩ scope a b = impl.Lt scope a b) ∧
    (∀ (pre : List AddProtocol) (impl : AddProtocol) (post : List AddProtocol),
      (∀ j ∈ pre, j.Applicable a b = .ok false) → impl.Applicable a b = .ok true →
      _AddDispatcher.Add ⟨pre ++ impl :: post⟩ scope a b = impl.Add scope a b) ∧
    (∀ (pre : List SubProtocol) (impl : SubProtocol) (post : List SubProtocol),
      (∀ j ∈ pre, j.Applicable a b = .ok false) → impl.Applicable a b = .ok true →
      _SubDispatcher.Sub ⟨pre ++ impl :: post⟩ scope a b = impl.Sub scope a b) ∧
    (∀ (pre : List MulProtocol) (impl : MulProtocol) (post : List MulProtocol),
      (∀ j ∈ pre, j.Applicable a b = .ok false) → impl.Applicable a b = .ok true →
      _MulDispatcher.Mul ⟨pre ++ impl :: post⟩ scope a b = impl.Mul scope a b) ∧
    (∀ (pre : List DivProtocol) (impl : DivProtocol) (post : List DivProtocol),
      (∀ j ∈ pre, j.Applicable a b = .ok false) → impl.Applicable a b = .ok true →
      _DivDispatcher.Div ⟨pre ++ impl :: post⟩ scope a b = impl.Div scope a b) ∧
    (∀ (pre : List MembershipProtocol) (impl : MembershipProtocol)
      (post : List MembershipProtocol),
      (∀ j ∈ pre, j.Applicable a b = .ok false) → impl.Applicable a b = .ok true →
      _MembershipDispatcher.Membership ⟨pre ++ impl :: post⟩ scope a b =
        impl.Membership scope a b) ∧
    (∀ (pre : List AssociativeProtocol) (impl : AssociativeProtocol)
      (post : List AssociativeProtocol)
      (dflt : ScopeCalls → Any → Any → Go (Any × Bool)),
      (∀ j ∈ pre, j.Applicable a b = .ok false) → impl.Applicable a b = .ok true →
      _AssociativeDispatcher.Associative ⟨pre ++ impl :: post⟩ dflt scope a b =
        impl.Associative scope a b) ∧
    (∀ (pre : List RegexProtocol) (impl : RegexProtocol) (post : List RegexProtocol),
      (∀ j ∈ pre, j.Applicable a b = .ok false) → impl.Applicable a b = .ok true →
      _RegexDispatcher.Match ⟨pre ++ impl :: post⟩ scope a b = impl.Match scope a b) := by
  refine ⟨?_, ?_, ?_, ?_, ?_, ?_, ?_, ?_, ?_, ?_⟩
  · intro pre impl post hpre himpl
    exact dispatchLoop_first _ _ _ pre impl post hpre himpl
  · intro pre impl post hpre himpl
    exact dispatchLoop_first _ _ _ pre impl post hpre himpl
  · intro pre impl post hpre himpl
    exact dispatchLoop_first _ _ _ pre impl post hpre himpl
  · intro pre impl post hpre himpl
    exact dispatchLoop_first _ _ _ pre impl post hpre himpl
  · intro pre impl post hpre himpl
    exact dispatchLoop_first _ _ _ pre impl post hpre himpl
  · intro pre impl post hpre himpl
    exact dispatchLoop_first _ _ _ pre impl post hpre himpl
  · intro pre impl post hpre himpl
    exact dispatchLoop_first _ _ _ pre impl post hpre himpl
  · intro pre impl post hpre himpl
    exact dispatchLoop_first _ _ _ pre impl post hpre himpl
  · intro pre impl post dflt hpre himpl
    exact dispatchLoop_first _ _ _ pre impl post hpre himpl
  · intro pre impl post hpre himpl
    exact dispatchLoop_first _ _ _ pre impl post hpre himpl

/-- C2: on operands for which no implementation of the list is applicable (an
empty list included), the Bool, Eq, Lt and Regex dispatchers return false and
the Add, Sub, Mul and Div dispatchers return `Null`. -/
theorem dispatcher_neutral_result (scope : ScopeCalls) (a b : Any) (s : Scope) :
    (∀ d : _BoolDispatcher, (∀ j ∈ d.implementations, j.Applicable a = .ok false) →
      (d.Bool scope a s).1 = .ok false) ∧
    (∀ d : _EqDispatcher, (∀ j ∈ d.impl, j.Applicable a b = .ok false) →
      (d.Eq scope a b s).1 = .ok false) ∧
    (∀ d : _LtDispatcher, (∀ j ∈ d.impl, j.Applicable a b = .ok false) →
      (d.Lt scope a b s).1 = .ok false) ∧
    (∀ d : _RegexDispatcher, (∀ j ∈ d.impl, j.Applicable a b = .ok false) →
      (d.Match scope a b s).1 = .ok false) ∧
    (∀ d : _AddDispatcher, (∀ j ∈ d.impl, j.Applicable a b = .ok false) →
      (d.Add scope a b s).1 = .ok Any.Null) ∧
    (∀ d : _SubDispatcher, (∀ j ∈ d.impl, j.Applicable a b = .ok false) →
      (d.Sub scope a b s).1 = .ok Any.Null) ∧
    (∀ d : _MulDispatcher, (∀ j ∈ d.impl, j.Applicable a b = .ok false) →
      (d.Mul scope a b s).1 = .ok Any.Null) ∧
    (∀ d : _DivDispatcher, (∀ j ∈ d.impl, j.Applicable a b = .ok false) →
      (d.Div scope a b s).1 = .ok Any.Null) := by
  refine ⟨?_, ?_, ?_, ?_, ?_, ?_, ?_, ?_⟩
  · intro d h
    rw [_BoolDispatcher.Bool, dispatchLoop_none _ _ _ _ h]; rfl
  · intro d h
    rw [_EqDispatcher.Eq, dispatchLoop_none _ _ _ _ h]; rfl
  · intro d h
    rw [_LtDispatcher.Lt, dispatchLoop_none _ _ _ _ h]; rfl
  · intro d h
    rw [_RegexDispatcher.Match, dispatchLoop_none _ _ _ _ h]; rfl
  · intro d h
    rw [_AddDispatcher.Add, dispatchLoop_none _ _ _ _ h]; rfl
  · intro d h
    rw [_SubDispatcher.Sub, dispatchLoop_none _ _ _ _ h]; rfl
  · intro d h
    rw [_MulDispatcher.Mul, dispatchLoop_none _ _ _ _ h]; rfl
  · intro d h
    rw [_DivDispatcher.Div, dispatchLoop_none _ _ _ _ h]; rfl

/-- Closed instance of C1: in the Add dispatcher `[_AddStrings, _AddInts,
_AddFloats]`, `_AddStrings` rejects `1 + 2` and `_AddInts` answers. -/
theorem dispatcher_first_applicable_witness :
    _AddDispatcher.Add ⟨[_AddStrings] ++ _AddInts :: [_AddFloats Float64Arith.exact]⟩
        ScopeCalls.inert (.int64 1) (.int64 2) =
      AddProtocol.Add _AddInts ScopeCalls.inert (.int64 1) (.int64 2) ∧
    AddProtocol.Add _AddInts ScopeCalls.inert (.int64 1) (.int64 2) Scope.empty =
      (.ok (.int64 3), Scope.empty) :=
  ⟨(dispatcher_first_applicable ScopeCalls.inert (.int64 1) (.int64 2)).2.2.2.1
      [_AddStrings] _AddInts [_AddFloats Float64Arith.exact]
      (by intro j hj; rw [List.mem_singleton] at hj; subst hj; rfl) rfl,
    rfl⟩

/-- Closed instance of C2: the Sub dispatcher `[_SubInts, _SubFloats]` has no
implementation for two strings and returns `Null`. -/
theorem dispatcher_neutral_result_witness :
    (_SubDispatcher.Sub ⟨[_SubInts, _SubFloats Float64Arith.exact]⟩ ScopeCalls.inert
      (.string [102, 111, 111]) (.string [98, 97, 114]) Scope.empty).1 = .ok Any.Null :=
  (dispatcher_neutral_result ScopeCalls.inert (.string [102, 111, 111])
    (.string [98, 97, 114]) Scope.empty).2.2.2.2.2.1
    ⟨[_SubInts, _SubFloats Float64Arith.exact]⟩
    (by
      intro j hj
      simp only [List.mem_cons, List.mem_singleton, List.not_mem_nil, or_false] at hj
      rcases hj with rfl | rfl <;> rfl)

/-! ## Integer arithmetic (C3, C4, C6) -/

theorem wrap64_range (x : Int) : IsInt64 (wrap64 x) := by
  unfold IsInt64 wrap64 MinInt64 MaxInt64
  constructor <;> omega

theorem wrap64_of_range (x : Int) (h : IsInt64 x) : wrap64 x = x := by
  unfold IsInt64 MinInt64 MaxInt64 at h
  unfold wrap64
  omega

theorem wrap64_modEq (x : Int) : wrap64 x ≡ x [ZMOD 2 ^ 64] := by
  unfold wrap64 Int.ModEq
  omega

theorem wrap64_eq_iff (x y : Int) : wrap64 x = wrap64 y ↔ x ≡ y [ZMOD 2 ^ 64] := by
  unfold wrap64 Int.ModEq
  omega

/-- The `int64` conversion of an int-like value in the range of its type is
its denoted integer, wrapped. -/
theorem to_int64_eq_wrap (a : Any) (ha : is_int a = true) (wa : a.WF) :
    (to_int64 a).1 = wrap64 (denotedInteger a) := by
  cases a <;> simp [is_int] at ha <;> simp [to_int64, denotedInteger]
  case bool b => cases b <;> simp [wrap64]
  case int64 v =>
    simp only [Any.WF] at wa
    exact (wrap64_of_range v (by unfold IsInt64 MinInt64 MaxInt64; omega)).symm

/-- The `int64` conversion of an int-like value in the range of its type is
an `int64`. -/
theorem to_int64_range (a : Any) (ha : is_int a = true) (wa : a.WF) :
    IsInt64 (to_int64 a).1 := by
  rw [to_int64_eq_wrap a ha wa]
  exact wrap64_range _

/-- The integer an int-like value in the range of its type denotes lies
between the least `int64` and the greatest `uint64`. -/
theorem denotedInteger_bounds (a : Any) (ha : is_int a = true) (wa : a.WF) :
    -2 ^ 63 ≤ denotedInteger a ∧ denotedInteger a < 2 ^ 64 := by
  cases a <;> simp [is_int] at ha <;> simp only [Any.WF] at wa <;>
    simp only [denotedInteger]
  case bool b => cases b <;> simp
  all_goals omega

/-- C3, as the code has it: a `uint64` at or above `2^63` is converted to the
negative `int64` it wraps to, so `_IntEq.Eq` reports the `uint64` value
`18446744073709551615` equal to the `int64` value `-1`, two int-like values
that denote different integers. -/
theorem intEq_uint64_wraps :
    is_int (.uint64 18446744073709551615) = true ∧
    (Any.uint64 18446744073709551615).WF ∧
    is_int (.int64 (-1)) = true ∧
    (Any.int64 (-1)).WF ∧
    _IntEq.Applicable (.uint64 18446744073709551615) (.int64 (-1)) = true ∧
    _IntEq.Eq (.uint64 18446744073709551615) (.int64 (-1)) = true ∧
    denotedInteger (.uint64 18446744073709551615) ≠ denotedInteger (.int64 (-1)) := by
  refine ⟨rfl, ?_, rfl, ?_, rfl, ?_, ?_⟩
  · simp [Any.WF]
  · simp [Any.WF]
  · decide
  · decide

/-- C3 (amended): for int-like `a` and `b` in the range of their types,
`_IntEq.Eq a b` is true exactly when the integers they denote agree modulo
`2^64` (the comparison is made on the `int64` conversions), hence exactly when
they denote the same integer if neither is a `uint64` at or above `2^63`.
The comparison is exact where doubles are not: `2^53` and `2^53 + 1` are
reported different although their `float64` conversions are equal, and
`281462092005375` equals the `_MulInt` product `65535 * 65535 * 65535`. -/
theorem intEq_exact_modulo_wrap (a b : Any) (ha : is_int a = true) (hb : is_int b = true)
    (wa : a.WF) (wb : b.WF) :
    (_IntEq.Eq a b = true ↔ denotedInteger a ≡ denotedInteger b [ZMOD 2 ^ 64]) ∧
    (denotedInteger a < 2 ^ 63 → denotedInteger b < 2 ^ 63 →
      (_IntEq.Eq a b = true ↔ denotedInteger a = denotedInteger b)) ∧
    (_IntEq.Eq (.int64 9007199254740992) (.int64 9007199254740993) = false ∧
      (to_float (.int64 9007199254740992)).1.eq (to_float (.int64 9007199254740993)).1
        = true) ∧
    _IntEq.Eq (.int64 281462092005375)
      (_MulInt.Mul (_MulInt.Mul (.int64 65535) (.int64 65535)) (.int64 65535)) = true := by
  have key : _IntEq.Eq a b = true ↔ denotedInteger a ≡ denotedInteger b [ZMOD 2 ^ 64] := by
    simp only [_IntEq.Eq, decide_eq_true_eq]
    rw [to_int64_eq_wrap a ha wa, to_int64_eq_wrap b hb wb]
    exact wrap64_eq_iff _ _
  refine ⟨key, ?_, ⟨by decide, by decide⟩, by decide⟩
  intro hlta hltb
  rw [key]
  have ba := denotedInteger_bounds a ha wa
  have bb := denotedInteger_bounds b hb wb
  unfold Int.ModEq
  constructor
  · intro h; omega
  · intro h; rw [h]

/-- Closed instance of C3 (amended): the `uint8` value 200 and the `int16`
value 200 are equal, the bool `true` and the `int64` value 1 are equal. -/
theorem intEq_exact_modulo_wrap_witness :
    (_IntEq.Eq (.uint8 200) (.int16 200) = true ↔
      denotedInteger (.uint8 200) = denotedInteger (.int16 200)) ∧
    _IntEq.Eq (.uint8 200) (.int16 200) = true :=
  ⟨(intEq_exact_modulo_wrap (.uint8 200) (.int16 200) rfl rfl
      (by simp [Any.WF]) (by simp [Any.WF])).2.1 (by decide) (by decide),
    by decide⟩

/-- C4: for int-like `a` and `b`, `_AddInts.Add`, `_SubInts.Sub` and
`_MulInt.Mul` return an `int64` congruent modulo `2^64` to the sum, difference
and product of `to_int64(a)` and `to_int64(b)`, and equal to it whenever that
exact result is an `int64`; `1 + (1 + 2) * 5` is 16 and `2 - 1` is 1. -/
theorem int_arith_wraps (a b : Any) (ha : is_int a = true) (hb : is_int b = true) :
    (∃ r, _AddInts.Add a b = .int64 r ∧ IsInt64 r ∧
      r ≡ (to_int64 a).1 + (to_int64 b).1 [ZMOD 2 ^ 64] ∧
      (IsInt64 ((to_int64 a).1 + (to_int64 b).1) → r = (to_int64 a).1 + (to_int64 b).1)) ∧
    (∃ r, _SubInts.Sub a b = .int64 r ∧ IsInt64 r ∧
      r ≡ (to_int64 a).1 - (to_int64 b).1 [ZMOD 2 ^ 64] ∧
      (IsInt64 ((to_int64 a).1 - (to_int64 b).1) → r = (to_int64 a).1 - (to_int64 b).1)) ∧
    (∃ r, _MulInt.Mul a b = .int64 r ∧ IsInt64 r ∧
      r ≡ (to_int64 a).1 * (to_int64 b).1 [ZMOD 2 ^ 64] ∧
      (IsInt64 ((to_int64 a).1 * (to_int64 b).1) → r = (to_int64 a).1 * (to_int64 b).1)) ∧
    _AddInts.Applicable a b = true ∧ _SubInts.Applicable a b = true ∧
    _MulInt.Applicable a b = true ∧
    _AddInts.Add (.int64 1) (_MulInt.Mul (_AddInts.Add (.int64 1) (.int64 2)) (.int64 5))
      = .int64 16 ∧
    _SubInts.Sub (.int64 2) (.int64 1) = .int64 1 := by
  refine ⟨⟨_, rfl, wrap64_range _, wrap64_modEq _, wrap64_of_range _⟩,
    ⟨_, rfl, wrap64_range _, wrap64_modEq _, wrap64_of_range _⟩,
    ⟨_, rfl, wrap64_range _, wrap64_modEq _, wrap64_of_range _⟩, ?_, ?_, ?_, rfl, rfl⟩
  · simp [_AddInts.Applicable, ha, hb]
  · simp [_SubInts.Applicable, ha, hb]
  · simp [_MulInt.Applicable, ha, hb]

/-- Closed instance of C4: `MaxInt64 + 1` wraps to `MinInt64`, and the `uint8`
value 250 plus the `int8` value 10 is the `int64` value 260. -/
theorem int_arith_wraps_witness :
    (∃ r, _AddInts.Add (.uint8 250) (.int8 10) = .int64 r ∧ IsInt64 r ∧
      r ≡ (to_int64 (.uint8 250)).1 + (to_int64 (.int8 10)).1 [ZMOD 2 ^ 64] ∧
      (IsInt64 ((to_int64 (.uint8 250)).1 + (to_int64 (.int8 10)).1) →
        r = (to_int64 (.uint8 250)).1 + (to_int64 (.int8 10)).1)) ∧
    _AddInts.Add (.uint8 250) (.int8 10) = .int64 260 ∧
    _AddInts.Add (.int64 9223372036854775807) (.int64 1) = .int64 (-9223372036854775808) :=
  ⟨(int_arith_wraps (.uint8 250) (.int8 10) rfl rfl).1, rfl, rfl⟩

theorem neg_tmod (x y : Int) : Int.tmod (-x) y = -(Int.tmod x y) := by
  rw [Int.tmod_def, Int.tmod_def, Int.neg_tdiv]; ring

/-- The remainder of truncated division is smaller than the divisor. -/
theorem tmod_abs_lt (x y : Int) (hy : y ≠ 0) : |Int.tmod x y| < |y| := by
  have key : ∀ a b : Int, 0 ≤ a → 0 < b → |Int.tmod a b| < |b| := by
    intro a b ha hb
    have h1 := Int.tmod_nonneg b ha
    have h2 := Int.tmod_lt_of_pos a hb
    rw [abs_of_nonneg h1, abs_of_pos hb]; exact h2
  rcases le_total 0 x with hx | hx
  · rcases lt_or_gt_of_ne hy with h | h
    · have := key x (-y) hx (by omega)
      rwa [Int.tmod_neg, abs_neg] at this
    · exact key x y hx h
  · rcases lt_or_gt_of_ne hy with h | h
    · have := key (-x) (-y) (by omega) (by omega)
      rwa [Int.tmod_neg, neg_tmod, abs_neg, abs_neg] at this
    · have := key (-x) y (by omega) h
      rwa [neg_tmod, abs_neg] at this

theorem tmod_nonpos (x y : Int) (hx : x ≤ 0) : Int.tmod x y ≤ 0 := by
  have := Int.tmod_nonneg y (show 0 ≤ -x by omega)
  rw [neg_tmod] at this; omega

/-- The truncated quotient of an `int64` is an `int64`, except for
`MinInt64 / -1`. -/
theorem tdiv_range (x y : Int) (hx : IsInt64 x) (h : ¬ (x = MinInt64 ∧ y = -1)) :
    IsInt64 (Int.tdiv x y) := by
  unfold IsInt64 MinInt64 MaxInt64 at *
  by_cases h1 : y = 1
  · subst h1; simp; omega
  by_cases h2 : y = -1
  · subst h2
    have : Int.tdiv x (-1) = -x := by rw [Int.tdiv_neg, Int.tdiv_one]
    rw [this]; omega
  by_cases h0 : y = 0
  · subst h0; simp
  have hn := Int.natAbs_tdiv x y
  have hle : x.natAbs / y.natAbs ≤ x.natAbs / 2 :=
    Nat.div_le_div_left (by omega) (by norm_num)
  have : (x.natAbs).div (y.natAbs) = x.natAbs / y.natAbs := rfl
  rw [this] at hn
  omega

/-- C6: for int-like `a` and `b` (in the range of their types) with
`to_int64(b) != 0`, `_DivInt.Div a b` is the `int64` quotient `q` of
`x = to_int64(a)` by `y = to_int64(b)` truncated toward zero: `x = q * y + r`
with `|r| < |y|` and `r` zero or of the sign of `x`; the one exception is
`MinInt64 / -1`, which wraps to `MinInt64`.  `(2 + 2) / 2` is 2. -/
theorem divInt_truncates (a b : Any) (ha : is_int a = true) (hb : is_int b = true)
    (wa : a.WF) (hnz : (to_int64 b).1 ≠ 0) :
    (∃ q, _DivInt.Div a b = .int64 q ∧ IsInt64 q ∧
      (((to_int64 a).1 = MinInt64 ∧ (to_int64 b).1 = -1) → q = MinInt64) ∧
      (¬ ((to_int64 a).1 = MinInt64 ∧ (to_int64 b).1 = -1) →
        ∃ r, (to_int64 a).1 = q * (to_int64 b).1 + r ∧ |r| < |(to_int64 b).1| ∧
          (r = 0 ∨ (0 < r ∧ 0 < (to_int64 a).1) ∨ (r < 0 ∧ (to_int64 a).1 < 0)))) ∧
    _DivInt.Applicable a b = true ∧
    _DivInt.Div (_AddInts.Add (.int64 2) (.int64 2)) (.int64 2) = .int64 2 := by
  have hx := to_int64_range a ha wa
  refine ⟨⟨int64_quo (to_int64 a).1 (to_int64 b).1, ?_, wrap64_range _, ?_, ?_⟩, ?_, rfl⟩
  · simp [_DivInt.Div, hnz]
  · rintro ⟨h1, h2⟩
    rw [h1, h2]; decide
  · intro hne
    refine ⟨Int.tmod (to_int64 a).1 (to_int64 b).1, ?_, tmod_abs_lt _ _ hnz, ?_⟩
    · rw [int64_quo, wrap64_of_range _ (tdiv_range _ _ hx hne)]
      exact (Int.tdiv_add_tmod' _ _).symm
    · have h1 := @Int.tmod_nonneg (to_int64 a).1 (to_int64 b).1
      have h2 := tmod_nonpos (to_int64 a).1 (to_int64 b).1
      have h3 : (to_int64 a).1 = 0 → Int.tmod (to_int64 a).1 (to_int64 b).1 = 0 := by
        intro h; rw [h]; simp
      omega
  · simp [_DivInt.Applicable, ha, hb]

/-- Closed instance of C6: `-7 / 2` is `-3` with remainder `-1`, and
`MinInt64 / -1` is `MinInt64`. -/
theorem divInt_truncates_witness :
    (∃ q, _DivInt.Div (.int64 (-7)) (.int8 2) = .int64 q ∧ IsInt64 q ∧
      (((to_int64 (.int64 (-7))).1 = MinInt64 ∧ (to_int64 (.int8 2)).1 = -1) →
        q = MinInt64) ∧
      (¬ ((to_int64 (.int64 (-7))).1 = MinInt64 ∧ (to_int64 (.int8 2)).1 = -1) →
        ∃ r, (to_int64 (.int64 (-7))).1 = q * (to_int64 (.int8 2)).1 + r ∧
          |r| < |(to_int64 (.int8 2)).1| ∧
          (r = 0 ∨ (0 < r ∧ 0 < (to_int64 (.int64 (-7))).1) ∨
            (r < 0 ∧ (to_int64 (.int64 (-7))).1 < 0)))) ∧
    _DivInt.Div (.int64 (-7)) (.int8 2) = .int64 (-3) ∧
    _DivInt.Div (.int64 (-9223372036854775808)) (.int64 (-1))
      = .int64 (-9223372036854775808) :=
  ⟨(divInt_truncates (.int64 (-7)) (.int8 2) rfl rfl (by simp [Any.WF]) (by decide)).1, rfl, rfl⟩

/-! ## Division by zero (C5) -/

/-- An int-like value denoting 0 converts to the `int64` 0 and to the double
`+0`. -/
theorem zero_conversions (b : Any) (hb : is_int b = true) (hz : denotedInteger b = 0) :
    (to_int64 b).1 = 0 ∧ (to_float b).1 = .finite 0 := by
  cases b <;> simp [is_int] at hb <;> simp [denotedInteger] at hz <;>
    subst hz <;> exact ⟨by decide, by decide⟩

/-- C5: for number-like `a` and int-like `b` denoting 0 (the bool `false`
included), `_DivInt.Div a b` (for int-like `a`) and `_NumericDiv.Div a b` are
the boolean `false`, and the Div dispatcher holding the two implementations,
in either order, returns the boolean `false`: the quotient is never
computed. -/
theorem div_by_zero_false (fp : Float64Arith) (scope : ScopeCalls) (s : Scope) (a b : Any)
    (ha : (to_float a).2 = true) (hb : is_int b = true) (hz : denotedInteger b = 0) :
    (is_int a = true → _DivInt.Div a b = .bool false) ∧
    _NumericDiv.Div fp a b = .bool false ∧
    _DivDispatcher.Div ⟨[_DivInt, _NumericDiv fp]⟩ scope a b s = (.ok (.bool false), s) ∧
    _DivDispatcher.Div ⟨[_NumericDiv fp, _DivInt]⟩ scope a b s = (.ok (.bool false), s) := by
  obtain ⟨hi, hf⟩ := zero_conversions b hb hz
  have hfb : (to_float b).2 = true := by
    cases b <;> simp [is_int] at hb <;> simp [to_float]
    case bool t => cases t <;> rfl
  have h1 : _DivInt.Div a b = .bool false := by simp [_DivInt.Div, hi]
  have h2 : _NumericDiv.Div fp a b = .bool false := by
    have : (Float64.finite 0).eq (.finite 0) = true := by decide
    simp [_NumericDiv.Div, hf, this]
  have h3 : _NumericDiv.Applicable a b = true := by simp [_NumericDiv.Applicable, ha, hfb]
  refine ⟨fun _ => h1, h2, ?_, ?_⟩
  · cases hia : is_int a <;>
      simp [_DivDispatcher.Div, dispatchLoop, _DivInt, _NumericDiv, _DivInt.Applicable, hia, hb,
        h1, h2, h3] <;> rfl
  · simp [_DivDispatcher.Div, dispatchLoop, _NumericDiv, h2, h3]
    rfl

/-- Closed instance of C5: `10 / 0` and `1.5 / false` are the boolean
`false`. -/
theorem div_by_zero_false_witness :
    _DivDispatcher.Div ⟨[_DivInt, _NumericDiv Float64Arith.exact]⟩ ScopeCalls.inert
      (.int64 10) (.int64 0) Scope.empty = (.ok (.bool false), Scope.empty) ∧
    _NumericDiv.Div Float64Arith.exact (.float64 (.finite (3 / 2))) (.bool false)
      = .bool false :=
  ⟨(div_by_zero_false Float64Arith.exact ScopeCalls.inert Scope.empty (.int64 10) (.int64 0)
      rfl rfl rfl).2.2.1,
    (div_by_zero_false Float64Arith.exact ScopeCalls.inert Scope.empty
      (.float64 (.finite (3 / 2))) (.bool false) rfl rfl rfl).2.1⟩

/-! ## Incompatible operands (C7) -/

/-- A number-like value is neither string-like, nor an array, nor null-like. -/
theorem number_like_kinds (a : Any) (ha : (to_float a).2 = true) :
    to_string a = .ok ([], false) ∧ is_array a = false ∧ is_null a = false := by
  cases a <;> simp [to_float] at ha <;> simp [to_string, is_array, is_null]

/-- A string value (a `string`, or a `*string` pointing at one) is string-like
and neither number-like, nor int-like, nor an array, nor null-like. -/
theorem string_value_kinds (s : Any) (x : GoString)
    (hs : s = .string x ∨ ∃ p, s = .stringPtr (some (p, x))) :
    to_string s = .ok (x, true) ∧ (to_float s).2 = false ∧ is_int s = false ∧
      is_array s = false ∧ is_null s = false := by
  rcases hs with rfl | ⟨p, rfl⟩ <;> simp [to_string, to_float, is_int, is_array, is_null]

/-- Operands that hold a string: for a number-like `a` and a Go `string` or a
`*string` pointing at one, in either operand order, none of `_AddStrings`,
`_AddInts`, `_AddFloats`, `_AddSlices`, `_AddNull`, `_AddSliceAny` is
applicable, so an Add dispatcher built from them, in any order, returns
`Null`; and for two such string values neither `_SubInts` nor `_SubFloats` is
applicable, so the Sub dispatcher built from them returns `Null`. -/
theorem incompatible_operands_null (fp : Float64Arith) (scope : ScopeCalls) (st : Scope)
    (a s s' : Any) (x x' : GoString) (ha : (to_float a).2 = true)
    (hs : s = .string x ∨ ∃ p, s = .stringPtr (some (p, x)))
    (hs' : s' = .string x' ∨ ∃ p, s' = .stringPtr (some (p, x'))) :
    (∀ impl : AddProtocol,
      impl = _AddStrings ∨ impl = _AddInts ∨ impl = _AddFloats fp ∨ impl = _AddSlices ∨
        impl = _AddNull ∨ impl = _AddSliceAny →
      impl.Applicable a s = .ok false ∧ impl.Applicable s a = .ok false) ∧
    (∀ impls : List AddProtocol,
      (∀ impl ∈ impls, impl = _AddStrings ∨ impl = _AddInts ∨ impl = _AddFloats fp ∨
        impl = _AddSlices ∨ impl = _AddNull ∨ impl = _AddSliceAny) →
      (_AddDispatcher.Add ⟨impls⟩ scope a s st).1 = .ok Any.Null ∧
      (_AddDispatcher.Add ⟨impls⟩ scope s a st).1 = .ok Any.Null) ∧
    (∀ impl : SubProtocol, impl = _SubInts ∨ impl = _SubFloats fp →
      impl.Applicable s s' = .ok false) ∧
    (∀ impls : List SubProtocol,
      (∀ impl ∈ impls, impl = _SubInts ∨ impl = _SubFloats fp) →
      (_SubDispatcher.Sub ⟨impls⟩ scope s s' st).1 = .ok Any.Null) := by
  obtain ⟨a1, a2, a3⟩ := number_like_kinds a ha
  obtain ⟨s1, s2, s3, s4, s5⟩ := string_value_kinds s x hs
  obtain ⟨t1, t2, t3, t4, t5⟩ := string_value_kinds s' x' hs'
  have hadd : ∀ impl : AddProtocol,
      impl = _AddStrings ∨ impl = _AddInts ∨ impl = _AddFloats fp ∨ impl = _AddSlices ∨
        impl = _AddNull ∨ impl = _AddSliceAny →
      impl.Applicable a s = .ok false ∧ impl.Applicable s a = .ok false := by
    intro impl himpl
    rcases himpl with rfl | rfl | rfl | rfl | rfl | rfl
    · constructor <;> simp [_AddStrings, _AddStrings.Applicable, a1, s1, bind, Except.bind] <;> rfl
    · constructor <;> simp [_AddInts, _AddInts.Applicable, s3]
    · constructor <;> simp [_AddFloats, _AddFloats.Applicable, s2]
    · constructor <;> simp [_AddSlices, _AddSlices.Applicable, s4]
    · constructor <;> simp [_AddNull, _AddNull.Applicable, s4, s5, a2, a3]
    · constructor <;> simp [_AddSliceAny, _AddSliceAny.Applicable, s4, a2]
  have hsub : ∀ impl : SubProtocol, impl = _SubInts ∨ impl = _SubFloats fp →
      impl.Applicable s s' = .ok false := by
    intro impl himpl
    rcases himpl with rfl | rfl
    · simp [_SubInts, _SubInts.Applicable, s3]
    · simp [_SubFloats, _SubFloats.Applicable, s2]
  refine ⟨hadd, ?_, hsub, ?_⟩
  · intro impls himpls
    constructor
    · rw [_AddDispatcher.Add, dispatchLoop_none _ _ _ _ (fun j hj => (hadd j (himpls j hj)).1)]
      rfl
    · rw [_AddDispatcher.Add, dispatchLoop_none _ _ _ _ (fun j hj => (hadd j (himpls j hj)).2)]
      rfl
  · intro impls himpls
    rw [_SubDispatcher.Sub, dispatchLoop_none _ _ _ _ (fun j hj => hsub j (himpls j hj))]
    rfl

/-- A panic of an `Applicable` that is reached after answers of false only
ends the dispatcher with that panic; the scope is untouched. -/
theorem dispatchLoop_panics {I R : Type} (applicable : I → Except Panic Bool)
    (apply : I → Go R) (notFound : Go R) (p : Panic) (impls : List I)
    (h : ∀ j ∈ impls, applicable j = .ok false ∨ applicable j = .error p)
    (hex : ∃ j ∈ impls, applicable j = .error p) (s : Scope) :
    dispatchLoop applicable apply notFound impls s = (.error p, s) := by
  induction impls with
  | nil => obtain ⟨j, hj, _⟩ := hex; cases hj
  | cons j rest ih =>
    rcases h j (List.mem_cons_self j rest) with hj | hj
    · have hex' : ∃ k ∈ rest, applicable k = .error p := by
        obtain ⟨k, hk, hkp⟩ := hex
        rcases List.mem_cons.mp hk with rfl | hk'
        · rw [hj] at hkp; cases hkp
        · exact ⟨k, hk', hkp⟩
      simp only [dispatchLoop, hj]
      exact ih (fun k hk => h k (List.mem_cons_of_mem j hk)) hex'
    · simp only [dispatchLoop, hj]

/-- C7, as the code has it: `to_string` dereferences a `*string` without a nil
check, so for a number-like `a` and a nil `*string`, in either operand order,
`_AddStrings.Applicable` panics, and an Add dispatcher that holds `_AddStrings`
among the baseline implementations, in any order, panics instead of returning
`Null` (`1 + s` with `s` a nil `*string`).  For a Go `string` and for a
`*string` that points at one the claim holds: the Add dispatcher returns
`Null`; and the Sub dispatcher returns `Null` on any two string values, nil
pointers included. -/
theorem add_nil_string_panics (fp : Float64Arith) (scope : ScopeCalls) (st : Scope) :
    (to_string (.stringPtr none) = .error .nilDereference ∧
      ∀ a, (to_float a).2 = true →
        AddProtocol.Applicable _AddStrings a (.stringPtr none) = .error .nilDereference ∧
        AddProtocol.Applicable _AddStrings (.stringPtr none) a = .error .nilDereference ∧
        ∀ impls : List AddProtocol,
          (∀ impl ∈ impls, impl = _AddStrings ∨ impl = _AddInts ∨ impl = _AddFloats fp ∨
            impl = _AddSlices ∨ impl = _AddNull ∨ impl = _AddSliceAny) →
          _AddStrings ∈ impls →
          _AddDispatcher.Add ⟨impls⟩ scope a (.stringPtr none) st
            = (.error .nilDereference, st) ∧
          _AddDispatcher.Add ⟨impls⟩ scope (.stringPtr none) a st
            = (.error .nilDereference, st)) ∧
    _AddDispatcher.Add
        ⟨[_AddInts, _AddStrings, _AddFloats Float64Arith.exact, _AddSlices, _AddNull,
          _AddSliceAny]⟩
        ScopeCalls.inert (.int64 1) (.stringPtr none) Scope.empty
      = (.error .nilDereference, Scope.empty) ∧
    (∀ (a s : Any) (x : GoString), (to_float a).2 = true →
      (s = .string x ∨ ∃ p, s = .stringPtr (some (p, x))) →
      ∀ impls : List AddProtocol,
        (∀ impl ∈ impls, impl = _AddStrings ∨ impl = _AddInts ∨ impl = _AddFloats fp ∨
          impl = _AddSlices ∨ impl = _AddNull ∨ impl = _AddSliceAny) →
        (_AddDispatcher.Add ⟨impls⟩ scope a s st).1 = .ok Any.Null ∧
        (_AddDispatcher.Add ⟨impls⟩ scope s a st).1 = .ok Any.Null) ∧
    (∀ s s' : Any, ((∃ x, s = .string x) ∨ ∃ p, s = .stringPtr p) →
      ((∃ x, s' = .string x) ∨ ∃ p, s' = .stringPtr p) →
      ∀ impls : List SubProtocol, (∀ impl ∈ impls, impl = _SubInts ∨ impl = _SubFloats fp) →
        (_SubDispatcher.Sub ⟨impls⟩ scope s s' st).1 = .ok Any.Null) := by
  refine ⟨⟨rfl, fun a ha => ?_⟩, rfl, ?_, ?_⟩
  · obtain ⟨a1, a2, a3⟩ := number_like_kinds a ha
    have hint : is_int (.stringPtr none) = false := rfl
    have h1 : AddProtocol.Applicable _AddStrings a (.stringPtr none)
        = .error .nilDereference := by
      show _AddStrings.Applicable a (.stringPtr none) = _
      simp only [_AddStrings.Applicable, a1, bind, Except.bind]
      rfl
    have h2 : AddProtocol.Applicable _AddStrings (.stringPtr none) a
        = .error .nilDereference := rfl
    have hall : ∀ impl : AddProtocol,
        impl = _AddStrings ∨ impl = _AddInts ∨ impl = _AddFloats fp ∨ impl = _AddSlices ∨
          impl = _AddNull ∨ impl = _AddSliceAny →
        (impl.Applicable a (.stringPtr none) = .ok false ∨
          impl.Applicable a (.stringPtr none) = .error .nilDereference) ∧
        (impl.Applicable (.stringPtr none) a = .ok false ∨
          impl.Applicable (.stringPtr none) a = .error .nilDereference) := by
      intro impl himpl
      rcases himpl with rfl | rfl | rfl | rfl | rfl | rfl
      · exact ⟨Or.inr h1, Or.inr h2⟩
      · constructor <;> left <;> simp [_AddInts, _AddInts.Applicable, is_int]
      · constructor <;> left <;> simp [_AddFloats, _AddFloats.Applicable, to_float]
      · have hnil : is_array (.stringPtr none) = false := rfl
        constructor <;> left <;> simp [_AddSlices, _AddSlices.Applicable, hnil]
      · have hnil : is_array (.stringPtr none) = false := rfl
        constructor <;> left <;> simp [_AddNull, _AddNull.Applicable, hnil, a2]
      · have hnil : is_array (.stringPtr none) = false := rfl
        constructor <;> left <;> simp [_AddSliceAny, _AddSliceAny.Applicable, hnil, a2]
    refine ⟨h1, h2, fun impls himpls hmem => ⟨?_, ?_⟩⟩
    · exact dispatchLoop_panics _ _ _ _ impls (fun j hj => (hall j (himpls j hj)).1)
        ⟨_, hmem, h1⟩ st
    · exact dispatchLoop_panics _ _ _ _ impls (fun j hj => (hall j (himpls j hj)).2)
        ⟨_, hmem, h2⟩ st
  · intro a s x ha hs impls himpls
    exact (incompatible_operands_null fp scope st a s s x x ha hs hs).2.1 impls himpls
  · intro s s' hs hs' impls himpls
    have h1 : is_int s = false ∧ (to_float s).2 = false := by
      rcases hs with ⟨x, rfl⟩ | ⟨p, rfl⟩ <;> exact ⟨rfl, rfl⟩
    have hsub : ∀ impl : SubProtocol, impl = _SubInts ∨ impl = _SubFloats fp →
        impl.Applicable s s' = .ok false := by
      intro impl himpl
      rcases himpl with rfl | rfl
      · simp [_SubInts, _SubInts.Applicable, h1.1]
      · simp [_SubFloats, _SubFloats.Applicable, h1.2]
    rw [_SubDispatcher.Sub, dispatchLoop_none _ _ _ _ (fun j hj => hsub j (himpls j hj))]
    rfl

/-! ## String and array concatenation (C8, C9, C10) -/

/-- C8: for string-like `a` and `b` (a `string`, a `*string` pointing at one
or a `[]byte`) of contents `sa` and `sb`, `_AddStrings.Add a b` is the Go
`string` of content `sa` followed by `sb`: its length is the sum of the two
lengths, and adding the empty string on either side gives the content of the
other operand.  `'foo' + 'bar'` is `'foobar'`. -/
theorem addStrings_concat (a b : Any) (sa sb : GoString)
    (ha : to_string a = .ok (sa, true)) (hb : to_string b = .ok (sb, true)) :
    _AddStrings.Applicable a b = .ok true ∧
    _AddStrings.Add a b = .ok (.string (sa ++ sb)) ∧
    (sa ++ sb).length = sa.length + sb.length ∧
    (sb = [] → _AddStrings.Add a b = .ok (.string sa)) ∧
    (sa = [] → _AddStrings.Add a b = .ok (.string sb)) ∧
    _AddStrings.Add (.string [102, 111, 111]) (.string [98, 97, 114])
      = .ok (.string [102, 111, 111, 98, 97, 114]) := by
  have hadd : _AddStrings.Add a b = .ok (.string (sa ++ sb)) := by
    simp [_AddStrings.Add, ha, hb, bind, Except.bind]; rfl
  refine ⟨?_, hadd, List.length_append sa sb, ?_, ?_, rfl⟩
  · simp [_AddStrings.Applicable, ha, hb, bind, Except.bind]; rfl
  · intro h; rw [hadd, h, List.append_nil]
  · intro h; rw [hadd, h, List.nil_append]

/-- Closed instance of C8: a `*string` `'ab'` plus the `[]byte` `'c'` is the
`string` `'abc'`. -/
theorem addStrings_concat_witness :
    _AddStrings.Add (.stringPtr (some (4096, [97, 98]))) (.bytes [99])
      = .ok (.string [97, 98, 99]) :=
  (addStrings_concat (.stringPtr (some (4096, [97, 98]))) (.bytes [99]) [97, 98] [99]
    rfl rfl).2.1

/-- On an array, `Len` is the number of its elements. -/
theorem reflect_Len_array (v : Any) (hv : is_array v = true) :
    reflect_Len v = .ok (sequenceElems v).length := by
  cases v <;> simp [is_array] at hv <;> simp [reflect_Len, sequenceElems]

/-- On an array, `Index(i)` is its `i`-th element, and a panic past the end. -/
theorem reflect_Index_array (v : Any) (hv : is_array v = true) (i : Nat) :
    reflect_Index v i =
      match (sequenceElems v)[i]? with
      | some e => .ok e
      | none => .error .indexOutOfRange := by
  cases v <;> simp [is_array] at hv <;> simp only [reflect_Index, sequenceElems]
  case bytes b =>
    rw [List.getElem?_map]
    cases b[i]? <;> rfl

/-- The element loop over an array appends its remaining elements in order. -/
theorem appendLoop_array (v : Any) (hv : is_array v = true) :
    ∀ (todo i : Nat) (result : List Any), i + todo = (sequenceElems v).length →
      appendLoop v todo i result = .ok (result ++ (sequenceElems v).drop i) := by
  intro todo
  induction todo with
  | zero =>
    intro i result h
    simp only [Nat.add_zero] at h
    simp [appendLoop, h]
  | succ n ih =>
    intro i result h
    have hi : i < (sequenceElems v).length := by omega
    simp only [appendLoop, reflect_Index_array v hv i, List.getElem?_eq_getElem hi]
    rw [ih (i + 1) _ (by omega), List.drop_eq_getElem_cons hi]
    simp

/-- The element loop over a whole array appends all its elements. -/
theorem appendAll_array (v : Any) (hv : is_array v = true) (result : List Any) :
    appendAll v result = .ok (result ++ sequenceElems v) := by
  simp only [appendAll, reflect_Len_array v hv]
  rw [appendLoop_array v hv _ 0 result (by simp)]
  simp

/-- C9: for arrays `a` and `b`, `_AddSlices.Add a b` is the list of the
elements of `a` in order followed by those of `b` in order: its length is
`len(a) + len(b)`, its element `i` is `a[i]` for `i < len(a)` and
`b[i - len(a)]` from there on.  `(1, 2) + (3, 4)` is `(1, 2, 3, 4)`. -/
theorem addSlices_concat (a b : Any) (ha : is_array a = true) (hb : is_array b = true) :
    _AddSlices.Applicable a b = true ∧
    _AddSlices.Add a b = .ok (.slice (sequenceElems a ++ sequenceElems b)) ∧
    (∃ r la lb, _AddSlices.Add a b = .ok (.slice r) ∧
      reflect_Len a = .ok la ∧ reflect_Len b = .ok lb ∧
      reflect_Len (.slice r) = .ok (la + lb) ∧
      (∀ i, i < la → reflect_Index (.slice r) i = reflect_Index a i) ∧
      (∀ i, la ≤ i → i < la + lb → reflect_Index (.slice r) i = reflect_Index b (i - la))) ∧
    _AddSlices.Add (.slice [.int64 1, .int64 2]) (.slice [.int64 3, .int64 4])
      = .ok (.slice [.int64 1, .int64 2, .int64 3, .int64 4]) := by
  have hadd : _AddSlices.Add a b = .ok (.slice (sequenceElems a ++ sequenceElems b)) := by
    simp [_AddSlices.Add, appendAll_array a ha, appendAll_array b hb, bind, Except.bind]
    rfl
  refine ⟨by simp [_AddSlices.Applicable, ha, hb], hadd,
    ⟨_, _, _, hadd, reflect_Len_array a ha, reflect_Len_array b hb, ?_, ?_, ?_⟩, rfl⟩
  · simp [reflect_Len]
  · intro i hi
    rw [reflect_Index_array a ha i]
    simp only [reflect_Index]
    rw [List.getElem?_append_left hi]
  · intro i hle _
    rw [reflect_Index_array b hb (i - (sequenceElems a).length)]
    simp only [reflect_Index]
    rw [List.getElem?_append_right hle]

/-- Closed instance of C9: the `[]byte` `'a'` plus an array of one integer. -/
theorem addSlices_concat_witness :
    _AddSlices.Add (.bytes [97]) (.array [.int64 7]) = .ok (.slice [.uint8 97, .int64 7]) :=
  (addSlices_concat (.bytes [97]) (.array [.int64 7]) rfl rfl).2.1

/-- C10: for an array `a` and a value `x` that is not an array,
`_AddSliceAny.Add a x` is `a` with `x` appended as last element and
`_AddSliceAny.Add x a` is `a` with `x` prepended as first element; both have
length `len(a) + 1` and keep the elements of `a` in order.  `(1, 2) + 3` is
`[1, 2, 3]` and `3 + (1, 2)` is `[3, 1, 2]`. -/
theorem addSliceAny_extends (a x : Any) (ha : is_array a = true) (hx : is_array x = false) :
    _AddSliceAny.Applicable a x = true ∧ _AddSliceAny.Applicable x a = true ∧
    _AddSliceAny.Add a x = .ok (.slice (sequenceElems a ++ [x])) ∧
    _AddSliceAny.Add x a = .ok (.slice (x :: sequenceElems a)) ∧
    (∃ la, reflect_Len a = .ok la ∧
      reflect_Len (.slice (sequenceElems a ++ [x])) = .ok (la + 1) ∧
      reflect_Len (.slice (x :: sequenceElems a)) = .ok (la + 1) ∧
      reflect_Index (.slice (sequenceElems a ++ [x])) la = .ok x ∧
      reflect_Index (.slice (x :: sequenceElems a)) 0 = .ok x ∧
      (∀ i, i < la →
        reflect_Index (.slice (sequenceElems a ++ [x])) i = reflect_Index a i ∧
        reflect_Index (.slice (x :: sequenceElems a)) (i + 1) = reflect_Index a i)) ∧
    _AddSliceAny.Add (.slice [.int64 1, .int64 2]) (.int64 3)
      = .ok (.slice [.int64 1, .int64 2, .int64 3]) ∧
    _AddSliceAny.Add (.int64 3) (.slice [.int64 1, .int64 2])
      = .ok (.slice [.int64 3, .int64 1, .int64 2]) := by
  refine ⟨by simp [_AddSliceAny.Applicable, ha], by simp [_AddSliceAny.Applicable, ha], ?_, ?_,
    ⟨_, reflect_Len_array a ha, ?_, ?_, ?_, ?_, ?_⟩, rfl, rfl⟩
  · simp [_AddSliceAny.Add, ha, appendAll_array a ha, bind, Except.bind]
    rfl
  · simp [_AddSliceAny.Add, hx, appendAll_array a ha, bind, Except.bind]
    rfl
  · simp [reflect_Len]
  · simp [reflect_Len]
  · simp [reflect_Index]
  · simp [reflect_Index]
  · intro i hi
    rw [reflect_Index_array a ha i]
    simp only [reflect_Index]
    constructor
    · rw [List.getElem?_append_left hi]
    · simp

/-- Closed instance of C10: an integer appended and prepended to a `[]byte`,
whose elements are boxed as `uint8`. -/
theorem addSliceAny_extends_witness :
    _AddSliceAny.Add (.bytes [97, 98]) (.int64 3)
      = .ok (.slice [.uint8 97, .uint8 98, .int64 3]) ∧
    _AddSliceAny.Add (.int64 3) (.bytes [97, 98])
      = .ok (.slice [.int64 3, .uint8 97, .uint8 98]) :=
  ⟨(addSliceAny_extends (.bytes [97, 98]) (.int64 3) rfl rfl).2.2.1,
    (addSliceAny_extends (.bytes [97, 98]) (.int64 3) rfl rfl).2.2.2.1⟩

/-! ## Null as the empty array (C11) -/

/-- An array is not null-like. -/
theorem array_not_null (a : Any) (ha : is_array a = true) : is_null a = false := by
  cases a <;> simp [is_array] at ha <;> rfl

/-- C11: for an array `a` and a null-like `n` (nil, `Null` or `*Null`),
`_AddNull` is applicable to `(a, n)` and to `(n, a)` and `_AddNull.Add`
returns `a` itself in both cases; the result has the elements of
`_AddSlices.Add` applied to `a` and an empty array, on either side. -/
theorem addNull_returns_array (a n : Any) (ha : is_array a = true) (hn : is_null n = true) :
    (is_null .nil = true ∧ is_null .Null = true ∧ ∀ p, is_null (.NullPtr p) = true) ∧
    _AddNull.Applicable a n = true ∧ _AddNull.Applicable n a = true ∧
    _AddNull.Add a n = a ∧ _AddNull.Add n a = a ∧
    (∃ r, _AddSlices.Add a (.slice []) = .ok r ∧
      sequenceElems r = sequenceElems (_AddNull.Add a n) ∧
      reflect_Len r = reflect_Len (_AddNull.Add a n)) ∧
    (∃ r, _AddSlices.Add (.slice []) a = .ok r ∧
      sequenceElems r = sequenceElems (_AddNull.Add n a) ∧
      reflect_Len r = reflect_Len (_AddNull.Add n a)) := by
  have hna := array_not_null a ha
  have h1 : _AddNull.Add a n = a := by simp [_AddNull.Add, hna]
  have h2 : _AddNull.Add n a = a := by simp [_AddNull.Add, hn]
  have e : is_array (.slice []) = true := rfl
  refine ⟨⟨rfl, rfl, fun _ => rfl⟩, by simp [_AddNull.Applicable, ha, hn],
    by simp [_AddNull.Applicable, ha, hn], h1, h2, ?_, ?_⟩
  · refine ⟨.slice (sequenceElems a ++ sequenceElems (.slice [])), ?_, ?_, ?_⟩
    · simp [_AddSlices.Add, appendAll_array a ha, appendAll_array _ e, bind, Except.bind]
      rfl
    · rw [h1]; simp [sequenceElems]
    · rw [h1, reflect_Len_array a ha]; simp [reflect_Len, sequenceElems]
  · refine ⟨.slice (sequenceElems (.slice []) ++ sequenceElems a), ?_, ?_, ?_⟩
    · simp [_AddSlices.Add, appendAll_array a ha, appendAll_array _ e, bind, Except.bind]
      rfl
    · rw [h2]; simp [sequenceElems]
    · rw [h2, reflect_Len_array a ha]; simp [reflect_Len, sequenceElems]

/-- Closed instance of C11: `(1, 2) + Null` and `nil + (1, 2)` are
`(1, 2)`. -/
theorem addNull_returns_array_witness :
    _AddNull.Add (.slice [.int64 1, .int64 2]) .Null = .slice [.int64 1, .int64 2] ∧
    _AddNull.Add .nil (.slice [.int64 1, .int64 2]) = .slice [.int64 1, .int64 2] :=
  ⟨(addNull_returns_array (.slice [.int64 1, .int64 2]) .Null rfl rfl).2.2.2.1,
    (addNull_returns_array (.slice [.int64 1, .int64 2]) .nil rfl rfl).2.2.2.2.1⟩

/-! ## Truth values (C12) -/

/-- The loop returns `r` when some implementation is applicable and every
applicable one returns `r`. -/
theorem dispatchLoop_agree {I R : Type} (applicable : I → Except Panic Bool) (apply : I → Go R)
    (notFound : Go R) (r : Go R) (impls : List I)
    (h : ∀ j ∈ impls, applicable j = .ok false ∨ (applicable j = .ok true ∧ apply j = r))
    (hex : ∃ j ∈ impls, applicable j = .ok true) :
    dispatchLoop applicable apply notFound impls = r := by
  induction impls with
  | nil => obtain ⟨j, hj, _⟩ := hex; cases hj
  | cons j rest ih =>
    funext s
    rcases h j (List.mem_cons_self j rest) with hj | ⟨hj, hr⟩
    · have hrest : ∀ k ∈ rest, applicable k = .ok false ∨
          (applicable k = .ok true ∧ apply k = r) :=
        fun k hk => h k (List.mem_cons_of_mem j hk)
      have hex' : ∃ k ∈ rest, applicable k = .ok true := by
        obtain ⟨k, hk, hkt⟩ := hex
        rcases List.mem_cons.mp hk with rfl | hk'
        · rw [hj] at hkt; cases hkt
        · exact ⟨k, hk', hkt⟩
      simp [dispatchLoop, hj, ih hrest hex']
    · simp [dispatchLoop, hj, hr]

/-- The bit count of the rounding never exceeds the number itself. -/
theorem excessBits_pow_le : ∀ (fuel n : Nat), 1 ≤ n → 2 ^ excessBits fuel n ≤ n := by
  intro fuel
  induction fuel with
  | zero => intro n hn; simpa [excessBits] using hn
  | succ f ih =>
    intro n hn
    unfold excessBits
    split
    · simpa using hn
    · rename_i hlt
      have h53 : 2 ^ 53 ≤ n := Nat.le_of_not_lt hlt
      have h2 : 1 ≤ n / 2 := by
        have : (2 : Nat) ^ 53 = 2 * 2 ^ 52 := by norm_num
        omega
      have := ih (n / 2) h2
      rw [pow_succ]
      omega

/-- Rounding to a double keeps zero and only zero. -/
theorem roundNearestEven53_eq_zero (n : Nat) : roundNearestEven53 n = 0 ↔ n = 0 := by
  unfold roundNearestEven53
  split
  · rfl
  · rename_i hlt
    have h53 : 2 ^ 53 ≤ n := Nat.le_of_not_lt hlt
    have hn : 1 ≤ n := le_trans (Nat.one_le_two_pow) h53
    have hk := excessBits_pow_le n n hn
    have hq : 1 ≤ n / 2 ^ excessBits n n :=
      (Nat.one_le_div_iff (Nat.two_pow_pos _)).mpr hk
    have hpos : 0 < 2 ^ excessBits n n := Nat.two_pow_pos _
    constructor
    · intro h
      simp only [Nat.mul_eq_zero] at h
      rcases h with h | h
      · split at h <;> omega
      · omega
    · intro h; omega

/-- The double of an integer is zero exactly for the integer zero. -/
theorem ofInt_eq_zero (v : Int) : (Float64.ofInt v).eq (.finite 0) = decide (v = 0) := by
  unfold Float64.ofInt
  by_cases hv : v < 0
  · have hne : v ≠ 0 := by omega
    have hr : roundNearestEven53 v.natAbs ≠ 0 := by
      rw [Ne, roundNearestEven53_eq_zero]; omega
    simp [hv, Float64.eq, Float64.value?, hne, hr]
  · have hr : roundNearestEven53 v.natAbs = 0 ↔ v = 0 := by
      rw [roundNearestEven53_eq_zero]; omega
    by_cases h0 : v = 0
    · subst h0; decide
    · have hr' : roundNearestEven53 v.natAbs ≠ 0 := fun h => h0 (hr.mp h)
      simp [hv, Float64.eq, Float64.value?, h0, hr']

/-- `_BoolInt.Bool` on an int-like value: is the denoted integer nonzero? -/
theorem boolInt_int_like (v : Any) (hv : is_int v = true) :
    _BoolInt.Bool v = decide (denotedInteger v ≠ 0) := by
  cases v <;> simp [is_int] at hv <;>
    simp only [_BoolInt.Bool, to_float, denotedInteger, ofInt_eq_zero]
  case bool b => cases b <;> decide
  all_goals simp

/-- Which of the four baseline Bool implementations accept an operand, and
what each returns, for the operand kinds of C12. -/
theorem bool_impls_on_kinds (scope : ScopeCalls) (impl : BoolProtocol)
    (himpl : impl = _BoolImpl ∨ impl = _BoolInt ∨ impl = _BoolString ∨ impl = _BoolSlice) :
    (∀ v, is_int v = true →
      impl.Applicable v = .ok false ∨ (impl.Applicable v = .ok true ∧
        impl.Bool scope v = fun s => (.ok (decide (denotedInteger v ≠ 0)), s))) ∧
    (∀ x : GoString, ∀ t, (t = .string x ∨ ∃ p, t = .stringPtr (some (p, x))) →
      impl.Applicable t = .ok false ∨ (impl.Applicable t = .ok true ∧
        impl.Bool scope t = fun s => (.ok (decide (x.length > 0)), s))) ∧
    (∀ l, is_array l = true →
      impl.Applicable l = .ok false ∨ (impl.Applicable l = .ok true ∧
        impl.Bool scope l = fun s => (.ok (decide ((sequenceElems l).length > 0)), s))) := by
  refine ⟨?_, ?_, ?_⟩
  · intro v hv
    rcases himpl with rfl | rfl | rfl | rfl
    · cases v <;> simp [is_int] at hv <;> simp [_BoolImpl, _BoolImpl.Applicable]
      case bool b =>
        funext s
        cases b <;> rfl
    · right
      refine ⟨?_, ?_⟩
      · cases v <;> simp [is_int] at hv <;> simp [_BoolInt, _BoolInt.Applicable, to_float]
        case bool b => cases b <;> rfl
      · funext s
        show (Except.ok (_BoolInt.Bool v), s) = _
        rw [boolInt_int_like v hv]
    · left
      cases v <;> simp [is_int] at hv <;> rfl
    · left
      cases v <;> simp [is_int] at hv <;> rfl
  · intro x t ht
    rcases himpl with rfl | rfl | rfl | rfl
    · left; rcases ht with rfl | ⟨p, rfl⟩ <;> rfl
    · left; rcases ht with rfl | ⟨p, rfl⟩ <;> rfl
    · right; rcases ht with rfl | ⟨p, rfl⟩ <;> exact ⟨rfl, rfl⟩
    · left; rcases ht with rfl | ⟨p, rfl⟩ <;> rfl
  · intro l hl
    rcases himpl with rfl | rfl | rfl | rfl
    · left; cases l <;> simp [is_array] at hl <;> rfl
    · left; cases l <;> simp [is_array] at hl <;> rfl
    · left; cases l <;> simp [is_array] at hl <;> rfl
    · right
      refine ⟨by simp [_BoolSlice, _BoolSlice.Applicable, hl], ?_⟩
      funext s
      simp [_BoolSlice, _BoolSlice.Bool, Go.ofExcept, reflect_Len_array l hl, bind, Except.bind,
        pure, Except.pure]

/-- Truth values away from the nil pointer: for a Bool dispatcher holding
`_BoolImpl`, `_BoolInt`, `_BoolString` and `_BoolSlice` in any order,
`Bool(b)` is `b` for a bool, `Bool(v)` is `v != 0` for an int-like `v`,
`Bool(s)` is `len(s) > 0` for a `string` or a `*string` pointing at `s`, and
`Bool(l)` is `len(l) > 0` for an array `l`; `_BoolImpl` and `_BoolInt` agree
on every bool. -/
theorem bool_dispatcher_on_kinds (scope : ScopeCalls) (s : Scope) (impls : List BoolProtocol)
    (hall : ∀ i ∈ impls, i = _BoolImpl ∨ i = _BoolInt ∨ i = _BoolString ∨ i = _BoolSlice)
    (_h1 : _BoolImpl ∈ impls) (h2 : _BoolInt ∈ impls) (h3 : _BoolString ∈ impls)
    (h4 : _BoolSlice ∈ impls) :
    (∀ b : Bool, _BoolDispatcher.Bool ⟨impls⟩ scope (.bool b) s = (.ok b, s)) ∧
    (∀ v, is_int v = true →
      _BoolDispatcher.Bool ⟨impls⟩ scope v s = (.ok (decide (denotedInteger v ≠ 0)), s)) ∧
    (∀ (x : GoString) (p : Nat),
      _BoolDispatcher.Bool ⟨impls⟩ scope (.string x) s = (.ok (decide (x.length > 0)), s) ∧
      _BoolDispatcher.Bool ⟨impls⟩ scope (.stringPtr (some (p, x))) s
        = (.ok (decide (x.length > 0)), s)) ∧
    (∀ l, is_array l = true → ∃ n, reflect_Len l = .ok n ∧
      _BoolDispatcher.Bool ⟨impls⟩ scope l s = (.ok (decide (n > 0)), s)) ∧
    (∀ b : Bool, _BoolImpl.Bool (.bool b) = .ok (_BoolInt.Bool (.bool b)) ∧
      _BoolImpl.Applicable (.bool b) = true ∧ _BoolInt.Applicable (.bool b) = true) := by
  have hint : ∀ v, is_int v = true →
      _BoolDispatcher.Bool ⟨impls⟩ scope v s = (.ok (decide (denotedInteger v ≠ 0)), s) := by
    intro v hv
    have := dispatchLoop_agree (fun impl : BoolProtocol => impl.Applicable v)
      (fun impl => impl.Bool scope v)
      (do
        Scope.Trace "Protocol Bool not found for %v (%T)" [v, v]
        pure false)
      (fun s => (.ok (decide (denotedInteger v ≠ 0)), s)) impls
      (fun j hj => (bool_impls_on_kinds scope j (hall j hj)).1 v hv)
      ⟨_BoolInt, h2, by
        cases v <;> simp [is_int] at hv <;> simp [_BoolInt, _BoolInt.Applicable, to_float]
        case bool b => cases b <;> rfl⟩
    exact congrFun this s
  have hstr : ∀ (x : GoString) (t : Any), (t = .string x ∨ ∃ p, t = .stringPtr (some (p, x))) →
      _BoolDispatcher.Bool ⟨impls⟩ scope t s = (.ok (decide (x.length > 0)), s) := by
    intro x t ht
    have := dispatchLoop_agree (fun impl : BoolProtocol => impl.Applicable t)
      (fun impl => impl.Bool scope t)
      (do
        Scope.Trace "Protocol Bool not found for %v (%T)" [t, t]
        pure false)
      (fun s => (.ok (decide (x.length > 0)), s)) impls
      (fun j hj => (bool_impls_on_kinds scope j (hall j hj)).2.1 x t ht)
      ⟨_BoolString, h3, by rcases ht with rfl | ⟨p, rfl⟩ <;> rfl⟩
    exact congrFun this s
  refine ⟨?_, hint, ?_, ?_, ?_⟩
  · intro b
    rw [hint (.bool b) rfl]
    cases b <;> rfl
  · intro x p
    exact ⟨hstr x _ (Or.inl rfl), hstr x _ (Or.inr ⟨p, rfl⟩)⟩
  · intro l hl
    refine ⟨_, reflect_Len_array l hl, ?_⟩
    have := dispatchLoop_agree (fun impl : BoolProtocol => impl.Applicable l)
      (fun impl => impl.Bool scope l)
      (do
        Scope.Trace "Protocol Bool not found for %v (%T)" [l, l]
        pure false)
      (fun s => (.ok (decide ((sequenceElems l).length > 0)), s)) impls
      (fun j hj => (bool_impls_on_kinds scope j (hall j hj)).2.2 l hl)
      ⟨_BoolSlice, h4, by simp [_BoolSlice, _BoolSlice.Applicable, hl]⟩
    exact congrFun this s
  · intro b
    cases b <;> exact ⟨rfl, rfl, rfl⟩

/-- C12, as the code has it: `_BoolString.Applicable` accepts every `*string`
and `_BoolString.Bool` evaluates `len(*t)` without a nil check, so on a nil
`*string` a Bool dispatcher that holds `_BoolString` among the baseline
implementations, in any order, panics instead of answering.  On every other
operand the claim holds: `Bool(b)` is `b` for a bool, `Bool(v)` is `v != 0`
for an int-like `v`, `Bool(s)` is `len(s) > 0` for a `string` and for a
`*string` that points at one, `Bool(l)` is `len(l) > 0` for an array, and
`_BoolImpl` and `_BoolInt` agree on every bool. -/
theorem bool_nil_string_panics (scope : ScopeCalls) (s : Scope) :
    (BoolProtocol.Applicable _BoolString (.stringPtr none) = .ok true ∧
      _BoolString.Bool (.stringPtr none) = .error .nilDereference) ∧
    (∀ impls : List BoolProtocol,
      (∀ i ∈ impls, i = _BoolImpl ∨ i = _BoolInt ∨ i = _BoolString ∨ i = _BoolSlice) →
      _BoolString ∈ impls →
      _BoolDispatcher.Bool ⟨impls⟩ scope (.stringPtr none) s = (.error .nilDereference, s)) ∧
    _BoolDispatcher.Bool ⟨[_BoolSlice, _BoolString, _BoolInt, _BoolImpl]⟩ ScopeCalls.inert
        (.stringPtr none) Scope.empty = (.error .nilDereference, Scope.empty) ∧
    (∀ impls : List BoolProtocol,
      (∀ i ∈ impls, i = _BoolImpl ∨ i = _BoolInt ∨ i = _BoolString ∨ i = _BoolSlice) →
      _BoolImpl ∈ impls → _BoolInt ∈ impls → _BoolString ∈ impls → _BoolSlice ∈ impls →
      (∀ b : Bool, _BoolDispatcher.Bool ⟨impls⟩ scope (.bool b) s = (.ok b, s)) ∧
      (∀ v, is_int v = true →
        _BoolDispatcher.Bool ⟨impls⟩ scope v s = (.ok (decide (denotedInteger v ≠ 0)), s)) ∧
      (∀ (x : GoString) (p : Nat),
        _BoolDispatcher.Bool ⟨impls⟩ scope (.string x) s = (.ok (decide (x.length > 0)), s) ∧
        _BoolDispatcher.Bool ⟨impls⟩ scope (.stringPtr (some (p, x))) s
          = (.ok (decide (x.length > 0)), s)) ∧
      (∀ l, is_array l = true → ∃ n, reflect_Len l = .ok n ∧
        _BoolDispatcher.Bool ⟨impls⟩ scope l s = (.ok (decide (n > 0)), s)) ∧
      (∀ b : Bool, _BoolImpl.Bool (.bool b) = .ok (_BoolInt.Bool (.bool b)) ∧
        _BoolImpl.Applicable (.bool b) = true ∧ _BoolInt.Applicable (.bool b) = true)) := by
  refine ⟨⟨rfl, rfl⟩, ?_, rfl, ?_⟩
  · intro impls hall hmem
    have hagree := dispatchLoop_agree
      (fun impl : BoolProtocol => impl.Applicable (.stringPtr none))
      (fun impl => impl.Bool scope (.stringPtr none))
      (do
        Scope.Trace "Protocol Bool not found for %v (%T)" [Any.stringPtr none, Any.stringPtr none]
        pure false)
      (fun s => (.error .nilDereference, s)) impls
      (fun j hj => by
        rcases hall j hj with rfl | rfl | rfl | rfl
        · exact Or.inl rfl
        · exact Or.inl rfl
        · exact Or.inr ⟨rfl, rfl⟩
        · exact Or.inl rfl)
      ⟨_BoolString, hmem, rfl⟩
    exact congrFun hagree s
  · intro impls hall h1 h2 h3 h4
    exact bool_dispatcher_on_kinds scope s impls hall h1 h2 h3 h4

/-! ## String equality (C13) -/

/-- C13, as the code has it: `_StringEq.Eq` is `a == b` on the interface
values, not a comparison of the `to_string` contents.  A `string` and a
`[]byte` (or a `*string`) of the same content are reported different, two
distinct `*string` of the same content are reported different, and two
`[]byte` make the comparison panic, although `_StringEq` is applicable to
all these pairs. -/
theorem stringEq_compares_interfaces (hostEq : Any → Any → Except Panic Bool) :
    (_StringEq.Applicable (.string [97]) (.bytes [97]) = .ok true ∧
      to_string (.string [97]) = .ok ([97], true) ∧
      to_string (.bytes [97]) = .ok ([97], true) ∧
      _StringEq.Eq hostEq (.string [97]) (.bytes [97]) = .ok false) ∧
    (_StringEq.Applicable (.string [97]) (.stringPtr (some (4096, [97]))) = .ok true ∧
      to_string (.stringPtr (some (4096, [97]))) = .ok ([97], true) ∧
      _StringEq.Eq hostEq (.string [97]) (.stringPtr (some (4096, [97]))) = .ok false) ∧
    (_StringEq.Applicable (.stringPtr (some (4096, [97]))) (.stringPtr (some (8192, [97])))
        = .ok true ∧
      _StringEq.Eq hostEq (.stringPtr (some (4096, [97]))) (.stringPtr (some (8192, [97])))
        = .ok false) ∧
    (_StringEq.Applicable (.bytes [97]) (.bytes [97]) = .ok true ∧
      _StringEq.Eq hostEq (.bytes [97]) (.bytes [97]) = .error .uncomparable) ∧
    (∀ x y : GoString, _StringEq.Eq hostEq (.string x) (.string y) = .ok (decide (x = y))) := by
  refine ⟨⟨rfl, rfl, rfl, rfl⟩, ⟨rfl, rfl, rfl⟩, ⟨rfl, ?_⟩, ⟨rfl, rfl⟩, fun _ _ => rfl⟩
  simp [_StringEq.Eq, interfaceEq, pointerEq]

/-! ## Array equality (C14) -/

/-- One iteration of the loop of `_ArrayEq.Eq`. -/
theorem arrayEqLoop_succ (scope : ScopeCalls) (a b : Any) (todo i : Nat) (s : Scope) :
    arrayEqLoop scope a b (todo + 1) i s =
      match reflect_Index a i with
      | .error p => (.error p, s)
      | .ok x =>
        match reflect_Index b i with
        | .error p => (.error p, s)
        | .ok y =>
          match scope.eq_Eq x y s with
          | (.error p, s') => (.error p, s')
          | (.ok false, s') => (.ok false, s')
          | (.ok true, s') => arrayEqLoop scope a b todo (i + 1) s' := by
  simp only [arrayEqLoop, bind, Go.bind, Go.ofExcept]
  cases reflect_Index a i with
  | error p => rfl
  | ok x =>
    cases reflect_Index b i with
    | error p => rfl
    | ok y =>
      simp only []
      rcases h : scope.eq_Eq x y s with ⟨r, s'⟩
      cases r with
      | error p => rfl
      | ok v => cases v <;> rfl

/-- The loop of `_ArrayEq.Eq` over two arrays of equal length returns, and
returns true exactly when the scope's Eq accepts every remaining pair. -/
theorem arrayEqLoop_spec (scope : ScopeCalls) (a b : Any) (ha : is_array a = true)
    (hb : is_array b = true) (e : Any → Any → Bool)
    (he : ∀ x ∈ sequenceElems a, ∀ y ∈ sequenceElems b, ∀ s,
      (scope.eq_Eq x y s).1 = .ok (e x y))
    (hlen : (sequenceElems a).length = (sequenceElems b).length) :
    ∀ (todo i : Nat) (s : Scope), i + todo = (sequenceElems a).length →
      ∃ r s', arrayEqLoop scope a b todo i s = (.ok r, s') ∧
        (r = true ↔ ∀ j x y, i ≤ j → (sequenceElems a)[j]? = some x →
          (sequenceElems b)[j]? = some y → e x y = true) := by
  intro todo
  induction todo with
  | zero =>
    intro i s hi
    refine ⟨true, s, rfl, ?_⟩
    simp only [true_iff]
    intro j x y hij hx _
    have := (List.getElem?_eq_some.mp hx).1
    omega
  | succ n ih =>
    intro i s hi
    have hia : i < (sequenceElems a).length := by omega
    have hib : i < (sequenceElems b).length := by omega
    have hxa := List.getElem?_eq_getElem hia
    have hyb := List.getElem?_eq_getElem hib
    rw [arrayEqLoop_succ, reflect_Index_array a ha i, reflect_Index_array b hb i, hxa, hyb]
    simp only []
    have hv := he _ (List.getElem_mem hia) _ (List.getElem_mem hib) s
    rcases hs : scope.eq_Eq (sequenceElems a)[i] (sequenceElems b)[i] s with ⟨r, s1⟩
    rw [hs] at hv
    simp only at hv
    subst hv
    cases hexy : e (sequenceElems a)[i] (sequenceElems b)[i] with
    | false =>
      refine ⟨false, s1, rfl, ?_⟩
      constructor
      · intro h; cases h
      · intro h
        have := h i _ _ (le_refl i) hxa hyb
        rw [hexy] at this; cases this
    | true =>
      obtain ⟨r, s', hr, hiff⟩ := ih (i + 1) s1 (by omega)
      refine ⟨r, s', hr, ?_⟩
      rw [hiff]
      constructor
      · intro h j x y hij hx hy
        rcases Nat.eq_or_lt_of_le hij with rfl | hlt
        · rw [hxa] at hx; rw [hyb] at hy
          cases hx; cases hy; exact hexy
        · exact h j x y hlt hx hy
      · intro h j x y hij hx hy
        exact h j x y (by omega) hx hy

/-- On an array, `Index(i)` returns `x` exactly when `x` is its `i`-th
element. -/
theorem reflect_Index_array_ok (v : Any) (hv : is_array v = true) (i : Nat) (x : Any) :
    reflect_Index v i = .ok x ↔ (sequenceElems v)[i]? = some x := by
  rw [reflect_Index_array v hv i]
  cases (sequenceElems v)[i]? with
  | none => simp
  | some e => simp

/-- C14: for arrays `a` and `b`, with a scope Eq that answers `e x y` on their
elements, `_ArrayEq.Eq a b` is true exactly when `len(a) = len(b)` and the
scope Eq reports `a[i]` equal to `b[i]` at every index; arrays of different
lengths are not equal and two empty arrays are.  `(1, 2, 3) = (1, 2, 3)` is
true and `(1, 2, 3) = (2, 3)` is false. -/
theorem arrayEq_pairwise (scope : ScopeCalls) (a b : Any) (s : Scope)
    (ha : is_array a = true) (hb : is_array b = true) (e : Any → Any → Bool)
    (he : ∀ x ∈ sequenceElems a, ∀ y ∈ sequenceElems b, ∀ s',
      (scope.eq_Eq x y s').1 = .ok (e x y)) :
    _ArrayEq.Applicable a b = true ∧
    (∃ la lb r s', reflect_Len a = .ok la ∧ reflect_Len b = .ok lb ∧
      _ArrayEq.Eq scope a b s = (.ok r, s') ∧
      (r = true ↔ la = lb ∧ ∀ i x y, reflect_Index a i = .ok x → reflect_Index b i = .ok y →
        e x y = true) ∧
      (la ≠ lb → r = false) ∧
      (la = 0 → lb = 0 → r = true)) ∧
    _ArrayEq.Eq (ScopeCalls.withEq ⟨[_IntEq]⟩) (.slice [.int64 1, .int64 2, .int64 3])
      (.slice [.int64 1, .int64 2, .int64 3]) Scope.empty = (.ok true, Scope.empty) ∧
    _ArrayEq.Eq (ScopeCalls.withEq ⟨[_IntEq]⟩) (.slice [.int64 1, .int64 2, .int64 3])
      (.slice [.int64 2, .int64 3]) Scope.empty = (.ok false, Scope.empty) := by
  refine ⟨by simp [_ArrayEq.Applicable, ha, hb], ?_, rfl, rfl⟩
  refine ⟨(sequenceElems a).length, (sequenceElems b).length, ?_⟩
  by_cases hlen : (sequenceElems a).length = (sequenceElems b).length
  · obtain ⟨r, s', hr, hiff⟩ := arrayEqLoop_spec scope a b ha hb e he hlen
      (sequenceElems a).length 0 s (by simp)
    refine ⟨r, s', reflect_Len_array a ha, reflect_Len_array b hb, ?_, ?_, ?_, ?_⟩
    · simp only [_ArrayEq.Eq, bind, Go.bind, Go.ofExcept, reflect_Len_array a ha,
        reflect_Len_array b hb]
      simp [hlen]
      rw [← hlen]; exact hr
    · rw [hiff]
      constructor
      · intro h
        refine ⟨hlen, fun i x y hx hy => ?_⟩
        exact h i x y (Nat.zero_le i) ((reflect_Index_array_ok a ha i x).mp hx)
          ((reflect_Index_array_ok b hb i y).mp hy)
      · intro h j x y _ hx hy
        exact h.2 j x y ((reflect_Index_array_ok a ha j x).mpr hx)
          ((reflect_Index_array_ok b hb j y).mpr hy)
    · intro h; exact absurd hlen h
    · intro h0 _
      rw [hiff]
      intro j x y _ hx _
      have := (List.getElem?_eq_some.mp hx).1
      omega
  · refine ⟨false, s, reflect_Len_array a ha, reflect_Len_array b hb, ?_, ?_, ?_, ?_⟩
    · simp only [_ArrayEq.Eq, bind, Go.bind, Go.ofExcept, reflect_Len_array a ha,
        reflect_Len_array b hb]
      simp [hlen]
      rfl
    · constructor
      · intro h; cases h
      · intro h; exact absurd h.1 hlen
    · intro _; rfl
    · intro h0 h1; exact absurd (h0.trans h1.symm) hlen

/-- Closed instance of C14: under the Eq dispatcher `[_IntEq]`, the `[]byte`
`'ab'` equals the array of the integers 97 and 98. -/
theorem arrayEq_pairwise_witness :
    ∃ la lb r s', reflect_Len (.bytes [97, 98]) = .ok la ∧
      reflect_Len (.array [.int64 97, .int64 98]) = .ok lb ∧
      _ArrayEq.Eq (ScopeCalls.withEq ⟨[_IntEq]⟩) (.bytes [97, 98])
        (.array [.int64 97, .int64 98]) Scope.empty = (.ok r, s') ∧
      (r = true ↔ la = lb ∧ ∀ i x y, reflect_Index (.bytes [97, 98]) i = .ok x →
        reflect_Index (.array [.int64 97, .int64 98]) i = .ok y → _IntEq.Eq x y = true) ∧
      (la ≠ lb → r = false) ∧
      (la = 0 → lb = 0 → r = true) :=
  (arrayEq_pairwise (ScopeCalls.withEq ⟨[_IntEq]⟩) (.bytes [97, 98])
    (.array [.int64 97, .int64 98]) Scope.empty rfl rfl (fun x y => _IntEq.Eq x y)
    (by
      intro x hx y hy s'
      simp only [sequenceElems, List.map_cons, List.map_nil, List.mem_cons, List.mem_singleton,
        List.not_mem_nil, or_false] at hx hy
      rcases hx with rfl | rfl <;> rcases hy with rfl | rfl <;> rfl)).2.1

/-! ## String order (C15) -/

/-- Go's `<` on strings is the lexicographic order of the bytes. -/
theorem stringLess_iff_lex (a b : GoString) :
    stringLess a b = true ↔ List.Lex (fun x y : Byte => x < y) a b := by
  constructor
  · intro h
    induction a generalizing b with
    | nil =>
      cases b with
      | nil => simp [stringLess] at h
      | cons y ys => exact List.Lex.nil
    | cons x xs ih =>
      cases b with
      | nil => simp [stringLess] at h
      | cons y ys =>
        unfold stringLess at h
        by_cases hxy : x < y
        · exact List.Lex.rel hxy
        · by_cases hyx : y < x
          · simp [hxy, hyx] at h
          · simp only [hxy, hyx, if_false] at h
            have hE : x = y := le_antisymm (not_lt.mp hyx) (not_lt.mp hxy)
            subst hE
            exact List.Lex.cons (ih ys h)
  · intro h
    induction h with
    | nil => rfl
    | cons _ ih => simp [stringLess, ih]
    | rel hr => simp [stringLess, hr]

theorem stringLess_irrefl (a : GoString) : stringLess a a = false := by
  induction a with
  | nil => rfl
  | cons x xs ih => simp [stringLess, ih]

theorem stringLess_asymm (a b : GoString) (h : stringLess a b = true) :
    stringLess b a = false := by
  induction a generalizing b with
  | nil => cases b <;> simp [stringLess] at h ⊢
  | cons x xs ih =>
    cases b with
    | nil => simp [stringLess] at h
    | cons y ys =>
      unfold stringLess at h ⊢
      by_cases hxy : x < y
      · simp [hxy, lt_asymm hxy]
      · by_cases hyx : y < x
        · simp [hxy, hyx] at h
        · simp only [hxy, hyx, if_false] at h ⊢
          exact ih ys h

theorem stringLess_trans (a b c : GoString) (hab : stringLess a b = true)
    (hbc : stringLess b c = true) : stringLess a c = true := by
  induction a generalizing b c with
  | nil =>
    cases b with
    | nil => simp [stringLess] at hab
    | cons y ys =>
      cases c with
      | nil => simp [stringLess] at hbc
      | cons z zs => rfl
  | cons x xs ih =>
    cases b with
    | nil => simp [stringLess] at hab
    | cons y ys =>
      cases c with
      | nil => simp [stringLess] at hbc
      | cons z zs =>
        unfold stringLess at hab hbc ⊢
        by_cases hxy : x < y
        · by_cases hyz : y < z
          · simp [lt_trans hxy hyz]
          · by_cases hzy : z < y
            · simp [hyz, hzy] at hbc
            · have hE : y = z := le_antisymm (not_lt.mp hzy) (not_lt.mp hyz)
              subst hE
              simp [hxy]
        · by_cases hyx : y < x
          · simp [hxy, hyx] at hab
          · have hE : x = y := le_antisymm (not_lt.mp hyx) (not_lt.mp hxy)
            subst hE
            simp only [hxy, if_false] at hab
            by_cases hxz : x < z
            · simp [hxz]
            · by_cases hzx : z < x
              · simp [hxz, hzx] at hbc
              · simp only [hxz, hzx, if_false] at hbc ⊢
                exact ih ys zs hab hbc

theorem stringLess_total (a b : GoString) (h : a ≠ b) :
    stringLess a b = true ∨ stringLess b a = true := by
  induction a generalizing b with
  | nil =>
    cases b with
    | nil => exact absurd rfl h
    | cons y ys => left; rfl
  | cons x xs ih =>
    cases b with
    | nil => right; rfl
    | cons y ys =>
      unfold stringLess
      by_cases hxy : x < y
      · left; simp [hxy]
      · by_cases hyx : y < x
        · right; simp [hyx]
        · have hE : x = y := le_antisymm (not_lt.mp hyx) (not_lt.mp hxy)
          subst hE
          simp only [hxy, if_false]
          exact ih ys (fun hE => h (by rw [hE]))

/-- C15: for string-like `a` and `b` of contents `sa` and `sb`,
`_StringLt.Lt a b` is true exactly when `sa` is below `sb` in the byte-wise
lexicographic order; it is a strict total order on contents: irreflexive,
transitive, and exactly one of `Lt(a, b)`, `Lt(b, a)`, `sa = sb` holds. -/
theorem stringLt_lexicographic (a b c : Any) (sa sb sc : GoString)
    (ha : to_string a = .ok (sa, true)) (hb : to_string b = .ok (sb, true))
    (hc : to_string c = .ok (sc, true)) :
    _StringLt.Applicable a b = .ok true ∧
    (∃ r, _StringLt.Lt a b = .ok r ∧
      (r = true ↔ List.Lex (fun x y : Byte => x < y) sa sb)) ∧
    _StringLt.Lt a a = .ok false ∧
    (_StringLt.Lt a b = .ok true → _StringLt.Lt b c = .ok true →
      _StringLt.Lt a c = .ok true) ∧
    ((_StringLt.Lt a b = .ok true ∨ _StringLt.Lt b a = .ok true ∨ sa = sb) ∧
      ¬ (_StringLt.Lt a b = .ok true ∧ _StringLt.Lt b a = .ok true) ∧
      ¬ (_StringLt.Lt a b = .ok true ∧ sa = sb) ∧
      ¬ (_StringLt.Lt b a = .ok true ∧ sa = sb)) := by
  have lt_eq : ∀ (u v : Any) (su sv : GoString), to_string u = .ok (su, true) →
      to_string v = .ok (sv, true) → _StringLt.Lt u v = .ok (stringLess su sv) := by
    intro u v su sv hu hv
    simp [_StringLt.Lt, hu, hv, bind, Except.bind]
    rfl
  have ok_inj : ∀ x y : Bool, (Except.ok x : Except Panic Bool) = .ok y ↔ x = y := by
    intro x y
    constructor
    · intro h; cases h; rfl
    · intro h; rw [h]
  rw [lt_eq a b sa sb ha hb, lt_eq a a sa sa ha ha, lt_eq b c sb sc hb hc,
    lt_eq a c sa sc ha hc, lt_eq b a sb sa hb ha]
  simp only [ok_inj]
  refine ⟨?_, ⟨_, rfl, stringLess_iff_lex sa sb⟩, stringLess_irrefl sa,
    stringLess_trans sa sb sc, ⟨?_, ?_, ?_, ?_⟩⟩
  · simp [_StringLt.Applicable, ha, hb, bind, Except.bind]
    rfl
  · by_cases h : sa = sb
    · exact Or.inr (Or.inr h)
    · rcases stringLess_total sa sb h with h1 | h1
      · exact Or.inl h1
      · exact Or.inr (Or.inl h1)
  · rintro ⟨h1, h2⟩
    rw [stringLess_asymm sa sb h1] at h2
    cases h2
  · rintro ⟨h1, h2⟩
    rw [h2, stringLess_irrefl] at h1
    cases h1
  · rintro ⟨h1, h2⟩
    rw [h2, stringLess_irrefl] at h1
    cases h1

/-- Closed instance of C15: `'ab' < 'b'` holds for a `string` and a `[]byte`,
and `'b' < 'ab'` does not. -/
theorem stringLt_lexicographic_witness :
    _StringLt.Lt (.string [97, 98]) (.bytes [98]) = .ok true ∧
    _StringLt.Lt (.bytes [98]) (.string [97, 98]) = .ok false ∧
    ¬ (_StringLt.Lt (.string [97, 98]) (.bytes [98]) = .ok true ∧
      _StringLt.Lt (.bytes [98]) (.string [97, 98]) = .ok true) :=
  ⟨rfl, rfl,
    (stringLt_lexicographic (.string [97, 98]) (.bytes [98]) (.string [97, 98]) [97, 98] [98]
      [97, 98] rfl rfl rfl).2.2.2.2.2.1⟩

/-! ## Substring membership (C16) -/

theorem strings_HasPrefix_iff (s p : GoString) :
    strings_HasPrefix s p = true ↔ ∃ t, s = p ++ t := by
  induction s generalizing p with
  | nil =>
    cases p with
    | nil => simp [strings_HasPrefix]
    | cons y ys => simp [strings_HasPrefix]
  | cons x xs ih =>
    cases p with
    | nil => simp [strings_HasPrefix]
    | cons y ys =>
      simp only [strings_HasPrefix, Bool.and_eq_true, decide_eq_true_eq, ih ys,
        List.cons_append, List.cons.injEq]
      constructor
      · rintro ⟨hxy, t, ht⟩; exact ⟨t, hxy, ht⟩
      · rintro ⟨t, hxy, ht⟩; exact ⟨hxy, t, ht⟩

/-- `strings.Contains(s, substr)` holds exactly when `substr` occurs in `s`
as a contiguous block. -/
theorem strings_Contains_iff (s sub : GoString) :
    strings_Contains s sub = true ↔ ∃ u t, s = u ++ sub ++ t := by
  induction s with
  | nil =>
    simp only [strings_Contains, strings_HasPrefix_iff]
    constructor
    · rintro ⟨t, ht⟩; exact ⟨[], t, by simpa using ht⟩
    · rintro ⟨u, t, h⟩
      have h' := congrArg List.length h
      simp only [List.length_nil, List.length_append] at h'
      have hu : u = [] := List.eq_nil_of_length_eq_zero (by omega)
      subst hu
      exact ⟨t, by simpa using h⟩
  | cons x xs ih =>
    simp only [strings_Contains, Bool.or_eq_true, strings_HasPrefix_iff, ih]
    constructor
    · rintro (⟨t, ht⟩ | ⟨u, t, h⟩)
      · exact ⟨[], t, by simpa using ht⟩
      · exact ⟨x :: u, t, by simp [h]⟩
    · rintro ⟨u, t, h⟩
      cases u with
      | nil => left; exact ⟨t, by simpa using h⟩
      | cons y ys =>
        right
        simp only [List.cons_append, List.cons.injEq] at h
        exact ⟨ys, t, h.2⟩

/-- C16: for string-like `a` and `b` of contents `sa` and `sb`,
`_SubstringMembership.Membership a b` (`a IN b`) is true exactly when `sa`
occurs in `sb` as a contiguous substring; the empty string is a member of
every string and every string is a member of itself. -/
theorem substringMembership_contains (a b : Any) (sa sb : GoString)
    (ha : to_string a = .ok (sa, true)) (hb : to_string b = .ok (sb, true)) :
    _SubstringMembership.Applicable a b = .ok true ∧
    (∃ r, _SubstringMembership.Membership a b = .ok r ∧
      (r = true ↔ ∃ u t : GoString, sb = u ++ sa ++ t)) ∧
    (sa = [] → _SubstringMembership.Membership a b = .ok true) ∧
    _SubstringMembership.Membership a a = .ok true ∧
    _SubstringMembership.Membership b b = .ok true := by
  have mem_eq : ∀ (u v : Any) (su sv : GoString), to_string u = .ok (su, true) →
      to_string v = .ok (sv, true) →
      _SubstringMembership.Membership u v = .ok (strings_Contains sv su) := by
    intro u v su sv hu hv
    simp [_SubstringMembership.Membership, hu, hv, bind, Except.bind]
    rfl
  have self_mem : ∀ x : GoString, strings_Contains x x = true := by
    intro x
    rw [strings_Contains_iff]
    exact ⟨[], [], by simp⟩
  refine ⟨?_, ⟨_, mem_eq a b sa sb ha hb, strings_Contains_iff sb sa⟩, ?_, ?_, ?_⟩
  · simp [_SubstringMembership.Applicable, ha, hb, bind, Except.bind]
    rfl
  · intro h
    rw [mem_eq a b sa sb ha hb, h]
    have : strings_Contains sb [] = true := by
      rw [strings_Contains_iff]
      exact ⟨[], sb, by simp⟩
    rw [this]
  · rw [mem_eq a a sa sa ha ha, self_mem]
  · rw [mem_eq b b sb sb hb hb, self_mem]

/-- Closed instance of C16: `'oo' IN 'foo'` holds, `'of' IN 'foo'` does
not. -/
theorem substringMembership_contains_witness :
    (∃ r, _SubstringMembership.Membership (.string [111, 111]) (.string [102, 111, 111])
        = .ok r ∧
      (r = true ↔ ∃ u t : GoString, [102, 111, 111] = u ++ [111, 111] ++ t)) ∧
    _SubstringMembership.Membership (.string [111, 111]) (.string [102, 111, 111])
      = .ok true ∧
    _SubstringMembership.Membership (.string [111, 102]) (.string [102, 111, 111])
      = .ok false :=
  ⟨(substringMembership_contains (.string [111, 111]) (.string [102, 111, 111]) [111, 111]
      [102, 111, 111] rfl rfl).2.1, rfl, rfl⟩

/-! ## Default membership (C17) -/

/-- One iteration of the default loop of the Membership dispatcher. -/
theorem membershipLoop_succ (scope : ScopeCalls) (a value : Any) (todo i : Nat) (s : Scope) :
    membershipLoop scope a value (todo + 1) i s =
      match reflect_Index value i with
      | .error p => (.error p, s)
      | .ok item =>
        match scope.eq_Eq a item s with
        | (.error p, s') => (.error p, s')
        | (.ok true, s') => (.ok true, s')
        | (.ok false, s') => membershipLoop scope a value todo (i + 1) s' := by
  simp only [membershipLoop, bind, Go.bind, Go.ofExcept]
  cases reflect_Index value i with
  | error p => rfl
  | ok x =>
    simp only []
    rcases h : scope.eq_Eq a x s with ⟨r, s'⟩
    cases r with
    | error p => rfl
    | ok v => cases v <;> rfl

/-- The default loop of the Membership dispatcher over an array returns, and
returns true exactly when the scope's Eq accepts a remaining element. -/
theorem membershipLoop_spec (scope : ScopeCalls) (a b : Any) (hb : is_array b = true)
    (e : Any → Bool)
    (he : ∀ x ∈ sequenceElems b, ∀ s, (scope.eq_Eq a x s).1 = .ok (e x)) :
    ∀ (todo i : Nat) (s : Scope), i + todo = (sequenceElems b).length →
      ∃ r s', membershipLoop scope a b todo i s = (.ok r, s') ∧
        (r = true ↔ ∃ j x, i ≤ j ∧ (sequenceElems b)[j]? = some x ∧ e x = true) := by
  intro todo
  induction todo with
  | zero =>
    intro i s hi
    refine ⟨false, s, rfl, ?_⟩
    constructor
    · intro h; cases h
    · rintro ⟨j, x, hij, hx, _⟩
      have := (List.getElem?_eq_some.mp hx).1
      omega
  | succ n ih =>
    intro i s hi
    have hib : i < (sequenceElems b).length := by omega
    have hxb := List.getElem?_eq_getElem hib
    rw [membershipLoop_succ, reflect_Index_array b hb i, hxb]
    simp only []
    have hv := he _ (List.getElem_mem hib) s
    rcases hs : scope.eq_Eq a (sequenceElems b)[i] s with ⟨r, s1⟩
    rw [hs] at hv
    simp only at hv
    subst hv
    cases hex : e (sequenceElems b)[i] with
    | true =>
      exact ⟨true, s1, rfl, ⟨fun _ => ⟨i, _, le_refl i, hxb, hex⟩, fun _ => rfl⟩⟩
    | false =>
      obtain ⟨r, s', hr, hiff⟩ := ih (i + 1) s1 (by omega)
      refine ⟨r, s', hr, ?_⟩
      rw [hiff]
      constructor
      · rintro ⟨j, x, hij, hx, hxe⟩
        exact ⟨j, x, by omega, hx, hxe⟩
      · rintro ⟨j, x, hij, hx, hxe⟩
        rcases Nat.eq_or_lt_of_le hij with rfl | hlt
        · rw [hxb] at hx; cases hx
          rw [hex] at hxe; cases hxe
        · exact ⟨j, x, hlt, hx, hxe⟩

/-- C17: when no registered Membership implementation is applicable, the
dispatcher on a slice or array `b` (with a scope Eq that answers `e x` for
`a` against the element `x`) returns true exactly when the scope Eq accepts
some element of `b`, hence false for an empty list; on nil and on any other
value that is not a sequence it returns false.  `2 IN (1, 2, 3, 4)` is
true. -/
theorem membership_default (d : _MembershipDispatcher) (scope : ScopeCalls) (a b : Any)
    (s : Scope) (hnone : ∀ j ∈ d.impl, j.Applicable a b = .ok false) :
    (is_array b = true → ∀ e : Any → Bool,
      (∀ x ∈ sequenceElems b, ∀ s', (scope.eq_Eq a x s').1 = .ok (e x)) →
      ∃ r s', d.Membership scope a b s = (.ok r, s') ∧
        (r = true ↔ ∃ i x, reflect_Index b i = .ok x ∧ e x = true) ∧
        (reflect_Len b = .ok 0 → r = false)) ∧
    (is_array b = false → (d.Membership scope a b s).1 = .ok false) ∧
    (b = .nil → d.Membership scope a b s = (.ok false, s)) ∧
    _MembershipDispatcher.Membership ⟨[_SubstringMembership]⟩ (ScopeCalls.withEq ⟨[_IntEq]⟩)
      (.int64 2) (.slice [.int64 1, .int64 2, .int64 3, .int64 4]) Scope.empty
      = (.ok true, Scope.empty) := by
  refine ⟨?_, ?_, ?_, rfl⟩
  · intro hb e he
    obtain ⟨r, s', hr, hiff⟩ := membershipLoop_spec scope a b hb e he
      (sequenceElems b).length 0 s (by simp)
    refine ⟨r, s', ?_, ?_, ?_⟩
    · unfold _MembershipDispatcher.Membership
      rw [dispatchLoop_none _ _ _ _ hnone]
      cases b <;> simp [is_array] at hb <;>
        simp only [is_array, if_true, bind, Go.bind, Go.ofExcept, reflect_Len] <;>
        simpa [sequenceElems] using hr
    · rw [hiff]
      constructor
      · rintro ⟨j, x, _, hx, hxe⟩
        exact ⟨j, x, (reflect_Index_array_ok b hb j x).mpr hx, hxe⟩
      · rintro ⟨j, x, hx, hxe⟩
        exact ⟨j, x, Nat.zero_le j, (reflect_Index_array_ok b hb j x).mp hx, hxe⟩
    · intro h0
      rw [reflect_Len_array b hb] at h0
      have hlen : (sequenceElems b).length = 0 := Except.ok.inj h0
      cases hrv : r with
      | false => rfl
      | true =>
        obtain ⟨j, x, _, hx, _⟩ := hiff.mp hrv
        have := (List.getElem?_eq_some.mp hx).1
        omega
  · intro hb
    unfold _MembershipDispatcher.Membership
    rw [dispatchLoop_none _ _ _ _ hnone]
    cases b <;> simp [is_array] at hb <;> rfl
  · intro hb
    subst hb
    unfold _MembershipDispatcher.Membership
    rw [dispatchLoop_none _ _ _ _ hnone]
    rfl

/-- Closed instance of C17: with `_SubstringMembership` registered and the Eq
dispatcher `[_IntEq]`, `5 IN (1, 2)` is false, `5 IN 7` is false. -/
theorem membership_default_witness :
    (∃ r s', _MembershipDispatcher.Membership ⟨[_SubstringMembership]⟩
        (ScopeCalls.withEq ⟨[_IntEq]⟩) (.int64 5) (.slice [.int64 1, .int64 2]) Scope.empty
        = (.ok r, s') ∧
      (r = true ↔ ∃ i x, reflect_Index (.slice [.int64 1, .int64 2]) i = .ok x ∧
        _IntEq.Eq (.int64 5) x = true) ∧
      (reflect_Len (.slice [.int64 1, .int64 2]) = .ok 0 → r = false)) ∧
    (_MembershipDispatcher.Membership ⟨[_SubstringMembership]⟩
      (ScopeCalls.withEq ⟨[_IntEq]⟩) (.int64 5) (.int64 7) Scope.empty).1 = .ok false :=
  ⟨(membership_default ⟨[_SubstringMembership]⟩ (ScopeCalls.withEq ⟨[_IntEq]⟩) (.int64 5)
      (.slice [.int64 1, .int64 2]) Scope.empty
      (by intro j hj; rw [List.mem_singleton] at hj; subst hj; rfl)).1 rfl
      (fun x => _IntEq.Eq (.int64 5) x)
      (by
        intro x hx s'
        simp only [sequenceElems, List.mem_cons, List.mem_singleton, List.not_mem_nil,
          or_false] at hx
        rcases hx with rfl | rfl <;> rfl),
    (membership_default ⟨[_SubstringMembership]⟩ (ScopeCalls.withEq ⟨[_IntEq]⟩) (.int64 5)
      (.int64 7) Scope.empty
      (by intro j hj; rw [List.mem_singleton] at hj; subst hj; rfl)).2.1 rfl⟩

/-! ## Index access through `DefaultAssociative` (C18, C19) -/

/-- `reflect.Indirect` leaves an array as it is. -/
theorem reflect_Indirect_array (R : Reflection) (a : Any) (ha : is_array a = true) :
    reflect_Indirect R a = some a := by
  cases a <;> simp [is_array] at ha <;> rfl

/-- On an array whose elements are not nil pointers, the nil-pointer test on
an element fails. -/
theorem elemIsNilPtr_false (R : Reflection) (a x : Any)
    (hnn : ∀ e ∈ sequenceElems a, isNilPointer R e = false) (hx : x ∈ sequenceElems a) :
    elemIsNilPtr R a x = false := by
  cases a <;> simp [elemIsNilPtr, hnn x hx]

/-- The index branch inside the bounds of an array whose elements are not nil
pointers returns the element. -/
theorem index_in_range (R : Reflection) (a : Any) (ha : is_array a = true)
    (hnn : ∀ e ∈ sequenceElems a, isNilPointer R e = false) (idx : Int) (h0 : 0 ≤ idx)
    (hlt : idx < (sequenceElems a).length) :
    ∃ x, reflect_Index a idx.toNat = .ok x ∧
      DefaultAssociative.index R a idx = .ok (x, true) := by
  have hi : idx.toNat < (sequenceElems a).length := by omega
  have hx := List.getElem?_eq_getElem hi
  have hidx : reflect_Index a idx.toNat = .ok (sequenceElems a)[idx.toNat] :=
    (reflect_Index_array_ok a ha _ _).mpr hx
  refine ⟨_, hidx, ?_⟩
  have hneg : ¬ idx < 0 := by omega
  have hgt : ¬ idx > ((sequenceElems a).length : Int) := by omega
  simp only [DefaultAssociative.index, reflect_Indirect_array R a ha, reflect_Value_Len,
    reflect_Len_array a ha, hneg, hgt, if_false, hidx,
    elemIsNilPtr_false R a _ hnn (List.getElem_mem hi)]
  rfl

/-- The index branch outside the bounds of an array returns a null-like value
and `false`, or panics at the one-past-the-end index. -/
theorem index_out_of_range (R : Reflection) (a : Any) (ha : is_array a = true) (idx : Int)
    (hout : idx < 0 ∨ ((sequenceElems a).length : Int) ≤ idx) :
    (idx ≠ ((sequenceElems a).length : Int) →
      DefaultAssociative.index R a idx = .ok (.NullPtr false, false)) ∧
    (idx = ((sequenceElems a).length : Int) →
      DefaultAssociative.index R a idx = .error .indexOutOfRange) := by
  constructor
  · intro hne
    by_cases hneg : idx < 0
    · simp [DefaultAssociative.index, hneg]
    · have hgt : idx > ((sequenceElems a).length : Int) := by omega
      simp [DefaultAssociative.index, reflect_Indirect_array R a ha, reflect_Value_Len,
        reflect_Len_array a ha, hneg, hgt]
  · intro he
    have hneg : ¬ idx < 0 := by omega
    have hgt : ¬ idx > ((sequenceElems a).length : Int) := by omega
    have hnone : (sequenceElems a)[idx.toNat]? = none :=
      List.getElem?_eq_none (by omega)
    simp only [DefaultAssociative.index, reflect_Indirect_array R a ha, reflect_Value_Len,
      reflect_Len_array a ha, hneg, hgt, if_false, reflect_Index_array a ha, hnone]

/-- C18: for a list `a` whose elements are not nil pointers and an index `i`
with `0 <= i < len(a)`, held as a `*int64` or as a `*float64` that truncates
to `i`, `DefaultAssociative.Associative(a, i)` returns `(a[i], true)`.
Indexing `[1, 2, 3, {Foo: 'Bar'}]` at 1 gives 2 and at 2 gives 3. -/
theorem defaultAssociative_index_in_range (R : Reflection) (scope : ScopeCalls) (a : Any)
    (s : Scope) (ha : is_array a = true)
    (hnn : ∀ e ∈ sequenceElems a, isNilPointer R e = false)
    (n : Nat) (hn : reflect_Len a = .ok n) (addr : Nat) (i : Int)
    (h0 : 0 ≤ i) (hlt : i < n) (h64 : i < 2 ^ 63) :
    (∃ x, reflect_Index a i.toNat = .ok x ∧
      DefaultAssociative.Associative R scope a (.int64Ptr (some (addr, i))) s
        = (.ok (x, true), s) ∧
      ∀ f : Float64, f.toInt64 = i →
        DefaultAssociative.Associative R scope a (.float64Ptr (some (addr, f))) s
          = (.ok (x, true), s)) ∧
    DefaultAssociative.Associative R scope
      (.slice [.int64 1, .int64 2, .int64 3, .other 0]) (.int64Ptr (some (addr, 1))) s
      = (.ok (.int64 2, true), s) ∧
    DefaultAssociative.Associative R scope
      (.slice [.int64 1, .int64 2, .int64 3, .other 0]) (.int64Ptr (some (addr, 2))) s
      = (.ok (.int64 3, true), s) := by
  rw [reflect_Len_array a ha] at hn
  have hn' : (sequenceElems a).length = n := Except.ok.inj hn
  have hw : wrap64 i = i :=
    wrap64_of_range i (by unfold IsInt64 MinInt64 MaxInt64; omega)
  obtain ⟨x, hx, hidx⟩ := index_in_range R a ha hnn i h0 (by omega)
  refine ⟨⟨x, hx, ?_, ?_⟩, ?_, ?_⟩
  · simp [DefaultAssociative.Associative, DefaultAssociative.body, Go.ofExcept, hw, hidx]
  · intro f hf
    simp [DefaultAssociative.Associative, DefaultAssociative.body, Go.ofExcept, hf, hidx]
  · simp [DefaultAssociative.Associative, DefaultAssociative.body, Go.ofExcept,
      DefaultAssociative.index, reflect_Indirect, reflect_Value_Len, reflect_Len, reflect_Index,
      elemIsNilPtr, isNilPointer, show wrap64 1 = 1 by decide]
  · simp [DefaultAssociative.Associative, DefaultAssociative.body, Go.ofExcept,
      DefaultAssociative.index, reflect_Indirect, reflect_Value_Len, reflect_Len, reflect_Index,
      elemIsNilPtr, isNilPointer, show wrap64 2 = 2 by decide]

/-- Closed instance of C18: the `[]byte` `'abc'` at index 2, held as a
`*float64` of value 2.5, is the byte `'c'`. -/
theorem defaultAssociative_index_in_range_witness :
    DefaultAssociative.Associative Reflection.plain ScopeCalls.inert (.bytes [97, 98, 99])
      (.float64Ptr (some (4096, .finite (5 / 2)))) Scope.empty
      = (.ok (.uint8 99, true), Scope.empty) := by
  obtain ⟨x, hx, _, hf⟩ := (defaultAssociative_index_in_range Reflection.plain
    ScopeCalls.inert (.bytes [97, 98, 99]) Scope.empty rfl
    (by
      intro e he
      simp only [sequenceElems, List.map_cons, List.map_nil, List.mem_cons, List.mem_singleton,
        List.not_mem_nil, or_false] at he
      rcases he with rfl | rfl | rfl <;> rfl)
    3 rfl 4096 2 (by decide) (by decide) (by decide)).1
  have hx' : x = .uint8 99 := by
    have : reflect_Index (.bytes [97, 98, 99]) (2 : Int).toNat = .ok (.uint8 99) := rfl
    rw [this] at hx
    exact (Except.ok.inj hx).symm
  rw [← hx']
  refine hf (.finite (5 / 2)) ?_
  have hfloor : Rat.floor (5 / 2) = 2 := by
    have : Rat.floor (5 / 2) = ⌊(5 / 2 : ℚ)⌋ := rfl
    rw [this]
    norm_num [Int.floor_eq_iff]
  have hpos : (0 : ℚ) ≤ 5 / 2 := by norm_num
  simp [Float64.toInt64, Float64.value?, hfloor, hpos, MinInt64, MaxInt64]

/-- C19: for a list `a` and an index `i` with `i < 0` or `i >= len(a)`, held
as a `*int64` or as a `*float64` that truncates to `i`,
`DefaultAssociative.Associative(a, i)` does not panic and returns a null-like
value with `present = false`: `&Null{}` from the bounds check, and at the
one-past-the-end index `i = len(a)`, which passes the check `idx > len`, the
nil result left by the recovered panic of `Index`. -/
theorem defaultAssociative_index_out_of_range (R : Reflection) (scope : ScopeCalls) (a : Any)
    (s : Scope) (ha : is_array a = true) (n : Nat) (hn : reflect_Len a = .ok n) (addr : Nat)
    (i : Int) (h64 : IsInt64 i) (hout : i < 0 ∨ (n : Int) ≤ i) :
    (∃ r, DefaultAssociative.Associative R scope a (.int64Ptr (some (addr, i))) s
        = (.ok (r, false), s) ∧ is_null r = true) ∧
    (∀ f : Float64, f.toInt64 = i →
      ∃ r, DefaultAssociative.Associative R scope a (.float64Ptr (some (addr, f))) s
        = (.ok (r, false), s) ∧ is_null r = true) ∧
    (i = n → DefaultAssociative.index R a i = .error .indexOutOfRange ∧
      DefaultAssociative.Associative R scope a (.int64Ptr (some (addr, i))) s
        = (.ok (.nil, false), s)) := by
  rw [reflect_Len_array a ha] at hn
  have hn' : (sequenceElems a).length = n := Except.ok.inj hn
  have hw : wrap64 i = i := wrap64_of_range i h64
  obtain ⟨hne, heq⟩ := index_out_of_range R a ha i (by omega)
  have hres : ∀ b : Any, DefaultAssociative.body R scope a b s
      = (DefaultAssociative.index R a i, s) →
      ∃ r, DefaultAssociative.Associative R scope a b s = (.ok (r, false), s) ∧
        is_null r = true := by
    intro b hb
    by_cases hin : i = ((sequenceElems a).length : Int)
    · refine ⟨.nil, ?_, rfl⟩
      simp [DefaultAssociative.Associative, hb, heq hin]
    · refine ⟨.NullPtr false, ?_, rfl⟩
      simp [DefaultAssociative.Associative, hb, hne hin]
  refine ⟨hres _ ?_, fun f hf => hres _ ?_, ?_⟩
  · simp [DefaultAssociative.body, Go.ofExcept, hw]
  · simp [DefaultAssociative.body, Go.ofExcept, hf]
  · intro hin
    have hin' : i = ((sequenceElems a).length : Int) := by omega
    refine ⟨heq hin', ?_⟩
    simp [DefaultAssociative.Associative, DefaultAssociative.body, Go.ofExcept, hw, heq hin']

/-- Closed instance of C19: `(1, 2)` at index 2 (one past the end) gives the
nil result and at index -1 gives `&Null{}`, both absent. -/
theorem defaultAssociative_index_out_of_range_witness :
    DefaultAssociative.Associative Reflection.plain ScopeCalls.inert
      (.slice [.int64 1, .int64 2]) (.int64Ptr (some (4096, 2))) Scope.empty
      = (.ok (.nil, false), Scope.empty) ∧
    (∃ r, DefaultAssociative.Associative Reflection.plain ScopeCalls.inert
        (.slice [.int64 1, .int64 2]) (.int64Ptr (some (4096, -1))) Scope.empty
        = (.ok (r, false), Scope.empty) ∧ is_null r = true) :=
  ⟨((defaultAssociative_index_out_of_range Reflection.plain ScopeCalls.inert
      (.slice [.int64 1, .int64 2]) Scope.empty rfl 2 rfl 4096 2
      (by unfold IsInt64 MinInt64 MaxInt64; omega) (by decide)).2.2 rfl).2,
    (defaultAssociative_index_out_of_range Reflection.plain ScopeCalls.inert
      (.slice [.int64 1, .int64 2]) Scope.empty rfl 2 rfl 4096 (-1)
      (by unfold IsInt64 MinInt64 MaxInt64; omega) (by decide)).1⟩

/-! ## Field access mapped over a slice (C20) -/

/-- One iteration of the loop of the slice branch. -/
theorem associativeLoop_succ (scope : ScopeCalls) (a_value b : Any) (todo i : Nat)
    (result : List Any) (s : Scope) :
    associativeLoop scope a_value b (todo + 1) i result s =
      match reflect_Index a_value i with
      | .error p => (.error p, s)
      | .ok element =>
        match scope.Associative element b s with
        | (.error p, s') => (.error p, s')
        | (.ok (item, true), s') =>
          associativeLoop scope a_value b todo (i + 1) (result ++ [item]) s'
        | (.ok (_, false), s') => associativeLoop scope a_value b todo (i + 1) result s' := by
  simp only [associativeLoop, bind, Go.bind, Go.ofExcept]
  cases reflect_Index a_value i with
  | error p => rfl
  | ok x =>
    simp only []
    rcases h : scope.Associative x b s with ⟨r, s'⟩
    cases r with
    | error p => rfl
    | ok v =>
      obtain ⟨item, pres⟩ := v
      cases pres <;> rfl

/-- The loop of the slice branch collects, in order, the values of the
remaining elements that the scope's `Associative` reports present. -/
theorem associativeLoop_spec (scope : ScopeCalls) (a b : Any) (ha : is_array a = true)
    (g : Any → Any × Bool)
    (hg : ∀ e ∈ sequenceElems a, ∀ s, (scope.Associative e b s).1 = .ok (g e)) :
    ∀ (todo i : Nat) (result : List Any) (s : Scope),
      i + todo = (sequenceElems a).length →
      ∃ s', associativeLoop scope a b todo i result s =
        (.ok (result ++ (((sequenceElems a).drop i).filter (fun e => (g e).2)).map
          (fun e => (g e).1)), s') := by
  intro todo
  induction todo with
  | zero =>
    intro i result s hi
    refine ⟨s, ?_⟩
    simp only [Nat.add_zero] at hi
    simp [associativeLoop, hi]
    rfl
  | succ n ih =>
    intro i result s hi
    have hia : i < (sequenceElems a).length := by omega
    have hxa := List.getElem?_eq_getElem hia
    rw [associativeLoop_succ, reflect_Index_array a ha i, hxa]
    simp only []
    have hv := hg _ (List.getElem_mem hia) s
    rcases hs : scope.Associative (sequenceElems a)[i] b s with ⟨r, s1⟩
    rw [hs] at hv
    simp only at hv
    subst hv
    rw [List.drop_eq_getElem_cons hia]
    rcases hge : g (sequenceElems a)[i] with ⟨item, pres⟩
    cases pres with
    | true =>
      obtain ⟨s', hs'⟩ := ih (i + 1) (result ++ [item]) s1 (by omega)
      refine ⟨s', ?_⟩
      simp only [hs', List.filter_cons, hge, if_true, List.map_cons, List.append_assoc,
        List.singleton_append]
    | false =>
      obtain ⟨s', hs'⟩ := ih (i + 1) result s1 (by omega)
      refine ⟨s', ?_⟩
      simp only [hs', List.filter_cons, hge, Bool.false_eq_true, if_false]

/-- C20: for a slice `a` with no callable method of the field's name and a
string field `f`, with a scope `Associative` that answers `g e` on the
element `e`, `DefaultAssociative.Associative(a, f)` returns `present = true`
and the list of the values `(g e).1` of exactly those elements, in order,
that `g` reports present; when every element has the field the result has
length `len(a)`.  `[{x: 1}, {x: 2}].x` is `[1, 2]`. -/
theorem defaultAssociative_maps_slice (R : Reflection) (scope : ScopeCalls) (a : Any)
    (f : GoString) (s : Scope) (hs : (∃ l, a = .slice l) ∨ (∃ bs, a = .bytes bs))
    (hm : R.Method a (if !R.is_exported f then R.strings_Title f else f) = none)
    (g : Any → Any × Bool)
    (hg : ∀ e ∈ sequenceElems a, ∀ s', (scope.Associative e (.string f) s').1 = .ok (g e)) :
    (∃ s', DefaultAssociative.Associative R scope a (.string f) s =
      (.ok (.slice (((sequenceElems a).filter (fun e => (g e).2)).map (fun e => (g e).1)),
        true), s')) ∧
    ((∀ e ∈ sequenceElems a, (g e).2 = true) →
      (((sequenceElems a).filter (fun e => (g e).2)).map (fun e => (g e).1)).length
        = (sequenceElems a).length) ∧
    DefaultAssociative.Associative Reflection.plain (ScopeCalls.withAssociative exampleFieldX)
      (.slice [.other 1, .other 2]) (.string [120]) Scope.empty
      = (.ok (.slice [.int64 1, .int64 2], true), Scope.empty) := by
  have ha : is_array a = true := by
    rcases hs with ⟨l, rfl⟩ | ⟨bs, rfl⟩ <;> rfl
  obtain ⟨s', hloop⟩ := associativeLoop_spec scope a (.string f) ha g hg
    (sequenceElems a).length 0 [] s (by simp)
  refine ⟨⟨s', ?_⟩, ?_, rfl⟩
  · have hbranch : DefaultAssociative.sliceBranch scope a (.string f) s =
        (.ok (.slice (((sequenceElems a).filter (fun e => (g e).2)).map (fun e => (g e).1)),
          true), s') := by
      rcases hs with ⟨l, rfl⟩ | ⟨bs, rfl⟩
      · simp only [DefaultAssociative.sliceBranch, bind, Go.bind, Go.ofExcept, reflect_Len]
        have := hloop
        simp only [sequenceElems, List.drop_zero, List.nil_append] at this
        rw [this]
        rfl
      · simp only [DefaultAssociative.sliceBranch, bind, Go.bind, Go.ofExcept, reflect_Len]
        have := hloop
        simp only [sequenceElems, List.drop_zero, List.nil_append, List.length_map] at this
        rw [this]
        rfl
    have hfield : DefaultAssociative.field R scope a f (.string f) s =
        DefaultAssociative.sliceBranch scope a (.string f) s := by
      simp only [DefaultAssociative.field, reflect_Indirect_array R a ha]
      have hm' := hm
      simp only [Bool.not_eq_true'] at hm'
      rcases hs with ⟨l, rfl⟩ | ⟨bs, rfl⟩ <;>
        simp [DefaultAssociative.methodBranch, hm']
    simp only [DefaultAssociative.Associative, DefaultAssociative.body, hfield, hbranch]
  · intro hall
    rw [List.length_map, List.filter_eq_self.mpr hall]

/-- Closed instance of C20: the field `x` mapped over the slice
`[{x: 1}, 7, {x: 2}]` skips the element without the field. -/
theorem defaultAssociative_maps_slice_witness :
    ∃ s', DefaultAssociative.Associative Reflection.plain
      (ScopeCalls.withAssociative exampleFieldX) (.slice [.other 1, .int64 7, .other 2])
      (.string [120]) Scope.empty =
      (.ok (.slice (((sequenceElems (.slice [.other 1, .int64 7, .other 2])).filter
        (fun e => (exampleFieldX e).2)).map (fun e => (exampleFieldX e).1)), true), s') :=
  (defaultAssociative_maps_slice Reflection.plain (ScopeCalls.withAssociative exampleFieldX)
    (.slice [.other 1, .int64 7, .other 2]) [120] Scope.empty
    (Or.inl ⟨_, rfl⟩) rfl exampleFieldX (fun _ _ _ => rfl)).1

/-! ## The regexp cache (C21, C22) -/

/-- `_SubstringRegex.Match` on string-like operands, after the two
conversions. -/
theorem substringRegex_unfold (L : RegexpLib) (p t : Any) (sp st : GoString)
    (hp : to_string p = .ok (sp, true)) (ht : to_string t = .ok (st, true)) (s : Scope) :
    _SubstringRegex.Match L p t s =
      match s.regexp_cache sp with
      | some re => (.ok (L.MatchString re st), s)
      | none =>
        match L.Compile (caseInsensitiveFlag ++ sp) with
        | .error err => (.ok false, { s with logs := s.logs ++ [("Compile regexp: %v", [err])] })
        | .ok re =>
          (.ok (L.MatchString re st),
            { s with regexp_cache := fun key =>
                if key = sp then some re else s.regexp_cache key }) := by
  simp only [_SubstringRegex.Match, bind, Go.bind, Go.ofExcept, hp, ht]
  cases s.regexp_cache sp with
  | some re => rfl
  | none =>
    simp only []
    cases L.Compile (caseInsensitiveFlag ++ sp) <;> rfl

/-- C21: for a string-like pattern `p` that is not in the scope's regexp
cache and for which compiling `"(?i)" + p` fails, and a string-like target
`t`, `_SubstringRegex.Match(p, t)` returns false and leaves the cache
unchanged: no entry is added for `p`.  The failure is logged. -/
theorem substringRegex_compile_failure (L : RegexpLib) (p t : Any) (sp st : GoString)
    (hp : to_string p = .ok (sp, true)) (ht : to_string t = .ok (st, true)) (s : Scope)
    (hmiss : s.regexp_cache sp = none) (err : Any)
    (hfail : L.Compile (caseInsensitiveFlag ++ sp) = .error err) :
    ∃ s', _SubstringRegex.Match L p t s = (.ok false, s') ∧
      s'.regexp_cache = s.regexp_cache ∧ s'.regexp_cache sp = none ∧
      s'.logs = s.logs ++ [("Compile regexp: %v", [err])] ∧ s'.traces = s.traces := by
  refine ⟨{ s with logs := s.logs ++ [("Compile regexp: %v", [err])] }, ?_, rfl, hmiss, rfl, rfl⟩
  rw [substringRegex_unfold L p t sp st hp ht s, hmiss]
  simp only [hfail]

/-- Closed instance of C21: the pattern `'('` does not compile; matching it
against `'a'` on the empty scope is false and caches nothing. -/
theorem substringRegex_compile_failure_witness :
    ∃ s', _SubstringRegex.Match RegexpLib.toy (.string [40]) (.string [97]) Scope.empty
        = (.ok false, s') ∧
      s'.regexp_cache = Scope.empty.regexp_cache ∧ s'.regexp_cache [40] = none ∧
      s'.logs = Scope.empty.logs ++ [("Compile regexp: %v", [Any.other 0])] ∧
      s'.traces = Scope.empty.traces :=
  substringRegex_compile_failure RegexpLib.toy (.string [40]) (.string [97]) [40] [97] rfl rfl
    Scope.empty rfl (.other 0) rfl

/-- C22: for a string-like pattern `p` and target `t`: with an entry under
`p` in the scope's regexp cache, `_SubstringRegex.Match` matches with that
entry, whatever `regexp.Compile` would do, and leaves the scope unchanged;
without one it compiles `"(?i)" + p` and nothing else, and on success the
cache then maps `p` to the compiled expression and is unchanged at every
other key.  In both cases the result is whether the expression matches the
content of `t`. -/
theorem substringRegex_cache (L : RegexpLib) (p t : Any) (sp st : GoString)
    (hp : to_string p = .ok (sp, true)) (ht : to_string t = .ok (st, true)) (s : Scope) :
    _SubstringRegex.Applicable p t = .ok true ∧
    (∀ re, s.regexp_cache sp = some re →
      _SubstringRegex.Match L p t s = (.ok (L.MatchString re st), s) ∧
      ∀ L' : RegexpLib, L'.MatchString = L.MatchString →
        _SubstringRegex.Match L' p t s = _SubstringRegex.Match L p t s) ∧
    (s.regexp_cache sp = none →
      (∀ re, L.Compile (caseInsensitiveFlag ++ sp) = .ok re →
        ∃ s', _SubstringRegex.Match L p t s = (.ok (L.MatchString re st), s') ∧
          s'.regexp_cache sp = some re ∧
          (∀ key, key ≠ sp → s'.regexp_cache key = s.regexp_cache key) ∧
          s'.traces = s.traces ∧ s'.logs = s.logs) ∧
      ∀ L' : RegexpLib, L'.MatchString = L.MatchString →
        L'.Compile (caseInsensitiveFlag ++ sp) = L.Compile (caseInsensitiveFlag ++ sp) →
        _SubstringRegex.Match L' p t s = _SubstringRegex.Match L p t s) := by
  refine ⟨?_, ?_, ?_⟩
  · simp [_SubstringRegex.Applicable, hp, ht, bind, Except.bind]
    rfl
  · intro re hre
    refine ⟨?_, ?_⟩
    · rw [substringRegex_unfold L p t sp st hp ht s, hre]
    · intro L' hM
      rw [substringRegex_unfold L p t sp st hp ht s, substringRegex_unfold L' p t sp st hp ht s,
        hre, hM]
  · intro hmiss
    refine ⟨?_, ?_⟩
    · intro re hre
      refine ⟨{ s with regexp_cache := fun key =>
          if key = sp then some re else s.regexp_cache key }, ?_, ?_, ?_, rfl, rfl⟩
      · rw [substringRegex_unfold L p t sp st hp ht s, hmiss]
        simp only [hre]
      · simp
      · intro key hkey
        simp [hkey]
    · intro L' hM hC
      rw [substringRegex_unfold L p t sp st hp ht s, substringRegex_unfold L' p t sp st hp ht s,
        hmiss, hM, hC]

/-- Closed instance of C22: on the empty scope the pattern `'b'` is compiled
as `'(?i)b'`, matches `'abc'`, and is cached under `'b'`. -/
theorem substringRegex_cache_witness :
    ∃ s', _SubstringRegex.Match RegexpLib.toy (.string [98]) (.string [97, 98, 99]) Scope.empty
        = (.ok (RegexpLib.toy.MatchString { expr := [40, 63, 105, 41, 98] } [97, 98, 99]), s') ∧
      s'.regexp_cache [98] = some { expr := [40, 63, 105, 41, 98] } ∧
      (∀ key, key ≠ [98] → s'.regexp_cache key = Scope.empty.regexp_cache key) ∧
      s'.traces = Scope.empty.traces ∧ s'.logs = Scope.empty.logs :=
  ((substringRegex_cache RegexpLib.toy (.string [98]) (.string [97, 98, 99]) [98] [97, 98, 99]
    rfl rfl Scope.empty).2.2 rfl).1 { expr := [40, 63, 105, 41, 98] } rfl

/-! ## Regex against a list (C23) -/

/-- One iteration of the loop of `_ArrayRegex.Match`. -/
theorem arrayRegexLoop_succ (scope : ScopeCalls) (p l : Any) (todo i : Nat) (s : Scope) :
    arrayRegexLoop scope p l (todo + 1) i s =
      match reflect_Index l i with
      | .error e => (.error e, s)
      | .ok item =>
        match scope.Match p item s with
        | (.error e, s') => (.error e, s')
        | (.ok true, s') => (.ok true, s')
        | (.ok false, s') => arrayRegexLoop scope p l todo (i + 1) s' := by
  simp only [arrayRegexLoop, bind, Go.bind, Go.ofExcept]
  cases reflect_Index l i with
  | error e => rfl
  | ok x =>
    simp only []
    rcases h : scope.Match p x s with ⟨r, s'⟩
    cases r with
    | error e => rfl
    | ok v => cases v <;> rfl

/-- The loop of `_ArrayRegex.Match` over an array returns, and returns true
exactly when the scope's `Match` accepts a remaining element.  `Match` may
read and update the scope (the regexp cache): its answers are asked only in
scope states that satisfy an invariant `Inv` which it preserves. -/
theorem arrayRegexLoop_spec (scope : ScopeCalls) (p l : Any) (hl : is_array l = true)
    (Inv : Scope → Prop) (m : Any → Bool)
    (hm : ∀ e ∈ sequenceElems l, ∀ s, Inv s →
      (scope.Match p e s).1 = .ok (m e) ∧ Inv (scope.Match p e s).2) :
    ∀ (todo i : Nat) (s : Scope), Inv s → i + todo = (sequenceElems l).length →
      ∃ r s', arrayRegexLoop scope p l todo i s = (.ok r, s') ∧ Inv s' ∧
        (r = true ↔ ∃ j x, i ≤ j ∧ (sequenceElems l)[j]? = some x ∧ m x = true) := by
  intro todo
  induction todo with
  | zero =>
    intro i s hinv hi
    refine ⟨false, s, rfl, hinv, ?_⟩
    constructor
    · intro h; cases h
    · rintro ⟨j, x, hij, hx, _⟩
      have := (List.getElem?_eq_some.mp hx).1
      omega
  | succ n ih =>
    intro i s hinv hi
    have hib : i < (sequenceElems l).length := by omega
    have hxb := List.getElem?_eq_getElem hib
    rw [arrayRegexLoop_succ, reflect_Index_array l hl i, hxb]
    simp only []
    have hv := hm _ (List.getElem_mem hib) s hinv
    rcases hs : scope.Match p (sequenceElems l)[i] s with ⟨r, s1⟩
    rw [hs] at hv
    simp only at hv
    obtain ⟨hv1, hv2⟩ := hv
    subst hv1
    cases hex : m (sequenceElems l)[i] with
    | true =>
      exact ⟨true, s1, rfl, hv2, ⟨fun _ => ⟨i, _, le_refl i, hxb, hex⟩, fun _ => rfl⟩⟩
    | false =>
      obtain ⟨r, s', hr, hinv', hiff⟩ := ih (i + 1) s1 hv2 (by omega)
      refine ⟨r, s', hr, hinv', ?_⟩
      rw [hiff]
      constructor
      · rintro ⟨j, x, hij, hx, hxe⟩
        exact ⟨j, x, by omega, hx, hxe⟩
      · rintro ⟨j, x, hij, hx, hxe⟩
        rcases Nat.eq_or_lt_of_le hij with rfl | hlt
        · rw [hxb] at hx; cases hx
          rw [hex] at hxe; cases hxe
        · exact ⟨j, x, hlt, hx, hxe⟩

/-- The loop of `_ArrayRegex.Match` stops at the first element the scope's
`Match` accepts: nothing is asked about the elements after it. -/
theorem arrayRegexLoop_stops (scope : ScopeCalls) (p l : Any) (hl : is_array l = true)
    (Inv : Scope → Prop) (x : Any) (post : List Any)
    (hx : ∀ s, Inv s → (scope.Match p x s).1 = .ok true) :
    ∀ (pre : List Any) (todo i : Nat) (s : Scope), Inv s →
      i + todo = (sequenceElems l).length →
      (sequenceElems l).drop i = pre ++ x :: post →
      (∀ e ∈ pre, ∀ s, Inv s →
        (scope.Match p e s).1 = .ok false ∧ Inv (scope.Match p e s).2) →
      ∃ s', arrayRegexLoop scope p l todo i s = (.ok true, s') := by
  intro pre
  induction pre with
  | nil =>
    intro todo i s hinv hi hdrop _
    have hlen : i < (sequenceElems l).length := by
      by_contra hge
      rw [List.drop_eq_nil_of_le (Nat.le_of_not_lt hge)] at hdrop
      cases hdrop
    obtain ⟨n, rfl⟩ : ∃ n, todo = n + 1 := ⟨todo - 1, by omega⟩
    rw [List.drop_eq_getElem_cons hlen] at hdrop
    have hxi : (sequenceElems l)[i] = x := by
      simp only [List.nil_append, List.cons.injEq] at hdrop
      exact hdrop.1
    rw [arrayRegexLoop_succ, reflect_Index_array l hl i, List.getElem?_eq_getElem hlen, hxi]
    simp only []
    have hv := hx s hinv
    rcases hs : scope.Match p x s with ⟨r, s1⟩
    rw [hs] at hv
    simp only at hv
    subst hv
    exact ⟨s1, rfl⟩
  | cons y ys ih =>
    intro todo i s hinv hi hdrop hpre
    have hlen : i < (sequenceElems l).length := by
      by_contra hge
      rw [List.drop_eq_nil_of_le (Nat.le_of_not_lt hge)] at hdrop
      cases hdrop
    obtain ⟨n, rfl⟩ : ∃ n, todo = n + 1 := ⟨todo - 1, by omega⟩
    rw [List.drop_eq_getElem_cons hlen] at hdrop
    simp only [List.cons_append, List.cons.injEq] at hdrop
    obtain ⟨hyi, hrest⟩ := hdrop
    rw [arrayRegexLoop_succ, reflect_Index_array l hl i, List.getElem?_eq_getElem hlen, hyi]
    simp only []
    have hv := hpre y (List.mem_cons_self y ys) s hinv
    rcases hs : scope.Match p y s with ⟨r, s1⟩
    rw [hs] at hv
    simp only at hv
    obtain ⟨hv1, hv2⟩ := hv
    subst hv1
    exact ih n (i + 1) s1 hv2 (by omega) hrest
      (fun e he => hpre e (List.mem_cons_of_mem y he))

/-- The baseline matcher on a string-like pattern and target: a scope whose
Regex dispatcher has `_SubstringRegex` first answers with
`_SubstringRegex.Match`.  When `"(?i)" + p` compiles to `re` and the cache
holds nothing or `re` under `p`, the answer is whether `re` matches the
target, and the cache again holds nothing or `re` under `p`. -/
theorem baseline_match_string (L : RegexpLib) (rest : List RegexProtocol) (p e : Any)
    (sp st : GoString) (hp : to_string p = .ok (sp, true)) (he : to_string e = .ok (st, true))
    (re : Regexp) (hc : L.Compile (caseInsensitiveFlag ++ sp) = .ok re) (s : Scope)
    (hinv : s.regexp_cache sp = none ∨ s.regexp_cache sp = some re) :
    ((ScopeCalls.withRegex ⟨_SubstringRegex L :: rest⟩).Match p e s).1
      = .ok (L.MatchString re st) ∧
    (((ScopeCalls.withRegex ⟨_SubstringRegex L :: rest⟩).Match p e s).2.regexp_cache sp = none ∨
      ((ScopeCalls.withRegex ⟨_SubstringRegex L :: rest⟩).Match p e s).2.regexp_cache sp
        = some re) := by
  have happ : RegexProtocol.Applicable (_SubstringRegex L) p e = .ok true := by
    show _SubstringRegex.Applicable p e = _
    simp [_SubstringRegex.Applicable, hp, he, bind, Except.bind, pure, Except.pure]
  have hd : (ScopeCalls.withRegex ⟨_SubstringRegex L :: rest⟩).Match p e s
      = _SubstringRegex.Match L p e s := by
    simp only [ScopeCalls.withRegex, _RegexDispatcher.Match, dispatchLoop, happ]
    rfl
  rw [hd, substringRegex_unfold L p e sp st hp he s]
  rcases hinv with h | h
  · simp [h, hc]
  · simp [h]

/-- C23: for a string-like pattern `p` and an array target `l`,
`_ArrayRegex.Match(p, l)` is true exactly when `scope.Match(p, e)` is true for
some element `e` of `l`; it is false for the empty array; and it returns true
at the first matching element whatever `scope.Match` would do on the elements
after it.  `scope.Match` may read and update the scope (the regexp cache): its
answers `m e` are required only in the scope states of an invariant `Inv`
that holds at the start and that it preserves.  The baseline matcher meets
this: with `_SubstringRegex` first in the scope's Regex dispatcher, a pattern
that compiles to `re` and no other expression cached under `p`, the result on
a list of string-like elements is whether `re` matches one of them. -/
theorem arrayRegex_any (scope : ScopeCalls) (p l : Any) (sp : GoString) (s : Scope)
    (hp : to_string p = .ok (sp, true)) (hl : is_array l = true) :
    _ArrayRegex.Applicable p l = .ok true ∧
    (∀ (Inv : Scope → Prop) (m : Any → Bool), Inv s →
      (∀ e ∈ sequenceElems l, ∀ s', Inv s' →
        (scope.Match p e s').1 = .ok (m e) ∧ Inv (scope.Match p e s').2) →
      ∃ r s', _ArrayRegex.Match scope p l s = (.ok r, s') ∧ Inv s' ∧
        (r = true ↔ ∃ i e, reflect_Index l i = .ok e ∧ m e = true)) ∧
    (reflect_Len l = .ok 0 → _ArrayRegex.Match scope p l s = (.ok false, s)) ∧
    (∀ (Inv : Scope → Prop) (pre : List Any) (x : Any) (post : List Any),
      sequenceElems l = pre ++ x :: post → Inv s →
      (∀ e ∈ pre, ∀ s', Inv s' →
        (scope.Match p e s').1 = .ok false ∧ Inv (scope.Match p e s').2) →
      (∀ s', Inv s' → (scope.Match p x s').1 = .ok true) →
      ∃ s', _ArrayRegex.Match scope p l s = (.ok true, s')) ∧
    (∀ (L : RegexpLib) (rest : List RegexProtocol) (re : Regexp),
      L.Compile (caseInsensitiveFlag ++ sp) = .ok re →
      (s.regexp_cache sp = none ∨ s.regexp_cache sp = some re) →
      (∀ e ∈ sequenceElems l, ∃ t, to_string e = .ok (t, true)) →
      ∃ r s', _ArrayRegex.Match (ScopeCalls.withRegex ⟨_SubstringRegex L :: rest⟩) p l s
          = (.ok r, s') ∧
        (r = true ↔ ∃ e ∈ sequenceElems l, ∃ t, to_string e = .ok (t, true) ∧
          L.MatchString re t = true)) := by
  have hmatch : ∀ sc : ScopeCalls, _ArrayRegex.Match sc p l s =
      arrayRegexLoop sc p l (sequenceElems l).length 0 s := by
    intro sc
    simp only [_ArrayRegex.Match, bind, Go.bind, Go.ofExcept, reflect_Len_array l hl]
  refine ⟨?_, ?_, ?_, ?_, ?_⟩
  · simp [_ArrayRegex.Applicable, hp, hl, bind, Except.bind]
    rfl
  · intro Inv m hinv hm
    obtain ⟨r, s', hr, hinv', hiff⟩ := arrayRegexLoop_spec scope p l hl Inv m hm
      (sequenceElems l).length 0 s hinv (by simp)
    refine ⟨r, s', by rw [hmatch, hr], hinv', ?_⟩
    rw [hiff]
    constructor
    · rintro ⟨j, x, _, hx, hxe⟩
      exact ⟨j, x, (reflect_Index_array_ok l hl j x).mpr hx, hxe⟩
    · rintro ⟨j, x, hx, hxe⟩
      exact ⟨j, x, Nat.zero_le j, (reflect_Index_array_ok l hl j x).mp hx, hxe⟩
  · intro h0
    rw [reflect_Len_array l hl] at h0
    have hlen : (sequenceElems l).length = 0 := Except.ok.inj h0
    rw [hmatch, hlen]
    rfl
  · intro Inv pre x post hsplit hinv hpre hx
    rw [hmatch]
    exact arrayRegexLoop_stops scope p l hl Inv x post hx pre (sequenceElems l).length 0 s
      hinv (by simp) (by simpa using hsplit) hpre
  · intro L rest re hc hinv hstr
    obtain ⟨r, s', hr, _, hiff⟩ := arrayRegexLoop_spec
      (ScopeCalls.withRegex ⟨_SubstringRegex L :: rest⟩) p l hl
      (fun s' => s'.regexp_cache sp = none ∨ s'.regexp_cache sp = some re)
      (fun e => match to_string e with
        | .ok (t, true) => L.MatchString re t
        | _ => false)
      (fun e he s' hs' => by
        obtain ⟨t, ht⟩ := hstr e he
        have := baseline_match_string L rest p e sp t hp ht re hc s' hs'
        simp only [ht]
        exact this)
      (sequenceElems l).length 0 s hinv (by simp)
    refine ⟨r, s', by rw [hmatch, hr], ?_⟩
    rw [hiff]
    constructor
    · rintro ⟨j, x, _, hx, hxe⟩
      have hmem : x ∈ sequenceElems l := List.getElem?_mem hx
      obtain ⟨t, ht⟩ := hstr x hmem
      simp only [ht] at hxe
      exact ⟨x, hmem, t, ht, hxe⟩
    · rintro ⟨x, hmem, t, ht, hxe⟩
      obtain ⟨j, hj, hjx⟩ := List.getElem_of_mem hmem
      refine ⟨j, x, Nat.zero_le j, ?_, ?_⟩
      · rw [List.getElem?_eq_getElem hj, hjx]
      · simp only [ht]
        exact hxe

/-- Closed instance of C23: with the baseline matcher (`_SubstringRegex` then
`_ArrayRegex` in the scope's Regex dispatcher) on the empty scope, the pattern
`'b'` matches the list `('a', 'abc', 'x')`: `'a'` is asked and declines,
`'abc'` matches, `'x'` is not asked. -/
theorem arrayRegex_any_witness :
    ∃ s', _ArrayRegex.Match
      (ScopeCalls.withRegex ⟨[_SubstringRegex RegexpLib.toy, _ArrayRegex]⟩) (.string [98])
      (.slice [.string [97], .string [97, 98, 99], .string [120]]) Scope.empty
        = (.ok true, s') :=
  (arrayRegex_any (ScopeCalls.withRegex ⟨[_SubstringRegex RegexpLib.toy, _ArrayRegex]⟩)
    (.string [98]) (.slice [.string [97], .string [97, 98, 99], .string [120]]) [98]
    Scope.empty rfl rfl).2.2.2.1
    (fun s' => s'.regexp_cache [98] = none ∨
      s'.regexp_cache [98] = some ⟨caseInsensitiveFlag ++ [98]⟩)
    [.string [97]] (.string [97, 98, 99]) [.string [120]] rfl (Or.inl rfl)
    (by
      intro e he s' hs'
      rw [List.mem_singleton] at he
      subst he
      exact baseline_match_string RegexpLib.toy [_ArrayRegex] (.string [98]) (.string [97])
        [98] [97] rfl rfl ⟨caseInsensitiveFlag ++ [98]⟩ rfl s' hs')
    (fun s' hs' =>
      (baseline_match_string RegexpLib.toy [_ArrayRegex] (.string [98])
        (.string [97, 98, 99]) [98] [97, 98, 99] rfl rfl ⟨caseInsensitiveFlag ++ [98]⟩ rfl
        s' hs').1)

/-! ## Operand kinds (C25, C27, C28) -/

/-- C25, as the code has it: `to_int64` succeeds on a `float64`, which is not
int-like, and `to_float` succeeds on a Go `uint`, which is neither int-like
nor a double (and on which `to_int64` fails). -/
theorem conversions_not_aligned :
    ((to_int64 (.float64 (.finite (3 / 2)))).2 = true ∧
      is_int (.float64 (.finite (3 / 2))) = false) ∧
    ((to_float (.uint 7)).2 = true ∧ is_int (.uint 7) = false ∧
      (to_int64 (.uint 7)).2 = false ∧ ∀ f, Any.uint 7 ≠ .float64 f) := by
  refine ⟨⟨rfl, rfl⟩, rfl, rfl, rfl, ?_⟩
  intro f h
  cases h

/-- C25 (amended): a value is int-like exactly when `to_int64` succeeds on it
and it is not an IEEE double (`to_int64` also converts a `float64`); every
int-like value and every double is number-like, and every number-like value
other than a Go `uint` is int-like or a double.  Bools convert to 0 and 1
under both conversions. -/
theorem int_like_number_like (x : Any) :
    (is_int x = true ↔ ((to_int64 x).2 = true ∧ ∀ f, x ≠ .float64 f)) ∧
    ((is_int x = true ∨ ∃ f, x = .float64 f) → (to_float x).2 = true) ∧
    ((to_float x).2 = true → (∀ u, x ≠ .uint u) → (is_int x = true ∨ ∃ f, x = .float64 f)) ∧
    (to_int64 (.bool false) = (0, true) ∧ to_int64 (.bool true) = (1, true) ∧
      to_float (.bool false) = (.finite 0, true) ∧ to_float (.bool true) = (.finite 1, true) ∧
      is_int (.bool false) = true ∧ is_int (.bool true) = true) := by
  refine ⟨?_, ?_, ?_, ⟨rfl, rfl, rfl, rfl, rfl, rfl⟩⟩
  · cases x <;> simp [is_int, to_int64]
    case bool t => cases t <;> rfl
  · rintro (h | ⟨f, rfl⟩)
    · cases x <;> simp [is_int] at h <;> simp [to_float]
      case bool t => cases t <;> rfl
    · rfl
  · intro h hu
    cases x <;> simp [to_float] at h <;> simp [is_int]
    case uint u => exact absurd rfl (hu u)

/-- Closed instance of C25 (amended): the `int8` value 5 is int-like and
number-like; the double 1.5 is number-like. -/
theorem int_like_number_like_witness :
    (to_float (.int8 5)).2 = true ∧ (to_float (.float64 (.finite (3 / 2)))).2 = true ∧
    (is_int (.int8 5) = true ∨ ∃ f, Any.int8 5 = .float64 f) :=
  ⟨(int_like_number_like (.int8 5)).2.1 (Or.inl rfl),
    (int_like_number_like (.float64 (.finite (3 / 2)))).2.1 (Or.inr ⟨_, rfl⟩),
    (int_like_number_like (.int8 5)).2.2.1 rfl (fun u h => by cases h)⟩

/-- An int-like value is number-like. -/
theorem is_int_to_float (a : Any) (ha : is_int a = true) : (to_float a).2 = true := by
  cases a <;> simp [is_int] at ha <;> simp [to_float]
  case bool t => cases t <;> rfl

/-- C27: applicability is nested from narrow to broad.  A pair accepted by
`_IntEq`, `_AddInts`, `_SubInts`, `_MulInt`, `_DivInt` is accepted by
`_NumericEq`, `_AddFloats`, `_SubFloats`, `_NumericMul`, `_NumericDiv`; a pair
accepted by `_AddSlices` or `_AddNull` is accepted by `_AddSliceAny`;
`_AddSlices` and `_AddNull` accept no pair in common.  Hence on a pair the
narrower implementation accepts, a dispatcher that reaches the broader one
first returns the broader one's result, and the narrower one's only when it
comes first. -/
theorem applicability_nested (fp : Float64Arith) (scope : ScopeCalls) (a b : Any) :
    ((_IntEq.Applicable a b = true → _NumericEq.Applicable a b = true) ∧
      (_AddInts.Applicable a b = true → _AddFloats.Applicable a b = true) ∧
      (_SubInts.Applicable a b = true → _SubFloats.Applicable a b = true) ∧
      (_MulInt.Applicable a b = true → _NumericMul.Applicable a b = true) ∧
      (_DivInt.Applicable a b = true → _NumericDiv.Applicable a b = true)) ∧
    ((_AddSlices.Applicable a b = true → _AddSliceAny.Applicable a b = true) ∧
      (_AddNull.Applicable a b = true → _AddSliceAny.Applicable a b = true) ∧
      ¬ (_AddSlices.Applicable a b = true ∧ _AddNull.Applicable a b = true)) ∧
    (∀ (pre post : List EqProtocol), (∀ j ∈ pre, j.Applicable a b = .ok false) →
      _IntEq.Applicable a b = true →
      _EqDispatcher.Eq ⟨pre ++ _NumericEq :: post⟩ scope a b = EqProtocol.Eq _NumericEq scope a b ∧
      _EqDispatcher.Eq ⟨pre ++ _IntEq :: post⟩ scope a b = EqProtocol.Eq _IntEq scope a b) ∧
    (∀ (pre post : List AddProtocol), (∀ j ∈ pre, j.Applicable a b = .ok false) →
      (_AddInts.Applicable a b = true →
        _AddDispatcher.Add ⟨pre ++ _AddFloats fp :: post⟩ scope a b
          = AddProtocol.Add (_AddFloats fp) scope a b ∧
        _AddDispatcher.Add ⟨pre ++ _AddInts :: post⟩ scope a b = AddProtocol.Add _AddInts scope a b) ∧
      (_AddSlices.Applicable a b = true →
        _AddDispatcher.Add ⟨pre ++ _AddSliceAny :: post⟩ scope a b
          = AddProtocol.Add _AddSliceAny scope a b ∧
        _AddDispatcher.Add ⟨pre ++ _AddSlices :: post⟩ scope a b
          = AddProtocol.Add _AddSlices scope a b) ∧
      (_AddNull.Applicable a b = true →
        _AddDispatcher.Add ⟨pre ++ _AddSliceAny :: post⟩ scope a b
          = AddProtocol.Add _AddSliceAny scope a b ∧
        _AddDispatcher.Add ⟨pre ++ _AddNull :: post⟩ scope a b = AddProtocol.Add _AddNull scope a b)) ∧
    (∀ (pre post : List SubProtocol), (∀ j ∈ pre, j.Applicable a b = .ok false) →
      _SubInts.Applicable a b = true →
      _SubDispatcher.Sub ⟨pre ++ _SubFloats fp :: post⟩ scope a b
        = SubProtocol.Sub (_SubFloats fp) scope a b ∧
      _SubDispatcher.Sub ⟨pre ++ _SubInts :: post⟩ scope a b = SubProtocol.Sub _SubInts scope a b) ∧
    (∀ (pre post : List MulProtocol), (∀ j ∈ pre, j.Applicable a b = .ok false) →
      _MulInt.Applicable a b = true →
      _MulDispatcher.Mul ⟨pre ++ _NumericMul fp :: post⟩ scope a b
        = MulProtocol.Mul (_NumericMul fp) scope a b ∧
      _MulDispatcher.Mul ⟨pre ++ _MulInt :: post⟩ scope a b = MulProtocol.Mul _MulInt scope a b) ∧
    (∀ (pre post : List DivProtocol), (∀ j ∈ pre, j.Applicable a b = .ok false) →
      _DivInt.Applicable a b = true →
      _DivDispatcher.Div ⟨pre ++ _NumericDiv fp :: post⟩ scope a b
        = DivProtocol.Div (_NumericDiv fp) scope a b ∧
      _DivDispatcher.Div ⟨pre ++ _DivInt :: post⟩ scope a b = DivProtocol.Div _DivInt scope a b) := by
  have hnum : is_int a = true → is_int b = true →
      (to_float a).2 = true ∧ (to_float b).2 = true :=
    fun ha hb => ⟨is_int_to_float a ha, is_int_to_float b hb⟩
  have hint : ∀ {P : Prop}, (is_int a && is_int b) = true →
      ((to_float a).2 = true → (to_float b).2 = true → P) → P := by
    intro P h k
    simp only [Bool.and_eq_true] at h
    exact k (hnum h.1 h.2).1 (hnum h.1 h.2).2
  have hslices : _AddSlices.Applicable a b = true → _AddSliceAny.Applicable a b = true := by
    intro h
    simp only [_AddSlices.Applicable, Bool.and_eq_true] at h
    simp [_AddSliceAny.Applicable, h.1]
  have hnull : _AddNull.Applicable a b = true → _AddSliceAny.Applicable a b = true := by
    intro h
    simp only [_AddNull.Applicable, Bool.or_eq_true, Bool.and_eq_true] at h
    rcases h with h | h
    · simp [_AddSliceAny.Applicable, h.1]
    · simp [_AddSliceAny.Applicable, h.2]
  have e1 : _IntEq.Applicable a b = true → _NumericEq.Applicable a b = true :=
    fun h => hint h (fun x y => by simp [_NumericEq.Applicable, x, y])
  have e2 : _AddInts.Applicable a b = true → _AddFloats.Applicable a b = true :=
    fun h => hint h (fun x y => by simp [_AddFloats.Applicable, x, y])
  have e3 : _SubInts.Applicable a b = true → _SubFloats.Applicable a b = true :=
    fun h => hint h (fun x y => by simp [_SubFloats.Applicable, x, y])
  have e4 : _MulInt.Applicable a b = true → _NumericMul.Applicable a b = true :=
    fun h => hint h (fun x y => by simp [_NumericMul.Applicable, x, y])
  have e5 : _DivInt.Applicable a b = true → _NumericDiv.Applicable a b = true :=
    fun h => hint h (fun x y => by simp [_NumericDiv.Applicable, x, y])
  refine ⟨⟨e1, e2, e3, e4, e5⟩, ⟨hslices, hnull, ?_⟩, ?_, ?_, ?_, ?_, ?_⟩
  · rintro ⟨h1, h2⟩
    simp only [_AddSlices.Applicable, Bool.and_eq_true] at h1
    simp only [_AddNull.Applicable, Bool.or_eq_true, Bool.and_eq_true] at h2
    rcases h2 with h | h
    · rw [array_not_null b h1.2] at h; cases h.2
    · rw [array_not_null a h1.1] at h; cases h.1
  · intro pre post hpre h
    exact ⟨dispatchLoop_first _ _ _ pre _ post hpre
        (congrArg Except.ok (e1 h)),
      dispatchLoop_first _ _ _ pre _ post hpre
        (congrArg Except.ok (h))⟩
  · intro pre post hpre
    refine ⟨fun h => ⟨?_, ?_⟩, fun h => ⟨?_, ?_⟩, fun h => ⟨?_, ?_⟩⟩
    · exact dispatchLoop_first _ _ _ pre _ post hpre
        (congrArg Except.ok (e2 h))
    · exact dispatchLoop_first _ _ _ pre _ post hpre
        (congrArg Except.ok (h))
    · exact dispatchLoop_first _ _ _ pre _ post hpre
        (congrArg Except.ok (hslices h))
    · exact dispatchLoop_first _ _ _ pre _ post hpre
        (congrArg Except.ok (h))
    · exact dispatchLoop_first _ _ _ pre _ post hpre
        (congrArg Except.ok (hnull h))
    · exact dispatchLoop_first _ _ _ pre _ post hpre
        (congrArg Except.ok (h))
  · intro pre post hpre h
    exact ⟨dispatchLoop_first _ _ _ pre _ post hpre
        (congrArg Except.ok (e3 h)),
      dispatchLoop_first _ _ _ pre _ post hpre
        (congrArg Except.ok (h))⟩
  · intro pre post hpre h
    exact ⟨dispatchLoop_first _ _ _ pre _ post hpre
        (congrArg Except.ok (e4 h)),
      dispatchLoop_first _ _ _ pre _ post hpre
        (congrArg Except.ok (h))⟩
  · intro pre post hpre h
    exact ⟨dispatchLoop_first _ _ _ pre _ post hpre
        (congrArg Except.ok (e5 h)),
      dispatchLoop_first _ _ _ pre _ post hpre
        (congrArg Except.ok (h))⟩

/-- Closed instance of C27: `int` 1 and `int` 2 are accepted by `_AddInts`,
hence by `_AddFloats`; with `_AddFloats` registered first the dispatcher
returns its result, with `_AddInts` first the integer one. -/
theorem applicability_nested_witness :
    _AddInts.Applicable (.int 1) (.int 2) = true ∧
    _AddFloats.Applicable (.int 1) (.int 2) = true ∧
    _AddDispatcher.Add ⟨[_AddFloats Float64Arith.exact, _AddInts]⟩ ScopeCalls.inert
        (.int 1) (.int 2)
      = AddProtocol.Add (_AddFloats Float64Arith.exact) ScopeCalls.inert (.int 1) (.int 2) ∧
    _AddDispatcher.Add ⟨[_AddInts, _AddFloats Float64Arith.exact]⟩ ScopeCalls.inert
        (.int 1) (.int 2)
      = AddProtocol.Add _AddInts ScopeCalls.inert (.int 1) (.int 2) :=
  ⟨rfl,
    (applicability_nested Float64Arith.exact ScopeCalls.inert (.int 1) (.int 2)).1.2.1 rfl,
    ((applicability_nested Float64Arith.exact ScopeCalls.inert (.int 1) (.int 2)).2.2.2.1
      [] [_AddInts] (fun _ h => by cases h)).1 rfl |>.1,
    ((applicability_nested Float64Arith.exact ScopeCalls.inert (.int 1) (.int 2)).2.2.2.1
      [] [_AddFloats Float64Arith.exact] (fun _ h => by cases h)).1 rfl |>.2⟩

/-- The three ways `to_string` ends. -/
theorem to_string_cases (a : Any) :
    (∃ s, to_string a = .ok (s, true)) ∨ to_string a = .ok ([], false) ∨
      to_string a = .error .nilDereference := by
  cases a <;> simp [to_string]
  case stringPtr p =>
    rcases p with _ | ⟨_, t⟩ <;> simp [to_string]

/-- The applicability test shared by the string implementations (`_StringEq`,
`_StringLt`, `_AddStrings`, `_SubstringMembership`, `_SubstringRegex`)
answers true only when both operands are string-like. -/
theorem string_pair_applicable (a b : Any)
    (h : (do
      let (_, a_ok) ← to_string a
      let (_, b_ok) ← to_string b
      pure (a_ok && b_ok) : Except Panic Bool) = .ok true) :
    (∃ u, to_string a = .ok (u, true)) ∧ (∃ v, to_string b = .ok (v, true)) := by
  rcases to_string_cases a with ⟨u, hu⟩ | hu | hu <;>
    rcases to_string_cases b with ⟨v, hv⟩ | hv | hv <;>
    simp [hu, hv, bind, Except.bind, pure, Except.pure] at h ⊢

/-- C28, as the code has it: a byte buffer is string-like and an array at
once, and on two byte buffers the string implementation `_AddStrings` and the
array implementation `_AddSlices` are both applicable. -/
theorem bytes_string_like_and_array :
    to_string (.bytes [97]) = .ok ([97], true) ∧ is_array (.bytes [97]) = true ∧
    _AddStrings.Applicable (.bytes [97]) (.bytes [98]) = .ok true ∧
    _AddSlices.Applicable (.bytes [97]) (.bytes [98]) = true :=
  ⟨rfl, rfl, rfl, rfl⟩

/-- C28 (amended): number-like, string-like and null-like are pairwise
disjoint, and an array is neither number-like nor null-like; a value is
string-like and an array at once exactly when it is a byte buffer (`[]byte`);
`is_array` is false for a `string` and for a `*string`.  Hence a string
implementation and an array implementation are both applicable to the same
operands only when an operand is a byte buffer: `_BoolString` and `_BoolSlice`
never are; where one of `_StringEq`, `_StringLt`, `_AddStrings`,
`_SubstringMembership`, `_SubstringRegex` is applicable, `_ArrayEq` or
`_AddSlices` is applicable only to two byte buffers, `_AddSliceAny` only when
one operand is a byte buffer, `_ArrayRegex` only when the target is one, and
`_AddNull` never.  With a byte buffer the overlap is real, also next to a
plain string. -/
theorem operand_kinds_disjoint (v a b : Any) :
    (¬ ((to_float v).2 = true ∧ ∃ s, to_string v = .ok (s, true)) ∧
      ¬ ((to_float v).2 = true ∧ is_array v = true) ∧
      ¬ ((to_float v).2 = true ∧ is_null v = true) ∧
      ¬ ((∃ s, to_string v = .ok (s, true)) ∧ is_null v = true) ∧
      ¬ (is_array v = true ∧ is_null v = true) ∧
      (((∃ s, to_string v = .ok (s, true)) ∧ is_array v = true) ↔ ∃ b, v = .bytes b) ∧
      (∀ x, is_array (.string x) = false) ∧ (∀ p, is_array (.stringPtr p) = false)) ∧
    ¬ (_BoolString.Applicable v = true ∧ _BoolSlice.Applicable v = true) ∧
    (∀ S : Any → Any → Except Panic Bool,
      (S = _StringEq.Applicable ∨ S = _StringLt.Applicable ∨ S = _AddStrings.Applicable ∨
        S = _SubstringMembership.Applicable ∨ S = _SubstringRegex.Applicable) →
      S a b = .ok true →
      ((_ArrayEq.Applicable a b = true ∨ _AddSlices.Applicable a b = true) →
        (∃ x, a = .bytes x) ∧ ∃ y, b = .bytes y) ∧
      (_AddSliceAny.Applicable a b = true → (∃ x, a = .bytes x) ∨ ∃ y, b = .bytes y) ∧
      (_ArrayRegex.Applicable a b = .ok true → ∃ y, b = .bytes y) ∧
      _AddNull.Applicable a b = false) ∧
    (∀ x y : GoString,
      _AddStrings.Applicable (.string x) (.bytes y) = .ok true ∧
      _AddSliceAny.Applicable (.string x) (.bytes y) = true ∧
      _SubstringRegex.Applicable (.string x) (.bytes y) = .ok true ∧
      _ArrayRegex.Applicable (.string x) (.bytes y) = .ok true) := by
  have hnull : ∀ w : Any, (∃ s, to_string w = .ok (s, true)) → is_null w = false := by
    rintro w ⟨s, hs⟩
    cases w <;> first | rfl | cases hs
  have hbytes : ∀ w : Any, (∃ s, to_string w = .ok (s, true)) → is_array w = true →
      ∃ x, w = .bytes x := by
    rintro w ⟨s, hs⟩ ha
    cases w <;> simp [is_array] at ha
    case bytes x => exact ⟨x, rfl⟩
    all_goals cases hs
  refine ⟨⟨?_, ?_, ?_, ?_, ?_, ?_, fun _ => rfl, fun _ => rfl⟩, ?_, ?_, fun _ _ => ⟨rfl, rfl, rfl, rfl⟩⟩
  · rintro ⟨h, s, hs⟩
    rw [(number_like_kinds v h).1] at hs
    cases hs
  · rintro ⟨h, ha⟩
    rw [(number_like_kinds v h).2.1] at ha
    cases ha
  · rintro ⟨h, hn⟩
    rw [(number_like_kinds v h).2.2] at hn
    cases hn
  · rintro ⟨hs, hn⟩
    rw [hnull v hs] at hn
    cases hn
  · rintro ⟨ha, hn⟩
    rw [array_not_null v ha] at hn
    cases hn
  · constructor
    · rintro ⟨hs, ha⟩
      exact hbytes v hs ha
    · rintro ⟨x, rfl⟩
      exact ⟨⟨x, rfl⟩, rfl⟩
  · rintro ⟨h1, h2⟩
    cases v <;> simp [_BoolString.Applicable] at h1 <;>
      simp [_BoolSlice.Applicable, is_array] at h2
  · intro S hS h
    have hboth : (∃ u, to_string a = .ok (u, true)) ∧ (∃ w, to_string b = .ok (w, true)) := by
      rcases hS with rfl | rfl | rfl | rfl | rfl <;> exact string_pair_applicable a b h
    obtain ⟨hsa, hsb⟩ := hboth
    refine ⟨?_, ?_, ?_, ?_⟩
    · intro hor
      have hab : is_array a = true ∧ is_array b = true := by
        rcases hor with h' | h'
        · simpa [_ArrayEq.Applicable] using h'
        · simpa [_AddSlices.Applicable] using h'
      exact ⟨hbytes a hsa hab.1, hbytes b hsb hab.2⟩
    · intro h'
      simp only [_AddSliceAny.Applicable, Bool.or_eq_true] at h'
      rcases h' with h' | h'
      · exact Or.inl (hbytes a hsa h')
      · exact Or.inr (hbytes b hsb h')
    · intro h'
      obtain ⟨u, hu⟩ := hsa
      simp [_ArrayRegex.Applicable, hu, bind, Except.bind, pure, Except.pure] at h'
      exact hbytes b hsb h'
    · simp [_AddNull.Applicable, hnull a hsa, hnull b hsb]

/-- Closed instance of C28 (amended): the byte buffer `[]byte("a")` is
string-like and an array; the string `'a'` is not number-like and string-like
at once; and `_AddStrings` and `_AddSlices` are both applicable to the two
byte buffers `'a'` and `'b'`, which the amended claim allows. -/
theorem operand_kinds_disjoint_witness :
    ((∃ s, to_string (.bytes [97]) = .ok (s, true)) ∧ is_array (.bytes [97]) = true) ∧
    ¬ ((to_float (.string [97])).2 = true ∧ ∃ s, to_string (.string [97]) = .ok (s, true)) ∧
    ((∃ x, Any.bytes [97] = .bytes x) ∧ ∃ y, Any.bytes [98] = .bytes y) :=
  ⟨(operand_kinds_disjoint (.bytes [97]) (.bytes [97]) (.bytes [98])).1.2.2.2.2.2.1.2
      ⟨[97], rfl⟩,
    (operand_kinds_disjoint (.string [97]) (.bytes [97]) (.bytes [98])).1.1,
    ((operand_kinds_disjoint (.bytes [97]) (.bytes [97]) (.bytes [98])).2.2.1
      _AddStrings.Applicable (Or.inr (Or.inr (Or.inl rfl))) rfl).1 (Or.inr rfl)⟩

/-! ## Integer operands under the Lt dispatcher (C26) -/

/-- With enough fuel, `excessBits` leaves a quotient below `2^53`, and one of
at least `2^52` when bits were dropped. -/
theorem excessBits_spec : ∀ (fuel n : Nat), n < 2 ^ fuel * 2 ^ 53 →
    n / 2 ^ excessBits fuel n < 2 ^ 53 ∧
    (2 ^ 53 ≤ n → 1 ≤ excessBits fuel n ∧ 2 ^ 52 ≤ n / 2 ^ excessBits fuel n) := by
  intro fuel
  induction fuel with
  | zero =>
    intro n hn
    simp only [excessBits, pow_zero, Nat.div_one, one_mul] at hn ⊢
    exact ⟨hn, fun h => absurd hn (by omega)⟩
  | succ f ih =>
    intro n hn
    unfold excessBits
    split
    · rename_i hlt
      simp only [pow_zero, Nat.div_one]
      exact ⟨hlt, fun h => absurd hlt (by omega)⟩
    · rename_i hge
      have hn2 : n / 2 < 2 ^ f * 2 ^ 53 := by
        rw [Nat.div_lt_iff_lt_mul (by norm_num)]
        calc n < 2 ^ (f + 1) * 2 ^ 53 := hn
          _ = 2 ^ f * 2 ^ 53 * 2 := by ring
      obtain ⟨h1, h2⟩ := ih (n / 2) hn2
      have hdiv : n / 2 ^ (excessBits f (n / 2) + 1) = n / 2 / 2 ^ excessBits f (n / 2) := by
        rw [pow_succ, Nat.mul_comm, Nat.div_div_eq_div_mul]
      rw [hdiv]
      refine ⟨h1, fun _ => ⟨by omega, ?_⟩⟩
      by_cases h53 : 2 ^ 53 ≤ n / 2
      · exact (h2 h53).2
      · have hk0 : excessBits f (n / 2) = 0 := by
          cases f with
          | zero => rfl
          | succ g =>
            have hlt2 : n / 2 < 2 ^ 53 := Nat.lt_of_not_le h53
            unfold excessBits
            rw [if_pos hlt2]
        rw [hk0, pow_zero, Nat.div_one]
        omega

/-- Below `2^53` the conversion to a double is exact. -/
theorem roundNearestEven53_small (n : Nat) (h : n < 2 ^ 53) : roundNearestEven53 n = n := by
  unfold roundNearestEven53
  rw [if_pos h]

/-- From `2^53` on, `roundNearestEven53` keeps a 53-bit quotient `n / 2^k`
(`k ≥ 1`) and rounds the remainder to nearest, ties to even. -/
theorem roundNearestEven53_large (n : Nat) (h : 2 ^ 53 ≤ n) :
    ∃ k, 1 ≤ k ∧ 2 ^ 52 ≤ n / 2 ^ k ∧ n / 2 ^ k < 2 ^ 53 ∧
      roundNearestEven53 n =
        (if 2 ^ (k - 1) < n % 2 ^ k ∨ (n % 2 ^ k = 2 ^ (k - 1) ∧ n / 2 ^ k % 2 = 1)
          then n / 2 ^ k + 1 else n / 2 ^ k) * 2 ^ k := by
  have hfuel : n < 2 ^ n * 2 ^ 53 :=
    lt_of_lt_of_le (Nat.lt_two_pow n) (Nat.le_mul_of_pos_right _ (by norm_num))
  obtain ⟨h1, h2⟩ := excessBits_spec n n hfuel
  refine ⟨excessBits n n, (h2 h).1, (h2 h).2, h1, ?_⟩
  unfold roundNearestEven53
  rw [if_neg (by omega)]

/-- The conversion of a natural number to a double is monotone. -/
theorem roundNearestEven53_mono (n m : Nat) (h : n ≤ m) :
    roundNearestEven53 n ≤ roundNearestEven53 m := by
  by_cases hn : n < 2 ^ 53
  · rw [roundNearestEven53_small n hn]
    by_cases hm : m < 2 ^ 53
    · rw [roundNearestEven53_small m hm]; exact h
    · obtain ⟨k, hk, hq, _, hR⟩ := roundNearestEven53_large m (Nat.le_of_not_lt hm)
      rw [hR]
      have hpos : 1 ≤ 2 ^ k := Nat.one_le_two_pow
      have h1 : m / 2 ^ k * 2 ^ k ≤
          (if 2 ^ (k - 1) < m % 2 ^ k ∨ (m % 2 ^ k = 2 ^ (k - 1) ∧ m / 2 ^ k % 2 = 1)
            then m / 2 ^ k + 1 else m / 2 ^ k) * 2 ^ k := by
        apply Nat.mul_le_mul_right
        split <;> omega
      have h2k : 2 ^ 1 ≤ 2 ^ k := Nat.pow_le_pow_right (by norm_num) hk
      have h53 : (2 : Nat) ^ 52 * 2 ^ 1 = 2 ^ 53 := by norm_num
      calc n ≤ 2 ^ 52 * 2 ^ 1 := by omega
        _ ≤ 2 ^ 52 * 2 ^ k := Nat.mul_le_mul_left _ h2k
        _ ≤ m / 2 ^ k * 2 ^ k := Nat.mul_le_mul_right _ hq
        _ ≤ _ := h1
  · have hn' : 2 ^ 53 ≤ n := Nat.le_of_not_lt hn
    have hm' : 2 ^ 53 ≤ m := le_trans hn' h
    obtain ⟨k, hk, hq, hq', hR⟩ := roundNearestEven53_large n hn'
    obtain ⟨j, hj, hp, hp', hS⟩ := roundNearestEven53_large m hm'
    rw [hR, hS]
    have hupn : (if 2 ^ (k - 1) < n % 2 ^ k ∨ (n % 2 ^ k = 2 ^ (k - 1) ∧ n / 2 ^ k % 2 = 1)
        then n / 2 ^ k + 1 else n / 2 ^ k) ≤ n / 2 ^ k + 1 := by split <;> omega
    have hlom : m / 2 ^ j ≤
        (if 2 ^ (j - 1) < m % 2 ^ j ∨ (m % 2 ^ j = 2 ^ (j - 1) ∧ m / 2 ^ j % 2 = 1)
          then m / 2 ^ j + 1 else m / 2 ^ j) := by split <;> omega
    have hkj : k ≤ j := by
      by_contra hlt
      have hjk : j + 1 ≤ k := by omega
      have hmlt : m < 2 ^ 53 * 2 ^ j := Nat.lt_mul_of_div_lt hp' (Nat.two_pow_pos j)
      have hnge : 2 ^ 52 * 2 ^ k ≤ n :=
        le_trans (Nat.mul_le_mul_right _ hq) (Nat.div_mul_le_self n (2 ^ k))
      have hpow : 2 ^ (j + 1) ≤ 2 ^ k := Nat.pow_le_pow_right (by norm_num) hjk
      have hmm : m < m :=
        calc m < 2 ^ 53 * 2 ^ j := hmlt
          _ = 2 ^ 52 * 2 ^ (j + 1) := by ring
          _ ≤ 2 ^ 52 * 2 ^ k := Nat.mul_le_mul_left _ hpow
          _ ≤ n := hnge
          _ ≤ m := h
      exact lt_irrefl _ hmm
    rcases Nat.lt_or_eq_of_le hkj with hlt | rfl
    · have hpow : 2 ^ (k + 1) ≤ 2 ^ j := Nat.pow_le_pow_right (by norm_num) hlt
      calc _ ≤ (n / 2 ^ k + 1) * 2 ^ k := Nat.mul_le_mul_right _ hupn
        _ ≤ 2 ^ 53 * 2 ^ k := Nat.mul_le_mul_right _ hq'
        _ = 2 ^ 52 * 2 ^ (k + 1) := by ring
        _ ≤ 2 ^ 52 * 2 ^ j := Nat.mul_le_mul_left _ hpow
        _ ≤ m / 2 ^ j * 2 ^ j := Nat.mul_le_mul_right _ hp
        _ ≤ _ := Nat.mul_le_mul_right _ hlom
    · apply Nat.mul_le_mul_right
      have hqq : n / 2 ^ k ≤ m / 2 ^ k := Nat.div_le_div_right h
      rcases Nat.lt_or_eq_of_le hqq with hlt | heq
      · exact le_trans hupn (le_trans hlt hlom)
      · have hdn := Nat.div_add_mod n (2 ^ k)
        have hdm := Nat.div_add_mod m (2 ^ k)
        rw [heq] at hdn
        have hr : n % 2 ^ k ≤ m % 2 ^ k := by omega
        rw [heq]
        split <;> split <;> omega

/-- The double `float64(v)` is finite, of magnitude `roundNearestEven53 |v|`. -/
theorem ofInt_lt (v w : Int) :
    (Float64.ofInt v).lt (Float64.ofInt w) = decide
      ((if v < 0 then -(roundNearestEven53 v.natAbs : ℚ) else (roundNearestEven53 v.natAbs : ℚ))
        < (if w < 0 then -(roundNearestEven53 w.natAbs : ℚ)
            else (roundNearestEven53 w.natAbs : ℚ))) := by
  unfold Float64.ofInt
  by_cases hv : v < 0 <;> by_cases hw : w < 0 <;>
    simp only [hv, hw, if_true, if_false, Float64.lt, Float64.value?]

/-- The comparison of the doubles never reports two integers out of order. -/
theorem ofInt_lt_sound (v w : Int) (h : (Float64.ofInt v).lt (Float64.ofInt w) = true) :
    v < w := by
  rw [ofInt_lt, decide_eq_true_eq] at h
  by_contra hle
  have hwv : w ≤ v := not_lt.mp hle
  have hnn : ∀ n : Nat, (0 : ℚ) ≤ (roundNearestEven53 n : ℚ) := fun n => Nat.cast_nonneg _
  by_cases hv : v < 0
  · have hw : w < 0 := by omega
    rw [if_pos hv, if_pos hw] at h
    have hm : roundNearestEven53 v.natAbs ≤ roundNearestEven53 w.natAbs :=
      roundNearestEven53_mono _ _ (by omega)
    have : (roundNearestEven53 v.natAbs : ℚ) ≤ (roundNearestEven53 w.natAbs : ℚ) :=
      Nat.cast_le.mpr hm
    linarith
  · rw [if_neg hv] at h
    by_cases hw : w < 0
    · rw [if_pos hw] at h
      have := hnn v.natAbs
      have := hnn w.natAbs
      linarith
    · rw [if_neg hw] at h
      have hm : roundNearestEven53 w.natAbs ≤ roundNearestEven53 v.natAbs :=
        roundNearestEven53_mono _ _ (by omega)
      have : (roundNearestEven53 w.natAbs : ℚ) ≤ (roundNearestEven53 v.natAbs : ℚ) :=
        Nat.cast_le.mpr hm
      linarith

/-- The double `2^53`: the conversion is still exact there. -/
theorem roundNearestEven53_pow53 : roundNearestEven53 (2 ^ 53) = 2 ^ 53 := by
  decide

/-- The integer `2^53 + 1` is converted to the double `2^53`. -/
theorem roundNearestEven53_pow53_succ : roundNearestEven53 (2 ^ 53 + 1) = 2 ^ 53 := by
  decide

/-- For magnitudes up to `2^53` the conversion to a double is exact. -/
theorem ofInt_exact (v : Int) (h : v.natAbs ≤ 2 ^ 53) : Float64.ofInt v = .finite (v : ℚ) := by
  have hr : roundNearestEven53 v.natAbs = v.natAbs := by
    rcases Nat.lt_or_eq_of_le h with hlt | heq
    · exact roundNearestEven53_small _ hlt
    · rw [heq]; exact roundNearestEven53_pow53
  unfold Float64.ofInt
  rw [hr]
  by_cases hv : v < 0
  · rw [if_pos hv]
    congr 1
    have e : v = -((v.natAbs : Nat) : Int) := by omega
    generalize v.natAbs = n at e
    subst e
    simp
  · rw [if_neg hv]
    congr 1
    have e : v = ((v.natAbs : Nat) : Int) := by omega
    generalize v.natAbs = n at e
    subst e
    simp

/-- The double of an int-like value is the conversion of the integer it
denotes. -/
theorem to_float_int_like (x : Any) (hx : is_int x = true) :
    (to_float x).1 = Float64.ofInt (denotedInteger x) := by
  cases x <;> simp [is_int] at hx <;> simp only [to_float, denotedInteger]
  case bool t =>
    cases t <;> simp [Float64.ofInt, roundNearestEven53]

/-- On int-like operands a Lt dispatcher made of the baseline implementations
(`_StringLt`, `_NumericLt`), in any order, returns the comparison of the two
doubles. -/
theorem ltDispatcher_int_like (scope : ScopeCalls) (l : List LtProtocol) (a b : Any)
    (hl : ∀ i ∈ l, i = _StringLt ∨ i = _NumericLt) (hn : _NumericLt ∈ l)
    (ha : is_int a = true) (hb : is_int b = true) :
    _LtDispatcher.Lt ⟨l⟩ scope a b
      = pure ((Float64.ofInt (denotedInteger a)).lt (Float64.ofInt (denotedInteger b))) := by
  have hfa := is_int_to_float a ha
  have hfb := is_int_to_float b hb
  have hnum : LtProtocol.Applicable _NumericLt a b = .ok true := by
    show Except.ok (_NumericLt.Applicable a b) = _
    simp [_NumericLt.Applicable, hfa, hfb]
  have hstr : LtProtocol.Applicable _StringLt a b = .ok false := by
    show _StringLt.Applicable a b = _
    simp only [_StringLt.Applicable, (number_like_kinds a hfa).1, (number_like_kinds b hfb).1]
    rfl
  have hres : LtProtocol.Lt _NumericLt scope a b
      = pure ((Float64.ofInt (denotedInteger a)).lt (Float64.ofInt (denotedInteger b))) := by
    show pure (_NumericLt.Lt a b) = _
    simp only [_NumericLt.Lt, to_float_int_like a ha, to_float_int_like b hb]
  unfold _LtDispatcher.Lt
  apply dispatchLoop_agree
  · intro j hj
    rcases hl j hj with rfl | rfl
    · exact Or.inl hstr
    · exact Or.inr ⟨hnum, hres⟩
  · exact ⟨_, hn, hnum⟩

/-- C26, as the code has it: the only baseline Lt implementation that accepts
two int-like operands is `_NumericLt`, which compares the doubles.  The
`int64` values `2^53` and `2^53 + 1` are converted to the same double, so the
Lt dispatcher returns `false` on them, in either order of the two baseline
implementations, although the first is smaller as an integer. -/
theorem lt_int_like_rounds :
    is_int (.int64 9007199254740992) = true ∧ is_int (.int64 9007199254740993) = true ∧
    denotedInteger (.int64 9007199254740992) < denotedInteger (.int64 9007199254740993) ∧
    _LtDispatcher.Lt ⟨[_StringLt, _NumericLt]⟩ ScopeCalls.inert
        (.int64 9007199254740992) (.int64 9007199254740993) Scope.empty
      = (.ok false, Scope.empty) ∧
    _LtDispatcher.Lt ⟨[_NumericLt, _StringLt]⟩ ScopeCalls.inert
        (.int64 9007199254740992) (.int64 9007199254740993) Scope.empty
      = (.ok false, Scope.empty) := by
  have hlt : (Float64.ofInt (denotedInteger (.int64 9007199254740992))).lt
      (Float64.ofInt (denotedInteger (.int64 9007199254740993))) = false := by
    rw [ofInt_lt]
    have e1 : roundNearestEven53 (Int.natAbs (denotedInteger (.int64 9007199254740992)))
        = 9007199254740992 := by decide
    have e2 : roundNearestEven53 (Int.natAbs (denotedInteger (.int64 9007199254740993)))
        = 9007199254740992 := by decide
    rw [e1, e2]
    simp [denotedInteger]
  refine ⟨rfl, rfl, by decide, ?_, ?_⟩
  · rw [ltDispatcher_int_like ScopeCalls.inert [_StringLt, _NumericLt]
      (.int64 9007199254740992) (.int64 9007199254740993)
      (fun i hi => by simpa using hi)
      (List.mem_cons_of_mem _ (List.mem_cons_self _ _)) rfl rfl, hlt]
    rfl
  · rw [ltDispatcher_int_like ScopeCalls.inert [_NumericLt, _StringLt]
      (.int64 9007199254740992) (.int64 9007199254740993)
      (fun i hi => by simpa [or_comm] using hi)
      (List.mem_cons_self _ _) rfl rfl, hlt]
    rfl

/-- C26 (amended): for int-like `a` and `b`, a Lt dispatcher made of the
baseline implementations (`_StringLt`, `_NumericLt`, in any order) returns the
comparison `float64(a) < float64(b)` of the two doubles, without a panic and
without touching the scope.  It returns `true` only when `a < b` as integers,
and exactly when `a < b` if both magnitudes are at most `2^53`; beyond that
two integers that round to the same double compare `false`. -/
theorem lt_int_like_by_double (scope : ScopeCalls) (s : Scope) (l : List LtProtocol)
    (a b : Any) (hl : ∀ i ∈ l, i = _StringLt ∨ i = _NumericLt) (hn : _NumericLt ∈ l)
    (ha : is_int a = true) (hb : is_int b = true) :
    ∃ r : Bool, _LtDispatcher.Lt ⟨l⟩ scope a b s = (.ok r, s) ∧
      r = (Float64.ofInt (denotedInteger a)).lt (Float64.ofInt (denotedInteger b)) ∧
      (r = true → denotedInteger a < denotedInteger b) ∧
      ((denotedInteger a).natAbs ≤ 2 ^ 53 → (denotedInteger b).natAbs ≤ 2 ^ 53 →
        (r = true ↔ denotedInteger a < denotedInteger b)) := by
  refine ⟨_, ?_, rfl, ofInt_lt_sound _ _, ?_⟩
  · rw [ltDispatcher_int_like scope l a b hl hn ha hb]
    rfl
  · intro h1 h2
    rw [ofInt_exact _ h1, ofInt_exact _ h2]
    simp [Float64.lt, Float64.value?]

/-- Closed instance of C26 (amended): `281462092005375 < 281462092005376` is
reported `true` by the Lt dispatcher holding `_StringLt` and `_NumericLt`. -/
theorem lt_int_like_by_double_witness :
    _LtDispatcher.Lt ⟨[_StringLt, _NumericLt]⟩ ScopeCalls.inert
        (.int64 281462092005375) (.int64 281462092005376) Scope.empty
      = (.ok true, Scope.empty) := by
  obtain ⟨r, h1, _, _, h4⟩ := lt_int_like_by_double ScopeCalls.inert Scope.empty
    [_StringLt, _NumericLt] (.int64 281462092005375) (.int64 281462092005376)
    (fun i hi => by simpa using hi)
    (List.mem_cons_of_mem _ (List.mem_cons_self _ _)) rfl rfl
  have hr : r = true := (h4 (by decide) (by decide)).mpr (by decide)
  rw [h1, hr]

/-! ## Applicable implementations and panics (C29) -/

/-- C29, as the code has it.  `_StringEq.Applicable` accepts two byte buffers
(both are string-like), and `_StringEq.Eq` then compares the two interface
values with `==`, which panics on the uncomparable type `[]byte`;
`_BoolString.Applicable` accepts a nil `*string`, and `_BoolString.Bool` then
evaluates `len(*t)`, a nil dereference.  Away from these two inputs the
applicable baseline implementations that call nothing through the scope
complete: `_BoolImpl`, `_BoolSlice`, `_BoolString`, `_StringEq`, `_StringLt`,
`_AddStrings`, `_SubstringMembership`, `_AddSlices`, `_AddSliceAny`; and
`_DivInt` returns `false` before dividing when the divisor is zero. -/
theorem applicable_apply_panics (hostEq : Any → Any → Except Panic Bool) (x y : List Byte) :
    (EqProtocol.Applicable (_StringEq hostEq) (.bytes x) (.bytes y) = .ok true ∧
      _StringEq.Eq hostEq (.bytes x) (.bytes y) = .error .uncomparable ∧
      ∀ scope s, EqProtocol.Eq (_StringEq hostEq) scope (.bytes x) (.bytes y) s
        = (.error .uncomparable, s)) ∧
    (BoolProtocol.Applicable _BoolString (.stringPtr none) = .ok true ∧
      _BoolString.Bool (.stringPtr none) = .error .nilDereference ∧
      ∀ scope s, BoolProtocol.Bool _BoolString scope (.stringPtr none) s
        = (.error .nilDereference, s)) ∧
    ((∀ a, _BoolImpl.Applicable a = true → ∃ r, _BoolImpl.Bool a = .ok r) ∧
      (∀ a, _BoolSlice.Applicable a = true → ∃ r, _BoolSlice.Bool a = .ok r) ∧
      (∀ a, _BoolString.Applicable a = true → a ≠ .stringPtr none →
        ∃ r, _BoolString.Bool a = .ok r)) ∧
    ((∀ a b, _StringEq.Applicable a b = .ok true → (∀ p q, ¬ (a = .bytes p ∧ b = .bytes q)) →
        ∃ r, _StringEq.Eq hostEq a b = .ok r) ∧
      (∀ a b, _StringLt.Applicable a b = .ok true → ∃ r, _StringLt.Lt a b = .ok r) ∧
      (∀ a b, _AddStrings.Applicable a b = .ok true → ∃ r, _AddStrings.Add a b = .ok r) ∧
      (∀ a b, _SubstringMembership.Applicable a b = .ok true →
        ∃ r, _SubstringMembership.Membership a b = .ok r)) ∧
    ((∀ a b, _AddSlices.Applicable a b = true → ∃ r, _AddSlices.Add a b = .ok r) ∧
      (∀ a b, _AddSliceAny.Applicable a b = true → ∃ r, _AddSliceAny.Add a b = .ok r) ∧
      (∀ a b, (to_int64 b).1 = 0 → _DivInt.Div a b = .bool false)) := by
  have hstr : ∀ a : Any, (∃ s, to_string a = .ok (s, true)) ∨ to_string a = .ok ([], false) ∨
      to_string a = .error .nilDereference := by
    intro a
    cases a <;> simp [to_string]
    case stringPtr p =>
      rcases p with _ | ⟨_, t⟩ <;> simp [to_string]
  have hpair : ∀ (f : GoString → GoString → Except Panic Bool) (a b : Any),
      (do
        let (_, a_ok) ← to_string a
        let (_, b_ok) ← to_string b
        pure (a_ok && b_ok) : Except Panic Bool) = .ok true →
      (∀ u v, ∃ r, f u v = .ok r) →
      ∃ r, (do
        let (a_str, _) ← to_string a
        let (b_str, _) ← to_string b
        f a_str b_str : Except Panic Bool) = .ok r := by
    intro f a b h hf
    rcases hstr a with ⟨u, hu⟩ | hu | hu <;> rcases hstr b with ⟨v, hv⟩ | hv | hv <;>
      simp only [hu, hv, bind, Except.bind, pure, Except.pure] at h ⊢ <;>
      first
        | exact hf _ _
        | (exfalso; simp at h)
  refine ⟨⟨rfl, rfl, fun _ _ => rfl⟩, ⟨rfl, rfl, fun _ _ => rfl⟩, ⟨?_, ?_, ?_⟩,
    ⟨?_, ?_, ?_, ?_⟩, ⟨?_, ?_, ?_⟩⟩
  · intro a h
    cases a <;> simp [_BoolImpl.Applicable] at h
    exact ⟨_, rfl⟩
  · intro a h
    simp only [_BoolSlice.Applicable] at h
    exact ⟨_, by simp only [_BoolSlice.Bool, reflect_Len_array a h]; rfl⟩
  · intro a h hne
    cases a <;> simp [_BoolString.Applicable] at h
    case string t => exact ⟨_, rfl⟩
    case stringPtr p =>
      rcases p with _ | ⟨_, t⟩
      · exact absurd rfl hne
      · exact ⟨_, rfl⟩
  · intro a b h hne
    have ha : ∃ s, to_string a = .ok (s, true) := by
      rcases hstr a with hu | hu | hu
      · exact hu
      · rcases hstr b with ⟨v, hv⟩ | hv | hv <;>
          simp [_StringEq.Applicable, hu, hv, bind, Except.bind, pure, Except.pure] at h
      · simp [_StringEq.Applicable, hu, bind, Except.bind] at h
    have hb : ∃ s, to_string b = .ok (s, true) := by
      obtain ⟨u, hu⟩ := ha
      rcases hstr b with hv | hv | hv
      · exact hv
      · simp [_StringEq.Applicable, hu, hv, bind, Except.bind, pure, Except.pure] at h
      · simp [_StringEq.Applicable, hu, hv, bind, Except.bind] at h
    obtain ⟨u, hu⟩ := ha
    obtain ⟨v, hv⟩ := hb
    cases a <;> simp [to_string] at hu <;> cases b <;> simp [to_string] at hv <;>
      first
        | exact ⟨_, rfl⟩
        | exact absurd ⟨rfl, rfl⟩ (hne _ _)
  · intro a b h
    exact hpair (fun u v => pure (stringLess u v)) a b h (fun _ _ => ⟨_, rfl⟩)
  · intro a b h
    rcases hstr a with ⟨u, hu⟩ | hu | hu <;> rcases hstr b with ⟨v, hv⟩ | hv | hv <;>
      simp only [_AddStrings.Applicable, _AddStrings.Add, hu, hv, bind, Except.bind, pure,
        Except.pure] at h ⊢ <;>
      first
        | exact ⟨_, rfl⟩
        | (exfalso; simp at h)
  · intro a b h
    exact hpair (fun u v => pure (strings_Contains v u)) a b h (fun _ _ => ⟨_, rfl⟩)
  · intro a b h
    simp only [_AddSlices.Applicable, Bool.and_eq_true] at h
    simp only [_AddSlices.Add, appendAll_array a h.1, bind, Except.bind,
      appendAll_array b h.2]
    exact ⟨_, rfl⟩
  · intro a b h
    simp only [_AddSliceAny.Applicable, Bool.or_eq_true] at h
    by_cases ha : is_array a = true
    · simp only [_AddSliceAny.Add, ha, if_true, appendAll_array a ha, bind, Except.bind]
      exact ⟨_, rfl⟩
    · have hb : is_array b = true := h.resolve_left ha
      simp only [_AddSliceAny.Add, ha, appendAll_array b hb, bind, Except.bind]
      exact ⟨_, rfl⟩
  · intro a b h
    simp [_DivInt.Div, h]

/-! ## Registration of further implementations (C30) -/

/-- The loop of `AddImpl` appends the elements in argument order. -/
theorem appendImpls_eq {I : Type} (impls elements : List I) :
    appendImpls impls elements = impls ++ elements := by
  unfold appendImpls
  induction elements generalizing impls with
  | nil => simp
  | cons e es ih => rw [List.foldl_cons, ih]; simp

/-- Implementations appended to a list in which one is applicable are never
consulted. -/
theorem dispatchLoop_append {I R : Type} (applicable : I → Except Panic Bool)
    (apply : I → Go R) (notFound : Go R) (l extra : List I)
    (h : ∃ j ∈ l, applicable j = .ok true) :
    dispatchLoop applicable apply notFound (l ++ extra)
      = dispatchLoop applicable apply notFound l := by
  induction l with
  | nil => obtain ⟨j, hj, _⟩ := h; cases hj
  | cons j rest ih =>
    funext s
    rw [List.cons_append]
    cases hj : applicable j with
    | error p => simp only [dispatchLoop, hj]
    | ok v =>
      cases v with
      | true => simp only [dispatchLoop, hj]
      | false =>
        have hrest : ∃ k ∈ rest, applicable k = .ok true := by
          obtain ⟨k, hk, hkt⟩ := h
          rcases List.mem_cons.mp hk with rfl | hk'
          · rw [hj] at hkt
            exact absurd (Except.ok.inj hkt) (by decide)
          · exact ⟨k, hk', hkt⟩
        simp only [dispatchLoop, hj]
        rw [ih hrest]

/-- When no implementation of a list is applicable, the implementations
appended to it are consulted next, in their order. -/
theorem dispatchLoop_append_none {I R : Type} (applicable : I → Except Panic Bool)
    (apply : I → Go R) (notFound : Go R) (l extra : List I)
    (h : ∀ j ∈ l, applicable j = .ok false) :
    dispatchLoop applicable apply notFound (l ++ extra)
      = dispatchLoop applicable apply notFound extra := by
  induction l with
  | nil => rfl
  | cons j rest ih =>
    funext s
    have hj : applicable j = .ok false := h j (List.mem_cons_self j rest)
    have hrest : ∀ k ∈ rest, applicable k = .ok false :=
      fun k hk => h k (List.mem_cons_of_mem j hk)
    rw [List.cons_append]
    simp only [dispatchLoop, hj]
    rw [ih hrest]

/-- C30: `AddImpl` on each of the ten dispatchers appends the given
implementations, in argument order, after the registered ones.  For operands
that some registered implementation accepts, the dispatcher's result after
`AddImpl` is its result before; where every registered implementation
declines, the added ones are consulted, in argument order. -/
theorem addImpl_appends (scope : ScopeCalls) (a b : Any) :
    (∀ (d : _BoolDispatcher) (e : List BoolProtocol),
      (d.AddImpl e).implementations = d.implementations ++ e ∧
      ((∃ j ∈ d.implementations, j.Applicable a = .ok true) →
        (d.AddImpl e).Bool scope a = d.Bool scope a) ∧
      ((∀ j ∈ d.implementations, j.Applicable a = .ok false) →
        (d.AddImpl e).Bool scope a = _BoolDispatcher.Bool ⟨e⟩ scope a)) ∧
    (∀ (d : _EqDispatcher) (e : List EqProtocol),
      (d.AddImpl e).impl = d.impl ++ e ∧
      ((∃ j ∈ d.impl, j.Applicable a b = .ok true) →
        (d.AddImpl e).Eq scope a b = d.Eq scope a b) ∧
      ((∀ j ∈ d.impl, j.Applicable a b = .ok false) →
        (d.AddImpl e).Eq scope a b = _EqDispatcher.Eq ⟨e⟩ scope a b)) ∧
    (∀ (d : _LtDispatcher) (e : List LtProtocol),
      (d.AddImpl e).impl = d.impl ++ e ∧
      ((∃ j ∈ d.impl, j.Applicable a b = .ok true) →
        (d.AddImpl e).Lt scope a b = d.Lt scope a b) ∧
      ((∀ j ∈ d.impl, j.Applicable a b = .ok false) →
        (d.AddImpl e).Lt scope a b = _LtDispatcher.Lt ⟨e⟩ scope a b)) ∧
    (∀ (d : _AddDispatcher) (e : List AddProtocol),
      (d.AddImpl e).impl = d.impl ++ e ∧
      ((∃ j ∈ d.impl, j.Applicable a b = .ok true) →
        (d.AddImpl e).Add scope a b = d.Add scope a b) ∧
      ((∀ j ∈ d.impl, j.Applicable a b = .ok false) →
        (d.AddImpl e).Add scope a b = _AddDispatcher.Add ⟨e⟩ scope a b)) ∧
    (∀ (d : _SubDispatcher) (e : List SubProtocol),
      (d.AddImpl e).impl = d.impl ++ e ∧
      ((∃ j ∈ d.impl, j.Applicable a b = .ok true) →
        (d.AddImpl e).Sub scope a b = d.Sub scope a b) ∧
      ((∀ j ∈ d.impl, j.Applicable a b = .ok false) →
        (d.AddImpl e).Sub scope a b = _SubDispatcher.Sub ⟨e⟩ scope a b)) ∧
    (∀ (d : _MulDispatcher) (e : List MulProtocol),
      (d.AddImpl e).impl = d.impl ++ e ∧
      ((∃ j ∈ d.impl, j.Applicable a b = .ok true) →
        (d.AddImpl e).Mul scope a b = d.Mul scope a b) ∧
      ((∀ j ∈ d.impl, j.Applicable a b = .ok false) →
        (d.AddImpl e).Mul scope a b = _MulDispatcher.Mul ⟨e⟩ scope a b)) ∧
    (∀ (d : _DivDispatcher) (e : List DivProtocol),
      (d.AddImpl e).impl = d.impl ++ e ∧
      ((∃ j ∈ d.impl, j.Applicable a b = .ok true) →
        (d.AddImpl e).Div scope a b = d.Div scope a b) ∧
      ((∀ j ∈ d.impl, j.Applicable a b = .ok false) →
        (d.AddImpl e).Div scope a b = _DivDispatcher.Div ⟨e⟩ scope a b)) ∧
    (∀ (d : _MembershipDispatcher) (e : List MembershipProtocol),
      (d.AddImpl e).impl = d.impl ++ e ∧
      ((∃ j ∈ d.impl, j.Applicable a b = .ok true) →
        (d.AddImpl e).Membership scope a b = d.Membership scope a b) ∧
      ((∀ j ∈ d.impl, j.Applicable a b = .ok false) →
        (d.AddImpl e).Membership scope a b = _MembershipDispatcher.Membership ⟨e⟩ scope a b)) ∧
    (∀ (d : _RegexDispatcher) (e : List RegexProtocol),
      (d.AddImpl e).impl = d.impl ++ e ∧
      ((∃ j ∈ d.impl, j.Applicable a b = .ok true) →
        (d.AddImpl e).Match scope a b = d.Match scope a b) ∧
      ((∀ j ∈ d.impl, j.Applicable a b = .ok false) →
        (d.AddImpl e).Match scope a b = _RegexDispatcher.Match ⟨e⟩ scope a b)) ∧
    (∀ (d : _AssociativeDispatcher) (e : List AssociativeProtocol)
        (last : ScopeCalls → Any → Any → Go (Any × Bool)),
      (d.AddImpl e).impl = d.impl ++ e ∧
      ((∃ j ∈ d.impl, j.Applicable a b = .ok true) →
        (d.AddImpl e).Associative last scope a b = d.Associative last scope a b) ∧
      ((∀ j ∈ d.impl, j.Applicable a b = .ok false) →
        (d.AddImpl e).Associative last scope a b
          = _AssociativeDispatcher.Associative ⟨e⟩ last scope a b)) := by
  refine ⟨?_, ?_, ?_, ?_, ?_, ?_, ?_, ?_, ?_, ?_⟩
  · intro d e
    refine ⟨appendImpls_eq _ _, fun h => ?_, fun h => ?_⟩
    · simp only [_BoolDispatcher.Bool, _BoolDispatcher.AddImpl, appendImpls_eq]
      exact dispatchLoop_append _ _ _ _ _ h
    · simp only [_BoolDispatcher.Bool, _BoolDispatcher.AddImpl, appendImpls_eq]
      exact dispatchLoop_append_none _ _ _ _ _ h
  · intro d e
    refine ⟨appendImpls_eq _ _, fun h => ?_, fun h => ?_⟩
    · simp only [_EqDispatcher.Eq, _EqDispatcher.AddImpl, appendImpls_eq]
      exact dispatchLoop_append _ _ _ _ _ h
    · simp only [_EqDispatcher.Eq, _EqDispatcher.AddImpl, appendImpls_eq]
      exact dispatchLoop_append_none _ _ _ _ _ h
  · intro d e
    refine ⟨appendImpls_eq _ _, fun h => ?_, fun h => ?_⟩
    · simp only [_LtDispatcher.Lt, _LtDispatcher.AddImpl, appendImpls_eq]
      exact dispatchLoop_append _ _ _ _ _ h
    · simp only [_LtDispatcher.Lt, _LtDispatcher.AddImpl, appendImpls_eq]
      exact dispatchLoop_append_none _ _ _ _ _ h
  · intro d e
    refine ⟨appendImpls_eq _ _, fun h => ?_, fun h => ?_⟩
    · simp only [_AddDispatcher.Add, _AddDispatcher.AddImpl, appendImpls_eq]
      exact dispatchLoop_append _ _ _ _ _ h
    · simp only [_AddDispatcher.Add, _AddDispatcher.AddImpl, appendImpls_eq]
      exact dispatchLoop_append_none _ _ _ _ _ h
  · intro d e
    refine ⟨appendImpls_eq _ _, fun h => ?_, fun h => ?_⟩
    · simp only [_SubDispatcher.Sub, _SubDispatcher.AddImpl, appendImpls_eq]
      exact dispatchLoop_append _ _ _ _ _ h
    · simp only [_SubDispatcher.Sub, _SubDispatcher.AddImpl, appendImpls_eq]
      exact dispatchLoop_append_none _ _ _ _ _ h
  · intro d e
    refine ⟨appendImpls_eq _ _, fun h => ?_, fun h => ?_⟩
    · simp only [_MulDispatcher.Mul, _MulDispatcher.AddImpl, appendImpls_eq]
      exact dispatchLoop_append _ _ _ _ _ h
    · simp only [_MulDispatcher.Mul, _MulDispatcher.AddImpl, appendImpls_eq]
      exact dispatchLoop_append_none _ _ _ _ _ h
  · intro d e
    refine ⟨appendImpls_eq _ _, fun h => ?_, fun h => ?_⟩
    · simp only [_DivDispatcher.Div, _DivDispatcher.AddImpl, appendImpls_eq]
      exact dispatchLoop_append _ _ _ _ _ h
    · simp only [_DivDispatcher.Div, _DivDispatcher.AddImpl, appendImpls_eq]
      exact dispatchLoop_append_none _ _ _ _ _ h
  · intro d e
    refine ⟨appendImpls_eq _ _, fun h => ?_, fun h => ?_⟩
    · unfold _MembershipDispatcher.Membership
      simp only [_MembershipDispatcher.AddImpl, appendImpls_eq]
      exact dispatchLoop_append _ _ _ _ _ h
    · unfold _MembershipDispatcher.Membership
      simp only [_MembershipDispatcher.AddImpl, appendImpls_eq]
      exact dispatchLoop_append_none _ _ _ _ _ h
  · intro d e
    refine ⟨appendImpls_eq _ _, fun h => ?_, fun h => ?_⟩
    · simp only [_RegexDispatcher.Match, _RegexDispatcher.AddImpl, appendImpls_eq]
      exact dispatchLoop_append _ _ _ _ _ h
    · simp only [_RegexDispatcher.Match, _RegexDispatcher.AddImpl, appendImpls_eq]
      exact dispatchLoop_append_none _ _ _ _ _ h
  · intro d e last
    refine ⟨appendImpls_eq _ _, fun h => ?_, fun h => ?_⟩
    · simp only [_AssociativeDispatcher.Associative, _AssociativeDispatcher.AddImpl,
        appendImpls_eq]
      exact dispatchLoop_append _ _ _ _ _ h
    · simp only [_AssociativeDispatcher.Associative, _AssociativeDispatcher.AddImpl,
        appendImpls_eq]
      exact dispatchLoop_append_none _ _ _ _ _ h

/-- Closed instance of C30: after `_NumericEq` is added to an Eq dispatcher
holding `_IntEq`, the list is `[_IntEq, _NumericEq]` and the result on the
`int` operands 1 and 1 is unchanged; on the doubles 1.5 and 1.5, which
`_IntEq` declines, the added implementation answers. -/
theorem addImpl_appends_witness :
    (_EqDispatcher.AddImpl ⟨[_IntEq]⟩ [_NumericEq]).impl = [_IntEq] ++ [_NumericEq] ∧
    _EqDispatcher.Eq (_EqDispatcher.AddImpl ⟨[_IntEq]⟩ [_NumericEq]) ScopeCalls.inert
        (.int 1) (.int 1)
      = _EqDispatcher.Eq ⟨[_IntEq]⟩ ScopeCalls.inert (.int 1) (.int 1) ∧
    _EqDispatcher.Eq (_EqDispatcher.AddImpl ⟨[_IntEq]⟩ [_NumericEq]) ScopeCalls.inert
        (.float64 (.finite (3 / 2))) (.float64 (.finite (3 / 2)))
      = _EqDispatcher.Eq ⟨[_NumericEq]⟩ ScopeCalls.inert
        (.float64 (.finite (3 / 2))) (.float64 (.finite (3 / 2))) :=
  ⟨((addImpl_appends ScopeCalls.inert (.int 1) (.int 1)).2.1 ⟨[_IntEq]⟩ [_NumericEq]).1,
    ((addImpl_appends ScopeCalls.inert (.int 1) (.int 1)).2.1 ⟨[_IntEq]⟩ [_NumericEq]).2.1
      ⟨_IntEq, List.mem_cons_self _ _, rfl⟩,
    ((addImpl_appends ScopeCalls.inert (.float64 (.finite (3 / 2)))
        (.float64 (.finite (3 / 2)))).2.1 ⟨[_IntEq]⟩ [_NumericEq]).2.2
      (fun j hj => by
        rw [List.mem_singleton.mp hj]
        rfl)⟩

/-! ## Symmetry of the Eq dispatcher (C31) -/

/-- An element of a list is nested no deeper than the list's deepest one. -/
theorem arrayDepthList_mem (l : List Any) (x : Any) (hx : x ∈ l) :
    arrayDepth x ≤ arrayDepthList l := by
  induction l with
  | nil => cases hx
  | cons y ys ih =>
    rw [arrayDepthList]
    rcases List.mem_cons.mp hx with rfl | h
    · exact le_max_left _ _
    · exact le_trans (ih h) (le_max_right _ _)

/-- An element of an array is nested less deeply than the array. -/
theorem arrayDepth_elem (a x : Any) (hx : x ∈ sequenceElems a) :
    arrayDepth x < arrayDepth a := by
  cases a <;> simp only [sequenceElems, List.not_mem_nil] at hx
  case bytes b =>
    obtain ⟨c, _, rfl⟩ := List.mem_map.mp hx
    simp [arrayDepth]
  case slice l =>
    rw [arrayDepth]
    exact Nat.lt_succ_of_le (arrayDepthList_mem l x hx)
  case array l =>
    rw [arrayDepth]
    exact Nat.lt_succ_of_le (arrayDepthList_mem l x hx)

/-- Go `==` on doubles is symmetric. -/
theorem float64_eq_symm (x y : Float64) : x.eq y = y.eq x := by
  cases x <;> cases y <;> simp [Float64.eq, Float64.value?, eq_comm]

/-- The string-like values: a `string`, a non-nil `*string`, a `[]byte`. -/
theorem string_like_cases (a : Any) (u : GoString) (h : to_string a = .ok (u, true)) :
    a = .string u ∨ (∃ p, a = .stringPtr (some (p, u))) ∨ a = .bytes u := by
  cases a <;> simp [to_string] at h
  case string t => exact Or.inl (by rw [h])
  case bytes t => exact Or.inr (Or.inr (by rw [h]))
  case stringPtr p =>
    rcases p with _ | ⟨q, t⟩
    · simp [to_string] at h
    · simp [to_string] at h
      exact Or.inr (Or.inl ⟨q, by rw [h]⟩)

/-- `_StringEq.Applicable` does not depend on the order of its operands, a
panic on a nil `*string` included. -/
theorem stringEq_Applicable_symm (a b : Any) :
    _StringEq.Applicable a b = _StringEq.Applicable b a := by
  rcases to_string_cases a with ⟨u, hu⟩ | hu | hu <;>
    rcases to_string_cases b with ⟨v, hv⟩ | hv | hv <;>
    simp [_StringEq.Applicable, hu, hv, bind, Except.bind, pure, Except.pure]

/-- Where `_StringEq` is applicable both operands are string-like. -/
theorem stringEq_Applicable_true (a b : Any) (h : _StringEq.Applicable a b = .ok true) :
    (∃ u, to_string a = .ok (u, true)) ∧ (∃ v, to_string b = .ok (v, true)) := by
  rcases to_string_cases a with ⟨u, hu⟩ | hu | hu <;>
    rcases to_string_cases b with ⟨v, hv⟩ | hv | hv <;>
    simp [_StringEq.Applicable, hu, hv, bind, Except.bind, pure, Except.pure] at h ⊢

/-- On string-like operands `a == b` and `b == a` end the same way. -/
theorem stringEq_Eq_symm (hostEq : Any → Any → Except Panic Bool) (a b : Any)
    (h : _StringEq.Applicable a b = .ok true) :
    _StringEq.Eq hostEq a b = _StringEq.Eq hostEq b a := by
  obtain ⟨⟨u, hu⟩, ⟨v, hv⟩⟩ := stringEq_Applicable_true a b h
  rcases string_like_cases a u hu with rfl | ⟨p, rfl⟩ | rfl <;>
    rcases string_like_cases b v hv with rfl | ⟨q, rfl⟩ | rfl <;>
    simp [_StringEq.Eq, interfaceEq, pointerEq, eq_comm]

/-- The loop of `_ArrayEq.Eq` ends the same way on `(a, b)` and on `(b, a)`
when the scope's Eq does so on every pair of elements. -/
theorem arrayEqLoop_symm (sc sc' : ScopeCalls) (a b : Any) (ha : is_array a = true)
    (hb : is_array b = true)
    (hlen : (sequenceElems a).length = (sequenceElems b).length)
    (H : ∀ x ∈ sequenceElems a, ∀ y ∈ sequenceElems b, ∀ s s',
      (sc.eq_Eq x y s).1 = (sc'.eq_Eq y x s').1) :
    ∀ (todo i : Nat) (s s' : Scope), i + todo = (sequenceElems a).length →
      (arrayEqLoop sc a b todo i s).1 = (arrayEqLoop sc' b a todo i s').1 := by
  intro todo
  induction todo with
  | zero => intro i s s' _; rfl
  | succ n ih =>
    intro i s s' hi
    have hia : i < (sequenceElems a).length := by omega
    have hib : i < (sequenceElems b).length := by omega
    have hxa := List.getElem?_eq_getElem hia
    have hyb := List.getElem?_eq_getElem hib
    rw [arrayEqLoop_succ, arrayEqLoop_succ, reflect_Index_array a ha i,
      reflect_Index_array b hb i, hxa, hyb]
    simp only []
    have hv := H _ (List.getElem_mem hia) _ (List.getElem_mem hib) s s'
    rcases h1 : sc.eq_Eq (sequenceElems a)[i] (sequenceElems b)[i] s with ⟨r, s1⟩
    rcases h2 : sc'.eq_Eq (sequenceElems b)[i] (sequenceElems a)[i] s' with ⟨r', s2⟩
    rw [h1, h2] at hv
    simp only at hv
    subst hv
    cases r with
    | error p => rfl
    | ok v =>
      cases v with
      | false => rfl
      | true => exact ih (i + 1) s1 s2 (by omega)

/-- `_ArrayEq.Eq` ends the same way on `(a, b)` and on `(b, a)` when the
scope's Eq does so on every pair of elements. -/
theorem arrayEq_Eq_symm (sc sc' : ScopeCalls) (a b : Any) (ha : is_array a = true)
    (hb : is_array b = true)
    (H : ∀ x ∈ sequenceElems a, ∀ y ∈ sequenceElems b, ∀ s s',
      (sc.eq_Eq x y s).1 = (sc'.eq_Eq y x s').1) (s s' : Scope) :
    (_ArrayEq.Eq sc a b s).1 = (_ArrayEq.Eq sc' b a s').1 := by
  simp only [_ArrayEq.Eq, bind, Go.bind, Go.ofExcept, reflect_Len_array a ha,
    reflect_Len_array b hb]
  by_cases hlen : (sequenceElems a).length = (sequenceElems b).length
  · have h1 : ((sequenceElems a).length != (sequenceElems b).length) = false := by
      simp [hlen]
    have h2 : ((sequenceElems b).length != (sequenceElems a).length) = false := by
      simp [hlen]
    simp only [h1, h2]
    rw [← hlen]
    exact arrayEqLoop_symm sc sc' a b ha hb hlen H _ 0 s s' (by simp)
  · have h1 : ((sequenceElems a).length != (sequenceElems b).length) = true := by
      simp [hlen]
    have h2 : ((sequenceElems b).length != (sequenceElems a).length) = true := by
      simp [Ne.symm hlen]
    simp only [h1, h2]
    rfl

/-- Each baseline Eq implementation accepts `(a, b)` exactly when it accepts
`(b, a)`, and where it does its `Eq` ends the same way on both, given that
the scope's Eq does so on the elements. -/
theorem baseline_eq_symm (hostEq : Any → Any → Except Panic Bool) (impl : EqProtocol)
    (himpl : impl = _IntEq ∨ impl = _NumericEq ∨ impl = _StringEq hostEq ∨ impl = _ArrayEq)
    (sc sc' : ScopeCalls) (a b : Any) :
    impl.Applicable a b = impl.Applicable b a ∧
    (impl.Applicable a b = .ok true →
      (∀ x ∈ sequenceElems a, ∀ y ∈ sequenceElems b, ∀ s s',
        (sc.eq_Eq x y s).1 = (sc'.eq_Eq y x s').1) →
      ∀ s s', (impl.Eq sc a b s).1 = (impl.Eq sc' b a s').1) := by
  rcases himpl with rfl | rfl | rfl | rfl
  · refine ⟨congrArg Except.ok (Bool.and_comm _ _), fun _ _ s s' => ?_⟩
    show Except.ok (_IntEq.Eq a b) = Except.ok (_IntEq.Eq b a)
    simp only [_IntEq.Eq, eq_comm]
  · refine ⟨congrArg Except.ok (Bool.and_comm _ _), fun _ _ s s' => ?_⟩
    show Except.ok (_NumericEq.Eq a b) = Except.ok (_NumericEq.Eq b a)
    simp only [_NumericEq.Eq, float64_eq_symm (to_float a).1]
  · refine ⟨stringEq_Applicable_symm a b, fun h _ s s' => ?_⟩
    show _StringEq.Eq hostEq a b = _StringEq.Eq hostEq b a
    exact stringEq_Eq_symm hostEq a b h
  · refine ⟨congrArg Except.ok (Bool.and_comm _ _), fun h H s s' => ?_⟩
    have h' : _ArrayEq.Applicable a b = true := Except.ok.inj h
    simp only [_ArrayEq.Applicable, Bool.and_eq_true] at h'
    exact arrayEq_Eq_symm sc sc' a b h'.1 h'.2 H s s'

/-- An Eq dispatcher made of baseline implementations ends the same way on
`(a, b)` and on `(b, a)`, given that the scope's Eq does so on the elements;
the scope state it starts from does not matter. -/
theorem eqDispatch_symm (hostEq : Any → Any → Except Panic Bool) (l : List EqProtocol)
    (hl : ∀ i ∈ l, i = _IntEq ∨ i = _NumericEq ∨ i = _StringEq hostEq ∨ i = _ArrayEq)
    (sc sc' : ScopeCalls) (a b : Any)
    (H : ∀ x ∈ sequenceElems a, ∀ y ∈ sequenceElems b, ∀ s s',
      (sc.eq_Eq x y s).1 = (sc'.eq_Eq y x s').1) (s s' : Scope) :
    (_EqDispatcher.Eq ⟨l⟩ sc a b s).1 = (_EqDispatcher.Eq ⟨l⟩ sc' b a s').1 := by
  unfold _EqDispatcher.Eq
  induction l with
  | nil => rfl
  | cons impl rest ih =>
    obtain ⟨happ, heq⟩ := baseline_eq_symm hostEq impl (hl impl (List.mem_cons_self _ _))
      sc sc' a b
    have hrest := ih (fun i hi => hl i (List.mem_cons_of_mem _ hi))
    simp only [dispatchLoop]
    rw [← happ]
    cases hj : impl.Applicable a b with
    | error p => rfl
    | ok v =>
      cases v with
      | true => exact heq hj H s s'
      | false => exact hrest

/-- With the scope's Eq the dispatcher itself, the dispatcher ends the same
way on `(a, b)` and on `(b, a)` once the re-entrant calls may nest as deep as
the shallower operand. -/
theorem eqDispatcher_symm_core (hostEq : Any → Any → Except Panic Bool) (l : List EqProtocol)
    (hl : ∀ i ∈ l, i = _IntEq ∨ i = _NumericEq ∨ i = _StringEq hostEq ∨ i = _ArrayEq) :
    ∀ (n m : Nat) (base base' : ScopeCalls) (a b : Any) (s s' : Scope),
      (arrayDepth a ≤ n ∨ arrayDepth b ≤ n) → (arrayDepth a ≤ m ∨ arrayDepth b ≤ m) →
      (_EqDispatcher.Eq ⟨l⟩ (ScopeCalls.ofEq ⟨l⟩ base n) a b s).1
        = (_EqDispatcher.Eq ⟨l⟩ (ScopeCalls.ofEq ⟨l⟩ base' m) b a s').1 := by
  intro n
  induction n with
  | zero =>
    intro m base base' a b s s' hn hm
    apply eqDispatch_symm hostEq l hl
    intro x hx y hy
    have hxa := arrayDepth_elem a x hx
    have hyb := arrayDepth_elem b y hy
    omega
  | succ k ih =>
    intro m base base' a b s s' hn hm
    apply eqDispatch_symm hostEq l hl
    intro x hx y hy t t'
    have hxa := arrayDepth_elem a x hx
    have hyb := arrayDepth_elem b y hy
    cases m with
    | zero => omega
    | succ j => exact ih j base base' x y t t' (by omega) (by omega)

/-- C31: an Eq dispatcher made of the baseline implementations `_IntEq`,
`_NumericEq`, `_StringEq` and `_ArrayEq`, in any order, which is also the
scope's own Eq dispatcher (the one `_ArrayEq` calls on the elements), ends
the same way on `(a, b)` and on `(b, a)`: the same boolean, or the same panic.
This holds for all values, arrays nested to any depth included, once
re-entrant calls may nest as deep as the shallower operand; from that depth
on the outcome depends neither on the depth allowed, nor on what lies below
it, nor on the state of the scope. -/
theorem eq_dispatcher_symmetric (hostEq : Any → Any → Except Panic Bool)
    (l : List EqProtocol)
    (hl : ∀ i ∈ l, i = _IntEq ∨ i = _NumericEq ∨ i = _StringEq hostEq ∨ i = _ArrayEq)
    (base base' : ScopeCalls) (a b : Any) (n m : Nat) (s s' : Scope)
    (hn : arrayDepth a ≤ n ∨ arrayDepth b ≤ n) (hm : arrayDepth a ≤ m ∨ arrayDepth b ≤ m) :
    (_EqDispatcher.Eq ⟨l⟩ (ScopeCalls.ofEq ⟨l⟩ base n) a b s).1
      = (_EqDispatcher.Eq ⟨l⟩ (ScopeCalls.ofEq ⟨l⟩ base' m) b a s').1 ∧
    (_EqDispatcher.Eq ⟨l⟩ (ScopeCalls.ofEq ⟨l⟩ base n) a b s).1
      = (_EqDispatcher.Eq ⟨l⟩ (ScopeCalls.ofEq ⟨l⟩ base' m) a b s').1 := by
  have hsym := eqDispatcher_symm_core hostEq l hl n m base base' a b s s' hn hm
  have hback := eqDispatcher_symm_core hostEq l hl m m base' base' b a s' s'
    (Or.symm hm) (Or.symm hm)
  exact ⟨hsym, hsym.trans hback⟩

/-- Closed instance of C31: the nested list `(1, ('a'))` holding an `int`
and the nested list `(1, ('b'))` holding an `int64` end the same way in both
directions, namely `false`; against `(1, ('a'))` the result is `true`. -/
theorem eq_dispatcher_symmetric_witness :
    ((_EqDispatcher.Eq ⟨[_IntEq, _NumericEq, _StringEq (fun _ _ => .ok false), _ArrayEq]⟩
        (ScopeCalls.ofEq ⟨[_IntEq, _NumericEq, _StringEq (fun _ _ => .ok false), _ArrayEq]⟩
          ScopeCalls.inert 2)
        (.slice [.int 1, .slice [.string [97]]]) (.slice [.int64 1, .slice [.string [98]]])
        Scope.empty).1
      = (_EqDispatcher.Eq ⟨[_IntEq, _NumericEq, _StringEq (fun _ _ => .ok false), _ArrayEq]⟩
        (ScopeCalls.ofEq ⟨[_IntEq, _NumericEq, _StringEq (fun _ _ => .ok false), _ArrayEq]⟩
          ScopeCalls.inert 2)
        (.slice [.int64 1, .slice [.string [98]]]) (.slice [.int 1, .slice [.string [97]]])
        Scope.empty).1) ∧
    (_EqDispatcher.Eq ⟨[_IntEq, _NumericEq, _StringEq (fun _ _ => .ok false), _ArrayEq]⟩
        (ScopeCalls.ofEq ⟨[_IntEq, _NumericEq, _StringEq (fun _ _ => .ok false), _ArrayEq]⟩
          ScopeCalls.inert 2)
        (.slice [.int 1, .slice [.string [97]]]) (.slice [.int64 1, .slice [.string [98]]])
        Scope.empty).1 = .ok false ∧
    (_EqDispatcher.Eq ⟨[_IntEq, _NumericEq, _StringEq (fun _ _ => .ok false), _ArrayEq]⟩
        (ScopeCalls.ofEq ⟨[_IntEq, _NumericEq, _StringEq (fun _ _ => .ok false), _ArrayEq]⟩
          ScopeCalls.inert 2)
        (.slice [.int 1, .slice [.string [97]]]) (.slice [.int64 1, .slice [.string [97]]])
        Scope.empty).1 = .ok true :=
  ⟨(eq_dispatcher_symmetric (fun _ _ => .ok false)
      [_IntEq, _NumericEq, _StringEq (fun _ _ => .ok false), _ArrayEq]
      (fun i hi => by simpa using hi) ScopeCalls.inert ScopeCalls.inert
      (.slice [.int 1, .slice [.string [97]]]) (.slice [.int64 1, .slice [.string [98]]])
      2 2 Scope.empty Scope.empty (Or.inl (by decide)) (Or.inl (by decide))).1,
    rfl, rfl⟩

end VFilter
